import Mathlib

/-!
Centurion: the fdlibm kernels of the native math library.

A shallow embedding of the elementary math kernels found under
`native/libfdlibm` (`e_remainder.c`, `s_logb.c`, `e_sinh.c`, `e_cosh.c`).

* A `double` is its 64-bit IEEE-754 binary64 pattern (`Double.bits`).
* The C `int`/`unsigned` locals of the kernels are 32-bit patterns held in
  `Nat`; `sint` gives the two's complement reading used by signed
  comparisons, `sub32` the wrapping subtraction.
* The C operators `+ - * /`, the comparisons and the `int`-to-`double`
  conversion are the IEEE-754 operations in the default rounding mode
  (round to nearest, ties to even).  They are computed exactly on integers:
  every finite double is a whole multiple of `2^-1074`, and `natVal` gives
  the magnitude of a double in that unit.
* Every operation whose result is a NaN returns the canonical quiet NaN
  `0x7ff8000000000000`; IEEE-754 leaves sign and payload of a NaN result
  open, and the theorems only ever ask whether a result is a NaN.
-/

namespace Centurion

/-! ## The 64-bit pattern of a double and its two 32-bit words -/

/-- An IEEE-754 binary64 value, given by its 64-bit pattern. -/
structure Double where
  /-- The 64-bit pattern: sign (bit 63), exponent field (bits 62-52),
  mantissa (bits 51-0). -/
  bits : Nat
  /-- The pattern fits 64 bits. -/
  isLt : bits < 2 ^ 64

instance : DecidableEq Double := fun a b =>
  match a, b with
  | ⟨m, hm⟩, ⟨n, hn⟩ =>
    if h : m = n then isTrue (by subst h; rfl)
    else isFalse (fun e => h (congrArg Double.bits e))

/-- The double with the given pattern (reduced to 64 bits). -/
def Double.ofBits (n : Nat) : Double := ⟨n % 2 ^ 64, Nat.mod_lt _ (by decide)⟩

/-- Modelled from the spec: the accessor `__HI` of `fdlibm.h` (not among the
sources), the high 32-bit word of a double: sign, exponent field and the
upper 20 mantissa bits. -/
def HI (x : Double) : Nat := x.bits / 2 ^ 32

/-- Modelled from the spec: the accessor `__LO` of `fdlibm.h` (not among the
sources), the low 32-bit word of a double: the lower 32 mantissa bits. -/
def LO (x : Double) : Nat := x.bits % 2 ^ 32

/-- The double rebuilt from a high and a low word. -/
def Double.ofWords (hi lo : Nat) : Double :=
  Double.ofBits ((hi % 2 ^ 32) * 2 ^ 32 + lo % 2 ^ 32)

/-- Modelled from the spec: the assignment `__HI(x) = h` through the accessor
of `fdlibm.h`: the high word is replaced, the low word is kept. -/
def setHI (x : Double) (h : Nat) : Double := Double.ofWords h (LO x)

/-- Two's complement reading of a 32-bit pattern, the value of a C `int`. -/
def sint (w : Nat) : Int := if w < 2 ^ 31 then (w : Int) else (w : Int) - 2 ^ 32

/-- Wrapping 32-bit subtraction: `a - b` on `unsigned`, and on `int` followed
by the conversion to `unsigned` that `|` with an `unsigned` operand applies. -/
def sub32 (a b : Nat) : Nat := (a + 2 ^ 32 - b % 2 ^ 32) % 2 ^ 32

/-- The 32-bit word at word index `i` of the memory image of `x`; the high
word comes first on a big-endian layout, second on a little-endian one. -/
def wordAt (bigEndian : Bool) (x : Double) (i : Nat) : Nat :=
  if bigEndian then (if i = 0 then HI x else LO x)
  else (if i = 0 then LO x else HI x)

/-! ## Fields and classes of a double -/

/-- The sign bit. -/
def Double.sign (x : Double) : Nat := x.bits / 2 ^ 63

/-- The 63-bit magnitude pattern: exponent field and mantissa. -/
def Double.mag (x : Double) : Nat := x.bits % 2 ^ 63

/-- The 11-bit biased exponent field. -/
def Double.expo (x : Double) : Nat := x.bits / 2 ^ 52 % 2 ^ 11

/-- The 52-bit mantissa field. -/
def Double.mant (x : Double) : Nat := x.bits % 2 ^ 52

/-- The magnitude pattern of an infinity: exponent field all ones, mantissa 0. -/
def infMag : Nat := 0x7ff0000000000000

/-- The value is a NaN: exponent field all ones, mantissa nonzero. -/
def Double.isNaN (x : Double) : Prop := infMag < x.mag

/-- The value is an infinity. -/
def Double.isInf (x : Double) : Prop := x.mag = infMag

/-- The value is finite: neither an infinity nor a NaN. -/
def Double.isFinite (x : Double) : Prop := x.mag < infMag

/-- The value is a zero, of either sign. -/
def Double.isZero (x : Double) : Prop := x.mag = 0

instance (x : Double) : Decidable x.isNaN := by unfold Double.isNaN; infer_instance
instance (x : Double) : Decidable x.isInf := by unfold Double.isInf; infer_instance
instance (x : Double) : Decidable x.isFinite := by unfold Double.isFinite; infer_instance
instance (x : Double) : Decidable x.isZero := by unfold Double.isZero; infer_instance

/-- The double with sign bit `s` and magnitude pattern `m`. -/
def mkD (s m : Nat) : Double := Double.ofBits ((s % 2) * 2 ^ 63 + m % 2 ^ 63)

/-- The canonical quiet NaN. -/
def qNaN : Double := ⟨0x7ff8000000000000, by decide⟩

/-- The magnitude encoded by a magnitude pattern, in units of `2^-1074`:
`M` for a subnormal, `(2^52 + M) * 2^(E-1)` for exponent field `E ≥ 1`.
The pattern of an infinity reads as `2^1024`, above every finite value. -/
def natVal (m : Nat) : Nat :=
  if m / 2 ^ 52 = 0 then m % 2 ^ 52 else (2 ^ 52 + m % 2 ^ 52) * 2 ^ (m / 2 ^ 52 - 1)

/-- The value of a finite double (and `±2^1024` for an infinity) in units of
`2^-1074`, as a signed integer. -/
def Double.toInt (x : Double) : Int :=
  if x.sign = 1 then -(natVal x.mag : Int) else (natVal x.mag : Int)

/-- The value of a finite double as a rational number. -/
def Double.toRat (x : Double) : ℚ := (x.toInt : ℚ) / 2 ^ 1074

/-! ## Rounding to nearest, ties to even -/

/-- The number of halvings that bring `q` below `2^53`: the exponent of the
unit in the last place of a 53-bit significand for `q`. -/
def expoShift : Nat → Nat → Nat
  | 0, _ => 0
  | f + 1, q => if q < 2 ^ 53 then 0 else expoShift f (q / 2) + 1

/-- The integer nearest to `a / d`, the even one of the two on a tie. -/
def rne (a d : Nat) : Nat :=
  if 2 * (a % d) < d then a / d
  else if d < 2 * (a % d) then a / d + 1
  else a / d + (a / d) % 2

/-- The magnitude pattern of the double nearest to `a / b` (in units of
`2^-1074`), ties to even; a result of `2^1024` or more is the infinity. -/
def roundMag (a b : Nat) : Nat :=
  let k := expoShift 4096 (a / b)
  min (k * 2 ^ 52 + rne a (b * 2 ^ k)) infMag

/-! ## IEEE-754 arithmetic on doubles -/

/-- Sign flip, the unary minus of C. -/
def fneg (x : Double) : Double := mkD (x.sign + 1) x.mag

/-- Modelled from the spec: `fabs` (`s_fabs.c` is not among the sources),
which strips the sign bit and leaves every other bit. -/
def fabs (x : Double) : Double := mkD 0 x.mag

/-- IEEE-754 multiplication, the C operator `*` on doubles. -/
def fmul (x y : Double) : Double :=
  if x.isNaN ∨ y.isNaN then qNaN
  else if x.isInf ∨ y.isInf then
    (if x.isZero ∨ y.isZero then qNaN else mkD (x.sign + y.sign) infMag)
  else mkD (x.sign + y.sign) (roundMag (natVal x.mag * natVal y.mag) (2 ^ 1074))

/-- IEEE-754 division, the C operator `/` on doubles. -/
def fdiv (x y : Double) : Double :=
  if x.isNaN ∨ y.isNaN then qNaN
  else if x.isInf then (if y.isInf then qNaN else mkD (x.sign + y.sign) infMag)
  else if y.isInf then mkD (x.sign + y.sign) 0
  else if y.isZero then (if x.isZero then qNaN else mkD (x.sign + y.sign) infMag)
  else mkD (x.sign + y.sign) (roundMag (natVal x.mag * 2 ^ 1074) (natVal y.mag))

/-- IEEE-754 addition, the C operator `+` on doubles.  An exact zero sum is
`+0` unless both operands are negative. -/
def fadd (x y : Double) : Double :=
  if x.isNaN ∨ y.isNaN then qNaN
  else if x.isInf then (if y.isInf ∧ x.sign ≠ y.sign then qNaN else x)
  else if y.isInf then y
  else if x.toInt + y.toInt = 0 then mkD (x.sign * y.sign) 0
  else mkD (if x.toInt + y.toInt < 0 then 1 else 0)
    (roundMag (x.toInt + y.toInt).natAbs 1)

/-- IEEE-754 subtraction, the C operator `-` on doubles. -/
def fsub (x y : Double) : Double := fadd x (fneg y)

/-- The C comparison `x < y` on doubles: false when either is a NaN. -/
def flt (x y : Double) : Prop := ¬ x.isNaN ∧ ¬ y.isNaN ∧ x.toInt < y.toInt

/-- The C comparison `x <= y` on doubles: false when either is a NaN. -/
def fle (x y : Double) : Prop := ¬ x.isNaN ∧ ¬ y.isNaN ∧ x.toInt ≤ y.toInt

/-- The C comparison `x > y` on doubles. -/
def fgt (x y : Double) : Prop := flt y x

/-- The C comparison `x >= y` on doubles. -/
def fge (x y : Double) : Prop := fle y x

instance (x y : Double) : Decidable (flt x y) := by unfold flt; infer_instance
instance (x y : Double) : Decidable (fle x y) := by unfold fle; infer_instance
instance (x y : Double) : Decidable (fgt x y) := by unfold fgt; infer_instance
instance (x y : Double) : Decidable (fge x y) := by unfold fge; infer_instance

/-- The C conversion `(double) i` of an `int`. -/
def i2d (i : Int) : Double :=
  mkD (if i < 0 then 1 else 0) (roundMag (i.natAbs * 2 ^ 1074) 1)

/-! ## Constants of the kernels -/

/-- The literal `0.0`. -/
def zero : Double := ⟨0, by decide⟩
/-- The literal `1.0`. -/
def one : Double := ⟨0x3ff0000000000000, by decide⟩
/-- The literal `0.5`. -/
def half : Double := ⟨0x3fe0000000000000, by decide⟩
/-- The literal `2.0`. -/
def two : Double := ⟨0x4000000000000000, by decide⟩
/-- The literal `1.0e307` (`shuge` of `e_sinh.c`). -/
def shuge : Double := ⟨0x7fac7b1f3cac7433, by decide⟩
/-- The literal `1.0e300` (`huge` of `e_cosh.c`). -/
def huge : Double := ⟨0x7e37e43c8800759c, by decide⟩
/-- The literal `-1.0`. -/
def negOne : Double := ⟨0xbff0000000000000, by decide⟩
/-- The literal `-1022.0`. -/
def negD1022 : Double := ⟨0xc08ff00000000000, by decide⟩

/-! ## Functions of the library that the kernels call -/

/-- Modelled from the spec: `__ieee754_fmod` (`e_fmod.c` is not among the
sources), the exact truncating remainder: for finite `x` and finite nonzero
`y` the result has the sign of `x` and magnitude `|x| mod |y|`; `x` itself
for finite `x` and infinite `y`; a NaN when `y` is zero, `x` is not finite
or `y` is a NaN. -/
def ieee754_fmod (x y : Double) : Double :=
  if x.isNaN ∨ y.isNaN ∨ x.isInf ∨ y.isZero then qNaN
  else if y.isInf then x
  else mkD x.sign (roundMag (natVal x.mag % natVal y.mag) 1)

/-! ## `e_remainder.c` -/

/-- The kernel `__ieee754_remainder(x,p)` of `e_remainder.c`. -/
def ieee754_remainder (x p : Double) : Double :=
  let hx := HI x
  let lx := LO x
  let hp := HI p
  let lp := LO p
  let sx := hx &&& 0x80000000
  let hp := hp &&& 0x7fffffff
  let hx := hx &&& 0x7fffffff
  if (hp ||| lp) = 0 then fdiv (fmul x p) (fmul x p)
  else if sint hx ≥ 0x7ff00000 ∨
      (sint hp ≥ 0x7ff00000 ∧ (sub32 hp 0x7ff00000 ||| lp) ≠ 0) then
    fdiv (fmul x p) (fmul x p)
  else
    let x := if sint hp ≤ 0x7fdfffff then ieee754_fmod x (fadd p p) else x
    if (sub32 hx hp ||| sub32 lx lp) = 0 then fmul zero x
    else
      let x := fabs x
      let p := fabs p
      let x :=
        if sint hp < 0x00200000 then
          (if fgt (fadd x x) p then
            (if fge (fadd (fsub x p) (fsub x p)) p then fsub (fsub x p) p
             else fsub x p)
           else x)
        else
          (if fgt x (fmul half p) then
            (if fge (fsub x p) (fmul half p) then fsub (fsub x p) p
             else fsub x p)
           else x)
      setHI x (HI x ^^^ sx)

/-! ## `s_logb.c` -/

/-- The function `logb(x)` of `s_logb.c`. -/
def logb (x : Double) : Double :=
  let ix := HI x &&& 0x7fffffff
  let lx := LO x
  if (ix ||| lx) = 0 then fdiv negOne (fabs x)
  else if sint ix ≥ 0x7ff00000 then fmul x x
  else if ix >>> 20 = 0 then negD1022
  else i2d (sint (ix >>> 20) - 1023)

/-! ## `e_sinh.c` and `e_cosh.c` -/

/-- The low word read by `*( (((*(unsigned*)&one)>>29)) + (unsigned*)&x)`:
the word of `x` at the index given by the first word of `1.0` shifted right
by 29. -/
def lowWordRead (bigEndian : Bool) (x : Double) : Nat :=
  wordAt bigEndian x (wordAt bigEndian one 0 >>> 29)

/-- The kernel `__ieee754_sinh(x)` of `e_sinh.c`.  The functions `expm1` and
`__ieee754_exp` are not among the sources and are parameters; so is the byte
order of the platform. -/
def ieee754_sinh (expm1 ieee754_exp : Double → Double) (bigEndian : Bool)
    (x : Double) : Double :=
  let jx := HI x
  let ix := jx &&& 0x7fffffff
  if sint ix ≥ 0x7ff00000 then fadd x x
  else
    let h := if sint jx < 0 then fneg half else half
    if sint ix < 0x40360000 then
      if sint ix < 0x3e300000 ∧ fgt (fadd shuge x) one then x
      else
        let t := expm1 (fabs x)
        if sint ix < 0x3ff00000 then
          fmul h (fsub (fmul two t) (fdiv (fmul t t) (fadd t one)))
        else fmul h (fadd t (fdiv t (fadd t one)))
    else if sint ix < 0x40862E42 then fmul h (ieee754_exp (fabs x))
    else
      let lx := lowWordRead bigEndian x
      if sint ix < 0x408633CE ∨ (sint ix = 0x408633ce ∧ lx ≤ 0x8fb9f87d) then
        let w := ieee754_exp (fmul half (fabs x))
        let t := fmul h w
        fmul t w
      else fmul x shuge

/-- The kernel `__ieee754_cosh(x)` of `e_cosh.c`.  The functions `expm1` and
`__ieee754_exp` are not among the sources and are parameters; so is the byte
order of the platform. -/
def ieee754_cosh (expm1 ieee754_exp : Double → Double) (bigEndian : Bool)
    (x : Double) : Double :=
  let ix := HI x &&& 0x7fffffff
  if sint ix ≥ 0x7ff00000 then fmul x x
  else if sint ix < 0x3fd62e43 then
    let t := expm1 (fabs x)
    let w := fadd one t
    if sint ix < 0x3c800000 then w
    else fadd one (fdiv (fmul t t) (fadd w w))
  else if sint ix < 0x40360000 then
    let t := ieee754_exp (fabs x)
    fadd (fmul half t) (fdiv half t)
  else if sint ix < 0x40862E42 then fmul half (ieee754_exp (fabs x))
  else
    let lx := lowWordRead bigEndian x
    if sint ix < 0x408633CE ∨ (sint ix = 0x408633ce ∧ lx ≤ 0x8fb9f87d) then
      let w := ieee754_exp (fmul half (fabs x))
      let t := fmul half w
      fmul t w
    else fmul huge huge

/-- The literal `+∞`. -/
def posInf : Double := ⟨0x7ff0000000000000, by decide⟩

/-- The literal `-∞`. -/
def negInf : Double := ⟨0xfff0000000000000, by decide⟩

/-- The literal `-0.0`. -/
def negZero : Double := ⟨0x8000000000000000, by decide⟩

/-! ## `e_scalb.c` -/

/-- The literal `65000.0`. -/
def d65000 : Double := ⟨0x40efbd0000000000, by decide⟩

/-- The C comparison `x == y` on doubles: false when either is a NaN, and
true for two zeros of different sign. -/
def feq (x y : Double) : Prop := ¬ x.isNaN ∧ ¬ y.isNaN ∧ x.toInt = y.toInt

/-- The C comparison `x != y` on doubles, the negation of `==`. -/
def fne (x y : Double) : Prop := ¬ feq x y

instance (x y : Double) : Decidable (feq x y) := by unfold feq; infer_instance
instance (x y : Double) : Decidable (fne x y) := by unfold fne; infer_instance

/-- Modelled from the spec: `isnan` (`s_isnan.c` is not among the sources),
which holds exactly for a NaN. -/
def isnan (x : Double) : Prop := x.isNaN

/-- Modelled from the spec: `finite` (`s_finite.c` is not among the sources),
which holds exactly when the value is neither an infinity nor a NaN. -/
def finite (x : Double) : Prop := x.isFinite

instance (x : Double) : Decidable (isnan x) := by unfold isnan; infer_instance
instance (x : Double) : Decidable (finite x) := by unfold finite; infer_instance

/-- Modelled from the spec: `rint` (`s_rint.c` is not among the sources),
the integer nearest to `x`, the even one on a tie, with the sign of `x`; an
infinity or a NaN is returned as it is. -/
def rint (x : Double) : Double :=
  if x.isFinite then
    mkD x.sign (roundMag (rne (natVal x.mag) (2 ^ 1074) * 2 ^ 1074) 1)
  else x

/-- Modelled from the spec: the binary-scaling primitive `scalbn`
(`s_scalbn.c` is not among the sources): `x * 2^n`, rounded to nearest when
the result is subnormal, an infinity on overflow; a NaN for a NaN, and an
infinity or a zero unchanged. -/
def scalbn (x : Double) (n : Int) : Double :=
  if x.isNaN then qNaN
  else if x.isInf then x
  else if 0 ≤ n then mkD x.sign (roundMag (natVal x.mag * 2 ^ n.toNat) 1)
  else mkD x.sign (roundMag (natVal x.mag) (2 ^ (-n).toNat))

/-- The C conversion `(int) x` of a double whose value lies in the range of
`int`: the value truncated toward zero. -/
def d2i (x : Double) : Int := Int.tdiv x.toInt (2 ^ 1074)

/-- The kernel `__ieee754_scalb(x,fn)` of `e_scalb.c`, in the build without
`_SCALB_INT`, where `fn` is a double. -/
def ieee754_scalb (x fn : Double) : Double :=
  if isnan x ∨ isnan fn then fmul x fn
  else if ¬ finite fn then
    (if fgt fn zero then fmul x fn else fdiv x (fneg fn))
  else if fne (rint fn) fn then fdiv (fsub fn fn) (fsub fn fn)
  else if fgt fn d65000 then scalbn x 65000
  else if fgt (fneg fn) d65000 then scalbn x (-65000)
  else scalbn x (d2i fn)

/-! ## The wrappers `w_asin.c`, `w_atanh.c`, `w_log.c`, `w_sqrt.c`, `w_remainder.c` -/

/-- Modelled from the spec: the library mode `_LIB_VERSION` of `fdlibm.h`
(not among the sources): strict IEEE (`_IEEE_`) or one of the legacy modes. -/
inductive LibVersion where
  | ieee
  | svid
  | xopen
  | posix
  deriving DecidableEq

/-- The build setting `_IEEE_LIBM`, which `jfdlibm.h` defines. -/
def IEEE_LIBM : Bool := true

/-- What a wrapper returns: the value `z`, or the result of the call
`__kernel_standard(x,y,code)` of the exceptional-value handler. -/
inductive Outcome where
  | value (z : Double)
  | standard (x y : Double) (code : Nat)
  deriving DecidableEq

/-- The double that a wrapper hands back, given the exceptional-value handler
`__kernel_standard` (not among the sources). -/
def Outcome.run (kernel_standard : Double → Double → Nat → Double) : Outcome → Double
  | Outcome.value z => z
  | Outcome.standard x y code => kernel_standard x y code

/-- The wrapper `asin(x)` of `w_asin.c`; the kernel `__ieee754_asin` is not
among the sources and is a parameter. -/
def asin (ieeeLibm : Bool) (libVersion : LibVersion) (ieee754_asin : Double → Double)
    (x : Double) : Outcome :=
  if ieeeLibm then Outcome.value (ieee754_asin x)
  else
    let z := ieee754_asin x
    if libVersion = LibVersion.ieee ∨ isnan x then Outcome.value z
    else if fgt (fabs x) one then Outcome.standard x x 2
    else Outcome.value z

/-- The wrapper `atanh(x)` of `w_atanh.c`; the kernel `__ieee754_atanh` is
not among the sources and is a parameter. -/
def atanh (ieeeLibm : Bool) (libVersion : LibVersion) (ieee754_atanh : Double → Double)
    (x : Double) : Outcome :=
  if ieeeLibm then Outcome.value (ieee754_atanh x)
  else
    let z := ieee754_atanh x
    if libVersion = LibVersion.ieee ∨ isnan x then Outcome.value z
    else
      let y := fabs x
      if fge y one then
        (if fgt y one then Outcome.standard x x 30 else Outcome.standard x x 31)
      else Outcome.value z

/-- The wrapper `log(x)` of `w_log.c`; the kernel `__ieee754_log` is not
among the sources and is a parameter. -/
def log (ieeeLibm : Bool) (libVersion : LibVersion) (ieee754_log : Double → Double)
    (x : Double) : Outcome :=
  if ieeeLibm then Outcome.value (ieee754_log x)
  else
    let z := ieee754_log x
    if libVersion = LibVersion.ieee ∨ isnan x ∨ fgt x zero then Outcome.value z
    else if feq x zero then Outcome.standard x x 16
    else Outcome.standard x x 17

/-- The wrapper `sqrt(x)` of `w_sqrt.c`; the kernel `__ieee754_sqrt` is not
among the sources and is a parameter. -/
def sqrt (ieeeLibm : Bool) (libVersion : LibVersion) (ieee754_sqrt : Double → Double)
    (x : Double) : Outcome :=
  if ieeeLibm then Outcome.value (ieee754_sqrt x)
  else
    let z := ieee754_sqrt x
    if libVersion = LibVersion.ieee ∨ isnan x then Outcome.value z
    else if flt x zero then Outcome.standard x x 26
    else Outcome.value z

/-- The wrapper `remainder(x,y)` of `w_remainder.c`. -/
def remainder (ieeeLibm : Bool) (libVersion : LibVersion) (x y : Double) : Outcome :=
  if ieeeLibm then Outcome.value (ieee754_remainder x y)
  else
    let z := ieee754_remainder x y
    if libVersion = LibVersion.ieee ∨ isnan y then Outcome.value z
    else if feq y zero then Outcome.standard x y 28
    else Outcome.value z

/-- Modelled from the spec: the assignment `__LO(x) = l` through the accessor
of `fdlibm.h` (not among the sources): the low word is replaced, the high
word is kept. -/
def setLO (x : Double) (l : Nat) : Double := Double.ofWords (HI x) l

/-! ## `osSupport_unix.cpp` -/

/-- The conversion `(jsize) v` followed by the widening to `jlong`: the value
modulo `2^jsizeBits`, read as two's complement.  The width of `jsize` is
declared in `jni.h`, which is not among the sources, and is a parameter. -/
def toJsize (jsizeBits : Nat) (v : Int) : Int :=
  let w := v % 2 ^ jsizeBits
  if w < 2 ^ (jsizeBits - 1) then w else w - 2 ^ jsizeBits

/-- The function `osSupport::size(path)` of `osSupport_unix.cpp`, given what
the call `stat(path, &statbuf)` returned and stored in `st_mode` and
`st_size`.  The constant `S_IFREG` of `sys/stat.h` and the width of `jsize`
are parameters. -/
def osSupport.size (jsizeBits : Nat) (S_IFREG : Nat) (statReturn : Int) (st_mode : Nat)
    (st_size : Int) : Int :=
  if statReturn < 0 ∨ (st_mode &&& S_IFREG) ≠ S_IFREG then -1
  else toJsize jsizeBits st_size

/-! ## `path_util.c` -/

/-- The memory that a `char *path` points into: the byte at each offset from
`path` (offsets below 0 lie before the buffer), and the offsets that have
been stored to, the latest first. -/
structure Mem where
  /-- The byte at an offset. -/
  byte : Int → Nat
  /-- The offsets stored to, the latest first. -/
  stores : List Int

/-- The store `p[0] = v` of one byte. -/
def Mem.store (m : Mem) (p : Int) (v : Nat) : Mem :=
  ⟨fun k => if k = p then v else m.byte k, p :: m.stores⟩

/-- The memory that holds the bytes `s`, then NULs, from offset 0 on, with no
store made yet. -/
def Mem.ofPath (s : List Nat) : Mem :=
  ⟨fun k => if 0 ≤ k then s.getD k.toNat 0 else 0, []⟩

/-- The bytes of the C string at `p`, up to its NUL (at most `fuel` bytes). -/
def Mem.cstr (m : Mem) : Nat → Int → List Nat
  | 0, _ => []
  | fuel + 1, p => if m.byte p = 0 then [] else m.byte p :: Mem.cstr m fuel (p + 1)

/-- The inner loop `while (*p) { if (*p == '/') { p++; break; } p++; }` of
`collapsible`: the position after the name at `p` and its slash. -/
def skipName (m : Mem) : Nat → Int → Option Int
  | 0, _ => none
  | fuel + 1, p =>
    if m.byte p = 0 then some p
    else if m.byte p = 47 then some (p + 1)
    else skipName m fuel (p + 1)

/-- The outer loop of `collapsible`, from position `p` with the current
values of `dots` and `n`. -/
def collapsibleLoop (m : Mem) : Nat → Int → Bool → Nat → Option Nat
  | 0, _, _, _ => none
  | fuel + 1, p, dots, n =>
    if m.byte p = 0 then some (if dots then n else 0)
    else
      let dots :=
        if m.byte p = 46 ∧ (m.byte (p + 1) = 0 ∨ m.byte (p + 1) = 47
            ∨ (m.byte (p + 1) = 46 ∧ (m.byte (p + 2) = 0 ∨ m.byte (p + 2) = 47)))
        then true else dots
      match skipName m fuel p with
      | none => none
      | some p' => collapsibleLoop m fuel p' dots (n + 1)

/-- The function `collapsible(names)`: the number of names if one of them is
"." or "..", otherwise 0.  The loops run on `fuel`; `none` means that it ran
out. -/
def collapsible (m : Mem) (fuel : Nat) (names : Int) : Option Nat :=
  collapsibleLoop m fuel names false 0

/-- The inner loop `while (*p) { if (*p == '/') { *p++ = '\0'; break; } p++; }`
of `splitNames`. -/
def splitInner : Nat → Mem → Int → Option (Mem × Int)
  | 0, _, _ => none
  | fuel + 1, m, p =>
    if m.byte p = 0 then some (m, p)
    else if m.byte p = 47 then some (m.store p 0, p + 1)
    else splitInner fuel m (p + 1)

/-- The outer loop `while (*p) { ix[i++] = p++; ... }` of `splitNames`. -/
def splitLoop : Nat → Mem → Int → Nat → List (Option Int) → Option (Mem × List (Option Int))
  | 0, _, _, _, _ => none
  | fuel + 1, m, p, i, ix =>
    if m.byte p = 0 then some (m, ix)
    else
      match splitInner fuel m (p + 1) with
      | none => none
      | some (m', p') => splitLoop fuel m' p' (i + 1) (ix.set i (some p))

/-- The function `splitNames(names, ix)`: slashes become NULs and `ix[i]`
becomes the position of the i-th name.  A null pointer is `none`. -/
def splitNames (m : Mem) (fuel : Nat) (names : Int) (ix : List (Option Int)) :
    Option (Mem × List (Option Int)) :=
  splitLoop fuel m names 0 ix

/-- The search `do { ... i++; } while (i < nc);` of `collapse` for the next
"." or "..": the index `i` on leaving the loop and the value of `dots`.
Reading through a null `ix[i]` gives `none`. -/
def findDots (m : Mem) (nc : Nat) (ix : List (Option Int)) : Nat → Nat → Option (Nat × Nat)
  | 0, _ => none
  | fuel + 1, i =>
    match ix.getD i none with
    | none => none
    | some p =>
      let next := if i + 1 < nc then findDots m nc ix fuel (i + 1) else some (i + 1, 0)
      if m.byte p = 46 then
        if m.byte (p + 1) = 0 then some (i, 1)
        else if m.byte (p + 1) = 46 ∧ m.byte (p + 2) = 0 then some (i, 2)
        else next
      else next

/-- The search `for (j = i - 1; j >= 0; j--) { if (ix[j]) break; }` of
`collapse`, started with `j + 1`: the `j` found, or `none` when `j < 0`. -/
def findPrev (ix : List (Option Int)) : Nat → Option Nat
  | 0 => none
  | j + 1 => if (ix.getD j none).isSome then some j else findPrev ix j

/-- The loop `for (i = 0; i < nc; i++)` of `collapse`, from index `i`. -/
def collapseLoop (m : Mem) (nc : Nat) : Nat → Nat → List (Option Int) →
    Option (List (Option Int))
  | 0, _, _ => none
  | fuel + 1, i, ix =>
    if i < nc then
      match findDots m nc ix nc i with
      | none => none
      | some (i, dots) =>
        if i ≥ nc then some ix
        else if dots = 1 then collapseLoop m nc fuel (i + 1) (ix.set i none)
        else
          match findPrev ix i with
          | none => collapseLoop m nc fuel (i + 1) ix
          | some j => collapseLoop m nc fuel (i + 1) ((ix.set j none).set i none)
    else some ix

/-- The library function `strlen(p)`. -/
def strlen (m : Mem) : Nat → Int → Option Nat
  | 0, _ => none
  | fuel + 1, p => if m.byte p = 0 then some 0 else (strlen m fuel (p + 1)).map (· + 1)

/-- The copy `while ((*p++ = *q++));` of `joinNames`. -/
def copyName : Nat → Mem → Int → Int → Option (Mem × Int)
  | 0, _, _, _ => none
  | fuel + 1, m, p, q =>
    let c := m.byte q
    let m' := m.store p c
    if c = 0 then some (m', p + 1) else copyName fuel m' (p + 1) (q + 1)

/-- The loop `for (i = 0, p = names; i < nc; i++)` of `joinNames`, on the
entries `ix[i], ix[i+1], ...` that are left. -/
def joinLoop (fuel : Nat) : List (Option Int) → Nat → Mem → Int → Option (Mem × Int)
  | [], _, m, p => some (m, p)
  | none :: ix, i, m, p => joinLoop fuel ix (i + 1) m p
  | some q :: ix, i, m, p =>
    let m := if i > 0 then m.store (p - 1) 47 else m
    if p = q then
      match strlen m fuel p with
      | none => none
      | some l => joinLoop fuel ix (i + 1) m (p + l + 1)
    else
      match copyName fuel m p q with
      | none => none
      | some (m', p') => joinLoop fuel ix (i + 1) m' p'

/-- The function `joinNames(names, nc, ix)`, with `ix` of length `nc`. -/
def joinNames (m : Mem) (fuel : Nat) (names : Int) (ix : List (Option Int)) : Option Mem :=
  match joinLoop fuel ix 0 m names with
  | none => none
  | some (m', p) => some (m'.store p 0)

/-- The function `collapse(path)`, with `path` at offset 0 of the memory.
The array from `alloca` starts out as null entries; `splitNames` fills each
of them.  The result is `none` when a loop ran out of `fuel`. -/
def collapse (fuel : Nat) (m : Mem) : Option Mem :=
  let names : Int := if m.byte 0 = 47 then 1 else 0
  match collapsible m fuel names with
  | none => none
  | some nc =>
    if nc < 2 then some m
    else
      match splitNames m fuel names (List.replicate nc none) with
      | none => none
      | some (m1, ix) =>
        match collapseLoop m1 nc (nc + 1) 0 ix with
        | none => none
        | some ix' => joinNames m1 fuel names ix'

/-! ## `ProcessEnvironment_md.c` -/

/-- The library function `strchr(s, c)` for a byte `c` other than NUL, on the
bytes of the C string `s` before its NUL: the offset of the first `c`, or
`none` for the null pointer. -/
def strchr : List Nat → Nat → Option Nat
  | [], _ => none
  | b :: s, c => if b = c then some 0 else (strchr s c).map (· + 1)

/-- What the calls through `JNIEnv *env` do, as far as
`Java_java_lang_ProcessEnvironment_environ` depends on it: whether
`FindClass(env, "[B")` returns a class, whether `NewObjectArray` returns an
array for a length, and whether the n-th call of `NewByteArray` (n counted
from 0) returns an array for a length.  `false` is the return of NULL. -/
structure JNIEnv where
  /-- Whether `FindClass(env, "[B")` returns a class. -/
  findClass : Bool
  /-- Whether `NewObjectArray(env, length, cls, 0)` returns an array. -/
  newObjectArray : Int → Bool
  /-- Whether the n-th call `NewByteArray(env, length)` returns an array. -/
  newByteArray : Nat → Int → Bool

/-- The entry `environ[i]`, a string given by its bytes before the NUL;
`none` is the null pointer, which ends the array.  An index below 0, which
only an overflow of `i` can produce, is read as the null pointer. -/
def environAt (environ : List (List Nat)) (i : Int) : Option (List Nat) :=
  if 0 ≤ i then environ[i.toNat]? else none

/-- The first loop of `Java_java_lang_ProcessEnvironment_environ`, from the
index `i` with the current `count`, both of type `jsize`; `none` means that
the loop ran out of `fuel`. -/
def environCount (jsizeBits : Nat) (environ : List (List Nat)) : Nat → Int → Int → Option Int
  | 0, _, _ => none
  | fuel + 1, i, count =>
    match environAt environ i with
    | none => some count
    | some e =>
      let count := if (strchr e 61).isSome then toJsize jsizeBits (count + 1) else count
      environCount jsizeBits environ fuel (toJsize jsizeBits (i + 1)) count

/-- The call `SetObjectArrayElement(env, result, index, value)`: an index
outside the array leaves the array as it is. -/
def setObjectArrayElement (result : List (Option (List Nat))) (index : Int)
    (value : List Nat) : List (Option (List Nat)) :=
  if 0 ≤ index then result.set index.toNat (some value) else result

/-- The second loop of `Java_java_lang_ProcessEnvironment_environ`, from the
index `i` with the current `j` and the array `result`; `n` is the number of
calls of `NewByteArray` made so far.  An element of the array is a byte array
or `none` for null.  The outer `none` means that the loop ran out of `fuel`,
`some none` is the return of NULL by `CHECK_NULL_RETURN`. -/
def environFill (jni : JNIEnv) (jsizeBits : Nat) (environ : List (List Nat)) :
    Nat → Int → Int → Nat → List (Option (List Nat)) →
      Option (Option (List (Option (List Nat))))
  | 0, _, _, _, _ => none
  | fuel + 1, i, j, n, result =>
    match environAt environ i with
    | none => some (some result)
    | some e =>
      match strchr e 61 with
      | none => environFill jni jsizeBits environ fuel (toJsize jsizeBits (i + 1)) j n result
      | some varEnd =>
        let valBeg := e.drop (varEnd + 1)
        let varLength := toJsize jsizeBits varEnd
        let valLength := toJsize jsizeBits valBeg.length
        if ¬ jni.newByteArray n varLength then some none
        else if ¬ jni.newByteArray (n + 1) valLength then some none
        else
          let var := e.take varLength.toNat
          let val := valBeg.take valLength.toNat
          let result := setObjectArrayElement result (toJsize jsizeBits (2 * j)) var
          let result := setObjectArrayElement result (toJsize jsizeBits (2 * j + 1)) val
          environFill jni jsizeBits environ fuel (toJsize jsizeBits (i + 1))
            (toJsize jsizeBits (j + 1)) (n + 2) result

/-- The function `Java_java_lang_ProcessEnvironment_environ` of
`ProcessEnvironment_md.c`, on the entries of `environ` before its null
entry.  The width of `jsize` is a parameter, as in `toJsize`.  The result is
`some none` for a return of NULL, `some (some result)` for the array, and
`none` when a loop ran out of `fuel`. -/
def Java_java_lang_ProcessEnvironment_environ (jni : JNIEnv) (jsizeBits : Nat) (fuel : Nat)
    (environ : List (List Nat)) : Option (Option (List (Option (List Nat)))) :=
  if ¬ jni.findClass then some none
  else
    match environCount jsizeBits environ fuel 0 0 with
    | none => none
    | some count =>
      if ¬ jni.newObjectArray (toJsize jsizeBits (2 * count)) then some none
      else
        let result := List.replicate (toJsize jsizeBits (2 * count)).toNat none
        environFill jni jsizeBits environ fuel 0 0 0 result

/-! ## Predicates used by the proofs -/

/-- A magnitude (in units of `2^-1074`) that some finite double has: a
53-bit integer times a power of two, below `2^1024`. -/
def Rep (n : Nat) : Prop := ∃ j e, j < 2 ^ 53 ∧ n = j * 2 ^ e ∧ n < 2 ^ 2098

/-- The double `d` is finite with value `v` (in units of `2^-1074`), and its
sign bit is set exactly when `v` is negative. -/
def Exact (d : Double) (v : Int) : Prop :=
  d.isFinite ∧ d.toInt = v ∧ (d.sign = 1 ↔ v < 0)

/-! ## Lemmas on 32-bit words -/

theorem Double.ext {x y : Double} (h : x.bits = y.bits) : x = y := by
  cases x; cases y; cases h; rfl

theorem HI_lt (x : Double) : HI x < 2 ^ 32 := by
  have := x.isLt
  unfold HI; omega

theorem LO_lt (x : Double) : LO x < 2 ^ 32 := by
  unfold LO; omega

theorem mask31 (w : Nat) : w &&& 0x7fffffff = w % 2 ^ 31 :=
  Nat.and_pow_two_sub_one_eq_mod w 31

theorem lor_eq_zero (a b : Nat) : a ||| b = 0 ↔ a = 0 ∧ b = 0 := by
  constructor
  · intro h
    constructor
    · apply Nat.eq_of_testBit_eq; intro i
      have := congrArg (fun n => n.testBit i) h
      simp only [Nat.testBit_or, Nat.zero_testBit, Bool.or_eq_false_iff] at this
      simp [this.1]
    · apply Nat.eq_of_testBit_eq; intro i
      have := congrArg (fun n => n.testBit i) h
      simp only [Nat.testBit_or, Nat.zero_testBit, Bool.or_eq_false_iff] at this
      simp [this.2]
  · rintro ⟨rfl, rfl⟩; rfl

theorem maskSign (w : Nat) (hw : w < 2 ^ 32) :
    w &&& 0x80000000 = (w / 2 ^ 31) * 2 ^ 31 := by
  apply Nat.eq_of_testBit_eq; intro i
  have e : (0x80000000 : Nat) = 2 ^ 31 := by norm_num
  rw [e, Nat.testBit_and, Nat.testBit_two_pow]
  have hq : w / 2 ^ 31 = 0 ∨ w / 2 ^ 31 = 1 := by omega
  by_cases hi : 31 = i
  · subst hi
    rcases hq with h | h
    · rw [h]; simp [Nat.testBit_to_div_mod]; omega
    · rw [h]; simp [Nat.testBit_to_div_mod]; omega
  · simp only [hi, decide_False, Bool.and_false]
    rcases hq with h | h
    · rw [h]; simp
    · rw [h, one_mul, Nat.testBit_two_pow]; simp [hi]

theorem sint_of_lt {w : Nat} (h : w < 2 ^ 31) : sint w = (w : Int) := by
  unfold sint; rw [if_pos h]

theorem sint_mask (w : Nat) : sint (w &&& 0x7fffffff) = ((w % 2 ^ 31 : Nat) : Int) := by
  rw [mask31]; exact sint_of_lt (Nat.mod_lt _ (by norm_num))

theorem sub32_eq_zero {a b : Nat} (ha : a < 2 ^ 32) (hb : b < 2 ^ 32) :
    sub32 a b = 0 ↔ a = b := by
  unfold sub32; omega

/-- Flipping bit 31 of a 32-bit word by xor. -/
theorem xor_bit31 (h : Nat) (hh : h < 2 ^ 32) (s : Nat) (hs : s < 2) :
    h ^^^ (s * 2 ^ 31) = ((h / 2 ^ 31 + s) % 2) * 2 ^ 31 + h % 2 ^ 31 := by
  have hq : h / 2 ^ 31 = 0 ∨ h / 2 ^ 31 = 1 := by omega
  have hs : s = 0 ∨ s = 1 := by omega
  have key : ∀ m, m < 2 ^ 31 → (2 ^ 31 + m) ^^^ 2 ^ 31 = m ∧ m ^^^ 2 ^ 31 = 2 ^ 31 + m := by
    intro m hm
    have e1 : 2 ^ 31 + m = 2 ^ 31 ^^^ m := by
      have := Nat.mul_add_lt_is_or hm 1
      rw [mul_one] at this
      rw [this]
      apply Nat.eq_of_testBit_eq; intro i
      rw [Nat.testBit_or, Nat.testBit_xor, Nat.testBit_two_pow]
      by_cases hi : 31 = i
      · subst hi; simp [Nat.testBit_lt_two_pow hm]
      · simp [hi]
    constructor
    · rw [e1, Nat.xor_comm (2 ^ 31) m, Nat.xor_assoc, Nat.xor_self, Nat.xor_zero]
    · rw [e1, Nat.xor_comm]
  have hm : h % 2 ^ 31 < 2 ^ 31 := Nat.mod_lt _ (by norm_num)
  have hd : h = 2 ^ 31 * (h / 2 ^ 31) + h % 2 ^ 31 := (Nat.div_add_mod h (2 ^ 31)).symm
  rcases hq with q | q <;> rcases hs with rfl | rfl
  · rw [q] at hd ⊢; simp at hd ⊢; omega
  · rw [q] at hd ⊢; simp only [mul_zero, zero_add] at hd
    rw [one_mul, ← hd, (key h (by omega)).2]; norm_num
  · rw [q] at hd ⊢; simp at hd ⊢; omega
  · rw [q] at hd ⊢
    rw [one_mul]
    have : h = 2 ^ 31 + h % 2 ^ 31 := by omega
    rw [this, (key _ hm).1]; norm_num

/-! ## Lemmas on the fields of a double -/

theorem sign_lt (x : Double) : x.sign < 2 := by
  have := x.isLt
  unfold Double.sign; omega

theorem mag_lt (x : Double) : x.mag < 2 ^ 63 := by
  unfold Double.mag; omega

theorem bits_eq (x : Double) : x.bits = x.sign * 2 ^ 63 + x.mag := by
  unfold Double.sign Double.mag; omega

theorem sign_eq_HI (x : Double) : x.sign = HI x / 2 ^ 31 := by
  unfold Double.sign HI; omega

theorem mag_eq_words (x : Double) : x.mag = (HI x % 2 ^ 31) * 2 ^ 32 + LO x := by
  unfold Double.mag HI LO; omega

theorem mkD_bits (s m : Nat) : (mkD s m).bits = (s % 2) * 2 ^ 63 + m % 2 ^ 63 := by
  unfold mkD Double.ofBits
  show ((s % 2) * 2 ^ 63 + m % 2 ^ 63) % 2 ^ 64 = _
  omega

theorem mkD_sign (s m : Nat) : (mkD s m).sign = s % 2 := by
  unfold Double.sign; rw [mkD_bits]; omega

theorem mkD_mag (s m : Nat) : (mkD s m).mag = m % 2 ^ 63 := by
  unfold Double.mag; rw [mkD_bits]; omega

theorem mkD_mag_of_lt {s m : Nat} (h : m < 2 ^ 63) : (mkD s m).mag = m := by
  rw [mkD_mag]; exact Nat.mod_eq_of_lt h

theorem mkD_self (x : Double) : mkD x.sign x.mag = x := by
  apply Double.ext
  rw [mkD_bits, bits_eq x]
  have := sign_lt x; have := mag_lt x
  omega

theorem mkD_congr {s t m : Nat} (h : s % 2 = t % 2) : mkD s m = mkD t m := by
  apply Double.ext; rw [mkD_bits, mkD_bits, h]

theorem fabs_mag (x : Double) : (fabs x).mag = x.mag := by
  unfold fabs; rw [mkD_mag]; exact Nat.mod_eq_of_lt (mag_lt x)

theorem fabs_sign (x : Double) : (fabs x).sign = 0 := by
  unfold fabs; rw [mkD_sign]

theorem fneg_mag (x : Double) : (fneg x).mag = x.mag := by
  unfold fneg; rw [mkD_mag]; exact Nat.mod_eq_of_lt (mag_lt x)

theorem fneg_sign (x : Double) : (fneg x).sign = (x.sign + 1) % 2 := by
  unfold fneg; rw [mkD_sign]

theorem fneg_fneg (x : Double) : fneg (fneg x) = x := by
  apply Double.ext
  unfold fneg
  rw [mkD_bits, mkD_sign, mkD_mag, bits_eq x]
  have := sign_lt x; have := mag_lt x
  omega

theorem fabs_fneg (x : Double) : fabs (fneg x) = fabs x := by
  unfold fabs; rw [fneg_mag]

theorem HI_fneg (x : Double) : HI (fneg x) % 2 ^ 31 = HI x % 2 ^ 31 := by
  have h := fneg_mag x
  unfold Double.mag at h
  unfold HI; omega

theorem LO_fneg (x : Double) : LO (fneg x) = LO x := by
  have h := fneg_mag x
  unfold Double.mag at h
  unfold LO; omega

/-- The final step `__HI(x) ^= sx` of the remainder kernel, with `sx` the
sign bit of a word `w`: the sign of `x` is flipped when `w` is negative. -/
theorem setHI_xor_sign (x : Double) (w : Nat) (hw : w < 2 ^ 32) :
    setHI x (HI x ^^^ (w &&& 0x80000000)) = mkD (x.sign + w / 2 ^ 31) x.mag := by
  rw [maskSign w hw, xor_bit31 (HI x) (HI_lt x) (w / 2 ^ 31) (by omega)]
  apply Double.ext
  rw [mkD_bits]
  unfold setHI Double.ofWords Double.ofBits
  show (_ % 2 ^ 32 * 2 ^ 32 + LO x % 2 ^ 32) % 2 ^ 64 = _
  rw [mag_eq_words, sign_eq_HI]
  have := HI_lt x; have := LO_lt x
  omega

/-! ## Lemmas on values and rounding -/

theorem two_pow_mono {a b : Nat} (h : a ≤ b) : 2 ^ a ≤ 2 ^ b :=
  Nat.pow_le_pow_right Nat.two_pos h

theorem two_pow_2098 : 2 ^ 53 * 2 ^ 2045 = 2 ^ 2098 := by
  simp only [← pow_add, Nat.reduceAdd]

theorem natVal_of_lt {m : Nat} (h : m < 2 ^ 53) : natVal m = m := by
  unfold natVal
  by_cases h0 : m / 2 ^ 52 = 0
  · rw [if_pos h0]; omega
  · rw [if_neg h0]
    have h1 : m / 2 ^ 52 = 1 := by omega
    rw [h1]; simp; omega

theorem natVal_normal {m : Nat} (h : 2 ^ 52 ≤ m) :
    natVal m = (2 ^ 52 + m % 2 ^ 52) * 2 ^ (m / 2 ^ 52 - 1) := by
  unfold natVal
  rw [if_neg]; omega

theorem natVal_pos {m : Nat} (h : 0 < m) : 0 < natVal m := by
  by_cases h2 : m < 2 ^ 53
  · rw [natVal_of_lt h2]; exact h
  · rw [natVal_normal (by omega)]; positivity

theorem natVal_eq_zero {m : Nat} : natVal m = 0 ↔ m = 0 := by
  constructor
  · intro h
    by_contra h0
    have := natVal_pos (Nat.pos_of_ne_zero h0)
    omega
  · rintro rfl; rfl

theorem expoShift_of_lt (f : Nat) {q : Nat} (h : q < 2 ^ 53) : expoShift f q = 0 := by
  cases f with
  | zero => rfl
  | succ f => simp only [expoShift, if_pos h]

theorem expoShift_mul_pow {c : Nat} (h1 : 2 ^ 52 ≤ c) (h2 : c < 2 ^ 53) :
    ∀ (j f : Nat), j ≤ f → expoShift f (c * 2 ^ j) = j := by
  intro j
  induction j with
  | zero => intro f _; simpa using expoShift_of_lt f h2
  | succ j ih =>
    intro f hf
    obtain ⟨g, rfl⟩ : ∃ g, f = g + 1 := ⟨f - 1, by omega⟩
    have hge : ¬ c * 2 ^ (j + 1) < 2 ^ 53 := by
      have : 1 ≤ 2 ^ j := Nat.one_le_two_pow
      have : c * 2 ^ (j + 1) = 2 * (c * 2 ^ j) := by ring
      nlinarith
    have hdiv : c * 2 ^ (j + 1) / 2 = c * 2 ^ j := by
      rw [pow_succ, ← mul_assoc]; exact Nat.mul_div_cancel _ (by norm_num)
    simp only [expoShift, hge, if_false, hdiv]
    rw [ih g (by omega)]

theorem rne_exact (c : Nat) {d : Nat} (hd : 0 < d) : rne (c * d) d = c := by
  unfold rne
  rw [Nat.mul_mod_left, Nat.mul_div_cancel _ hd]
  simp [hd]

theorem rne_mul_left (a d : Nat) {b : Nat} (hb : 0 < b) : rne (b * a) (b * d) = rne a d := by
  unfold rne
  rw [Nat.mul_mod_mul_left, Nat.mul_div_mul_left _ _ hb]
  have e : 2 * (b * (a % d)) = b * (2 * (a % d)) := by ring
  rw [e]
  by_cases h1 : 2 * (a % d) < d
  · rw [if_pos h1, if_pos (Nat.mul_lt_mul_of_pos_left h1 hb)]
  · rw [if_neg h1, if_neg (fun h => h1 (Nat.lt_of_mul_lt_mul_left h))]
    by_cases h2 : d < 2 * (a % d)
    · rw [if_pos h2, if_pos (Nat.mul_lt_mul_of_pos_left h2 hb)]
    · rw [if_neg h2, if_neg (fun h => h2 (Nat.lt_of_mul_lt_mul_left h))]

/-- Rounding `n * b / b` is rounding `n`. -/
theorem roundMag_mul_right (n : Nat) {b : Nat} (hb : 0 < b) :
    roundMag (n * b) b = roundMag n 1 := by
  unfold roundMag
  simp only [Nat.mul_div_cancel _ hb, Nat.div_one]
  rw [Nat.mul_comm n b, rne_mul_left _ _ hb, one_mul]

/-- Rounding is exact on every value that a magnitude pattern encodes. -/
theorem roundMag_natVal {m : Nat} (h : m ≤ infMag) : roundMag (natVal m) 1 = m := by
  unfold roundMag
  simp only [Nat.div_one, one_mul]
  unfold infMag at h
  by_cases h2 : m < 2 ^ 53
  · rw [natVal_of_lt h2, expoShift_of_lt _ h2]
    have : rne m (2 ^ 0) = m := by simpa using rne_exact m (d := 1) (by norm_num)
    rw [this]; unfold infMag; omega
  · rw [natVal_normal (by omega)]
    have hc1 : 2 ^ 52 ≤ 2 ^ 52 + m % 2 ^ 52 := by omega
    have hc2 : 2 ^ 52 + m % 2 ^ 52 < 2 ^ 53 := by omega
    rw [expoShift_mul_pow hc1 hc2 _ _ (by omega), rne_exact _ (by positivity)]
    unfold infMag; omega

theorem rep_natVal {m : Nat} (h : m < infMag) : Rep (natVal m) := by
  unfold infMag at h
  by_cases h2 : m < 2 ^ 53
  · rw [natVal_of_lt h2]
    exact ⟨m, 0, h2, by simp, lt_of_lt_of_le h2 (two_pow_mono (a := 53) (b := 2098) (by omega))⟩
  · rw [natVal_normal (by omega)]
    refine ⟨2 ^ 52 + m % 2 ^ 52, m / 2 ^ 52 - 1, by omega, rfl, ?_⟩
    have hE : m / 2 ^ 52 - 1 ≤ 2045 := by omega
    calc (2 ^ 52 + m % 2 ^ 52) * 2 ^ (m / 2 ^ 52 - 1)
        < 2 ^ 53 * 2 ^ (m / 2 ^ 52 - 1) :=
          Nat.mul_lt_mul_of_pos_right (by omega) (by positivity)
      _ ≤ 2 ^ 53 * 2 ^ 2045 :=
          Nat.mul_le_mul_left _ (Nat.pow_le_pow_right (by norm_num) hE)
      _ = 2 ^ 2098 := by simp only [← pow_add, Nat.reduceAdd]

theorem rep_encode_aux : ∀ (e j : Nat), j < 2 ^ 53 → j * 2 ^ e < 2 ^ 2098 →
    ∃ m, m < infMag ∧ natVal m = j * 2 ^ e := by
  intro e
  induction e with
  | zero =>
    intro j hj _
    exact ⟨j, by unfold infMag; omega, by rw [natVal_of_lt hj]; simp⟩
  | succ e ih =>
    intro j hj hlt
    by_cases hs : 2 * j < 2 ^ 53
    · obtain ⟨m, hm, hv⟩ := ih (2 * j) hs (by rw [pow_succ] at hlt; linarith)
      exact ⟨m, hm, by rw [hv, pow_succ]; ring⟩
    · have hj52 : 2 ^ 52 ≤ j := by omega
      have he : e + 1 ≤ 2045 := by
        by_contra hcon
        have h1 : 2 ^ 2046 ≤ 2 ^ (e + 1) := two_pow_mono (a := 2046) (b := e + 1) (by omega)
        have h2 : 2 ^ 52 * 2 ^ 2046 ≤ j * 2 ^ (e + 1) := Nat.mul_le_mul hj52 h1
        have h3 : 2 ^ 52 * 2 ^ 2046 = 2 ^ 2098 := by simp only [← pow_add, Nat.reduceAdd]
        rw [h3] at h2
        exact absurd hlt (not_lt.mpr h2)
      refine ⟨(e + 2) * 2 ^ 52 + (j - 2 ^ 52), ?_, ?_⟩
      · unfold infMag; omega
      · rw [natVal_normal (by omega)]
        have e1 : ((e + 2) * 2 ^ 52 + (j - 2 ^ 52)) % 2 ^ 52 = j - 2 ^ 52 := by omega
        have e2 : ((e + 2) * 2 ^ 52 + (j - 2 ^ 52)) / 2 ^ 52 = e + 2 := by omega
        rw [e1, e2]
        have : 2 ^ 52 + (j - 2 ^ 52) = j := by omega
        rw [this]; rfl

theorem rep_encode {n : Nat} (h : Rep n) : ∃ m, m < infMag ∧ natVal m = n := by
  obtain ⟨j, e, hj, rfl, hlt⟩ := h
  exact rep_encode_aux e j hj hlt

/-- Rounding a representable magnitude is exact and stays finite. -/
theorem roundMag_rep {n : Nat} (h : Rep n) :
    roundMag n 1 < infMag ∧ natVal (roundMag n 1) = n := by
  obtain ⟨m, hm, rfl⟩ := rep_encode h
  rw [roundMag_natVal (le_of_lt hm)]
  exact ⟨hm, rfl⟩

theorem natVal_lt {m : Nat} (h : m < infMag) : natVal m < 2 ^ 2098 := by
  obtain ⟨_, _, _, _, h⟩ := rep_natVal h
  exact h

/-! ## Representable magnitudes are closed under the exact operations -/

theorem rep_of_lt {n : Nat} (h : n < 2 ^ 53) : Rep n :=
  ⟨n, 0, h, by simp, lt_of_lt_of_le h (two_pow_mono (a := 53) (b := 2098) (by omega))⟩

theorem rep_double {a : Nat} (h : Rep a) (hlt : 2 * a < 2 ^ 2098) : Rep (2 * a) := by
  obtain ⟨j, e, hj, rfl, _⟩ := h
  exact ⟨j, e + 1, hj, by rw [pow_succ]; ring, hlt⟩

/-- Sterbenz: the difference of two representable magnitudes within a factor
of two of each other is representable. -/
theorem rep_sub {a b : Nat} (ha : Rep a) (hb : Rep b) (h1 : b ≤ a) (h2 : a ≤ 2 * b) :
    Rep (a - b) := by
  obtain ⟨ja, ea, hja, rfl, hlta⟩ := ha
  obtain ⟨jb, eb, hjb, rfl, _⟩ := hb
  have hlt : ja * 2 ^ ea - jb * 2 ^ eb < 2 ^ 2098 := lt_of_le_of_lt (Nat.sub_le _ _) hlta
  rcases Nat.le_total ea eb with hle | hle
  · obtain ⟨d, rfl⟩ := Nat.exists_eq_add_of_le hle
    refine ⟨ja - jb * 2 ^ d, ea, by omega, ?_, hlt⟩
    rw [Nat.sub_mul, pow_add]; ring_nf
  · obtain ⟨d, rfl⟩ := Nat.exists_eq_add_of_le hle
    have e1 : ja * 2 ^ (eb + d) - jb * 2 ^ eb = (ja * 2 ^ d - jb) * 2 ^ eb := by
      rw [Nat.sub_mul, pow_add]; ring_nf
    refine ⟨ja * 2 ^ d - jb, eb, ?_, e1, hlt⟩
    have h3 : (ja * 2 ^ d - jb) * 2 ^ eb ≤ jb * 2 ^ eb := by rw [← e1]; omega
    have h4 : ja * 2 ^ d - jb ≤ jb := Nat.le_of_mul_le_mul_right h3 (by positivity)
    omega

theorem rep_mod {a b : Nat} (ha : Rep a) (hb : Rep b) (hpos : 0 < b) : Rep (a % b) := by
  obtain ⟨ja, ea, hja, rfl, hlta⟩ := ha
  obtain ⟨jb, eb, hjb, rfl, _⟩ := hb
  have hlt : ja * 2 ^ ea % (jb * 2 ^ eb) < 2 ^ 2098 := lt_of_le_of_lt (Nat.mod_le _ _) hlta
  have hjb0 : 0 < jb := by
    rcases Nat.eq_zero_or_pos jb with h | h
    · rw [h] at hpos; simp at hpos
    · exact h
  rcases Nat.le_total ea eb with hle | hle
  · obtain ⟨d, rfl⟩ := Nat.exists_eq_add_of_le hle
    refine ⟨ja % (jb * 2 ^ d), ea, lt_of_le_of_lt (Nat.mod_le _ _) hja, ?_, hlt⟩
    rw [pow_add, ← Nat.mul_mod_mul_right]; ring_nf
  · obtain ⟨d, rfl⟩ := Nat.exists_eq_add_of_le hle
    refine ⟨ja * 2 ^ d % jb, eb, lt_trans (Nat.mod_lt _ hjb0) hjb, ?_, hlt⟩
    rw [pow_add, ← Nat.mul_mod_mul_right]; ring_nf

/-! ## Exact results of the arithmetic on finite doubles -/

theorem not_nan_of_finite {d : Double} (h : d.isFinite) : ¬ d.isNaN := by
  unfold Double.isFinite at h; unfold Double.isNaN; omega

theorem not_inf_of_finite {d : Double} (h : d.isFinite) : ¬ d.isInf := by
  unfold Double.isFinite at h; unfold Double.isInf; omega

theorem toInt_natAbs (d : Double) : d.toInt.natAbs = natVal d.mag := by
  unfold Double.toInt
  split <;> simp

theorem toInt_fneg (d : Double) : (fneg d).toInt = - d.toInt := by
  unfold Double.toInt
  rw [fneg_sign, fneg_mag]
  have := sign_lt d
  have h : d.sign = 0 ∨ d.sign = 1 := by omega
  rcases h with h | h <;> simp [h]

theorem fneg_finite {d : Double} (h : d.isFinite) : (fneg d).isFinite := by
  unfold Double.isFinite at *; rw [fneg_mag]; exact h

theorem infMag_lt : infMag < 2 ^ 63 := by unfold infMag; norm_num

theorem exact_mkD {s m : Nat} {v : Int} (hm : m < infMag) (hs : s < 2)
    (hv : (natVal m : Int) = |v|) (hsign : s = 1 ↔ v < 0) : Exact (mkD s m) v := by
  have hm63 : m < 2 ^ 63 := lt_trans hm infMag_lt
  refine ⟨?_, ?_, ?_⟩
  · unfold Double.isFinite; rw [mkD_mag_of_lt hm63]; exact hm
  · unfold Double.toInt
    rw [mkD_sign, mkD_mag_of_lt hm63, Nat.mod_eq_of_lt hs]
    by_cases h1 : s = 1
    · rw [if_pos h1, hv, abs_of_neg (hsign.mp h1)]; ring
    · rw [if_neg h1, hv, abs_of_nonneg (not_lt.mp (fun h => h1 (hsign.mpr h)))]
  · rw [mkD_sign, Nat.mod_eq_of_lt hs]; exact hsign

/-- An exactly representable sum is computed exactly. -/
theorem fadd_exact {a b : Double} {va vb : Int} (ha : Exact a va) (hb : Exact b vb)
    (hr : Rep (va + vb).natAbs) : Exact (fadd a b) (va + vb) := by
  obtain ⟨fa, ta, sa⟩ := ha
  obtain ⟨fb, tb, sb⟩ := hb
  unfold fadd
  rw [if_neg (by simp [not_nan_of_finite fa, not_nan_of_finite fb]),
    if_neg (not_inf_of_finite fa), if_neg (not_inf_of_finite fb), ta, tb]
  by_cases h0 : va + vb = 0
  · rw [if_pos h0, h0]
    apply exact_mkD (by unfold infMag; norm_num)
    · have := sign_lt a; have := sign_lt b
      have h1 : a.sign = 0 ∨ a.sign = 1 := by omega
      have h2 : b.sign = 0 ∨ b.sign = 1 := by omega
      rcases h1 with h1 | h1 <;> rcases h2 with h2 | h2 <;> simp [h1, h2]
    · simp [natVal]
    · constructor
      · intro h
        have h1 : a.sign = 1 := by
          have := sign_lt a; have := sign_lt b
          rcases Nat.eq_zero_or_pos a.sign with h1 | h1
          · rw [h1] at h; simp at h
          · omega
        have h2 : b.sign = 1 := by rw [h1] at h; simpa using h
        have := sa.mp h1; have := sb.mp h2
        omega
      · intro h; exact absurd h (lt_irrefl 0)
  · rw [if_neg h0]
    obtain ⟨hfin, hval⟩ := roundMag_rep hr
    apply exact_mkD hfin
    · split <;> omega
    · rw [hval]; exact Int.natCast_natAbs _
    · by_cases h : va + vb < 0
      · simp [h]
      · simp [h]

/-- An exactly representable difference is computed exactly. -/
theorem fsub_exact {a b : Double} {va vb : Int} (ha : Exact a va) (hb : Exact b vb)
    (hr : Rep (va - vb).natAbs) : Exact (fsub a b) (va - vb) := by
  obtain ⟨fa, ta, sa⟩ := ha
  obtain ⟨fb, tb, sb⟩ := hb
  unfold fsub fadd
  have tn : (fneg b).toInt = -vb := by rw [toInt_fneg, tb]
  rw [if_neg (by simp [not_nan_of_finite fa, not_nan_of_finite (fneg_finite fb)]),
    if_neg (not_inf_of_finite fa), if_neg (not_inf_of_finite (fneg_finite fb)), ta, tn]
  have e : va + -vb = va - vb := by ring
  rw [e]
  by_cases h0 : va - vb = 0
  · rw [if_pos h0, h0]
    apply exact_mkD (by unfold infMag; norm_num)
    · rw [fneg_sign]
      have := sign_lt a; have := sign_lt b
      have h1 : a.sign = 0 ∨ a.sign = 1 := by omega
      have h2 : b.sign = 0 ∨ b.sign = 1 := by omega
      rcases h1 with h1 | h1 <;> rcases h2 with h2 | h2 <;> simp [h1, h2]
    · simp [natVal]
    · constructor
      · intro h
        rw [fneg_sign] at h
        have h1 : a.sign = 1 := by
          have := sign_lt a
          rcases Nat.eq_zero_or_pos a.sign with h1 | h1
          · rw [h1] at h; simp at h
          · omega
        have h2 : b.sign ≠ 1 := by
          intro h2; rw [h1, h2] at h; simp at h
        have h3 := sa.mp h1
        have h4 : ¬ vb < 0 := fun h => h2 (sb.mpr h)
        omega
      · intro h; exact absurd h (lt_irrefl 0)
  · rw [if_neg h0]
    obtain ⟨hfin, hval⟩ := roundMag_rep hr
    apply exact_mkD hfin
    · split <;> omega
    · rw [hval]; exact Int.natCast_natAbs _
    · by_cases h : va - vb < 0
      · simp [h]
      · simp [h]

theorem exact_fabs {d : Double} (h : d.isFinite) : Exact (fabs d) (natVal d.mag) := by
  unfold fabs
  apply exact_mkD h (by norm_num)
  · simp
  · simp

theorem fgt_exact {a b : Double} {va vb : Int} (ha : Exact a va) (hb : Exact b vb) :
    fgt a b ↔ vb < va := by
  unfold fgt flt
  rw [ha.2.1, hb.2.1]
  simp [not_nan_of_finite ha.1, not_nan_of_finite hb.1]

theorem fge_exact {a b : Double} {va vb : Int} (ha : Exact a va) (hb : Exact b vb) :
    fge a b ↔ vb ≤ va := by
  unfold fge fle
  rw [ha.2.1, hb.2.1]
  simp [not_nan_of_finite ha.1, not_nan_of_finite hb.1]

/-! ## The branch conditions of the kernels, read on the fields of a double -/

theorem hi_mask_lt (x : Double) : HI x &&& 0x7fffffff < 2 ^ 31 := by
  rw [mask31]; exact Nat.mod_lt _ (by norm_num)

theorem cond_zero (p : Double) : (HI p &&& 0x7fffffff ||| LO p) = 0 ↔ p.mag = 0 := by
  rw [lor_eq_zero, mask31, mag_eq_words]
  have := LO_lt p
  omega

theorem cond_hi_ge (x : Double) (c : Nat) :
    sint (HI x &&& 0x7fffffff) ≥ (c : Int) ↔ c * 2 ^ 32 ≤ x.mag := by
  rw [sint_mask, mag_eq_words]
  have := LO_lt x
  constructor
  · intro h
    have h' : c ≤ HI x % 2 ^ 31 := by exact_mod_cast h
    nlinarith
  · intro h
    have h' : c ≤ HI x % 2 ^ 31 := by
      by_contra hc
      have : HI x % 2 ^ 31 + 1 ≤ c := by omega
      nlinarith
    exact_mod_cast h'

theorem cond_hi_lt (x : Double) (c : Nat) :
    sint (HI x &&& 0x7fffffff) < (c : Int) ↔ x.mag < c * 2 ^ 32 := by
  have h := cond_hi_ge x c
  constructor
  · intro h1
    by_contra h2
    exact absurd h1 (not_lt.mpr (h.mpr (not_lt.mp h2)))
  · intro h1
    by_contra h2
    exact absurd h1 (not_lt.mpr (h.mp (not_lt.mp h2)))

theorem cond_hi_le (x : Double) (c : Nat) :
    sint (HI x &&& 0x7fffffff) ≤ (c : Int) ↔ x.mag < (c + 1) * 2 ^ 32 := by
  rw [← cond_hi_lt]
  push_cast
  omega

theorem cond_notfinite (x : Double) :
    sint (HI x &&& 0x7fffffff) ≥ 0x7ff00000 ↔ ¬ x.isFinite := by
  have h := cond_hi_ge x 0x7ff00000
  unfold Double.isFinite infMag
  rw [not_lt]
  exact h

theorem cond_nan (p : Double) :
    (sint (HI p &&& 0x7fffffff) ≥ 0x7ff00000 ∧
      (sub32 (HI p &&& 0x7fffffff) 0x7ff00000 ||| LO p) ≠ 0) ↔ p.isNaN := by
  have h := cond_hi_ge p 0x7ff00000
  have h1 := hi_mask_lt p
  have h2 := LO_lt p
  unfold Double.isNaN infMag
  rw [Ne, lor_eq_zero, sub32_eq_zero (by omega) (by norm_num)]
  constructor
  · rintro ⟨a, b⟩
    have a' := h.mp a
    rw [mag_eq_words, ← mask31] at a' ⊢
    by_contra hc
    apply b
    omega
  · intro a
    refine ⟨h.mpr (by omega), ?_⟩
    rw [mag_eq_words, ← mask31] at a
    omega

theorem cond_same_mag (x p : Double) :
    (sub32 (HI x &&& 0x7fffffff) (HI p &&& 0x7fffffff) ||| sub32 (LO x) (LO p)) = 0
      ↔ x.mag = p.mag := by
  have h1 := hi_mask_lt x
  have h2 := hi_mask_lt p
  rw [lor_eq_zero, sub32_eq_zero (by omega) (by omega),
    sub32_eq_zero (LO_lt x) (LO_lt p), mag_eq_words, mag_eq_words, ← mask31, ← mask31]
  have := LO_lt x; have := LO_lt p
  omega

/-- The remainder kernel with its branch conditions read on the fields of
`x` and `p`. -/
theorem remainder_eq (x p : Double) : ieee754_remainder x p =
    if p.mag = 0 then fdiv (fmul x p) (fmul x p)
    else if ¬ x.isFinite ∨ p.isNaN then fdiv (fmul x p) (fmul x p)
    else if x.mag = p.mag then
      fmul zero (if p.mag < 0x7fe0000000000000 then ieee754_fmod x (fadd p p) else x)
    else
      mkD ((if p.mag < 2 ^ 53 then
            (if fgt (fadd (fabs (if p.mag < 0x7fe0000000000000 then ieee754_fmod x (fadd p p) else x))
                (fabs (if p.mag < 0x7fe0000000000000 then ieee754_fmod x (fadd p p) else x))) (fabs p) then
              (if fge (fadd (fsub (fabs (if p.mag < 0x7fe0000000000000 then ieee754_fmod x (fadd p p) else x)) (fabs p))
                  (fsub (fabs (if p.mag < 0x7fe0000000000000 then ieee754_fmod x (fadd p p) else x)) (fabs p))) (fabs p)
               then fsub (fsub (fabs (if p.mag < 0x7fe0000000000000 then ieee754_fmod x (fadd p p) else x)) (fabs p)) (fabs p)
               else fsub (fabs (if p.mag < 0x7fe0000000000000 then ieee754_fmod x (fadd p p) else x)) (fabs p))
             else fabs (if p.mag < 0x7fe0000000000000 then ieee754_fmod x (fadd p p) else x))
          else
            (if fgt (fabs (if p.mag < 0x7fe0000000000000 then ieee754_fmod x (fadd p p) else x)) (fmul half (fabs p)) then
              (if fge (fsub (fabs (if p.mag < 0x7fe0000000000000 then ieee754_fmod x (fadd p p) else x)) (fabs p)) (fmul half (fabs p))
               then fsub (fsub (fabs (if p.mag < 0x7fe0000000000000 then ieee754_fmod x (fadd p p) else x)) (fabs p)) (fabs p)
               else fsub (fabs (if p.mag < 0x7fe0000000000000 then ieee754_fmod x (fadd p p) else x)) (fabs p))
             else fabs (if p.mag < 0x7fe0000000000000 then ieee754_fmod x (fadd p p) else x))).sign + x.sign)
          (if p.mag < 2 ^ 53 then
            (if fgt (fadd (fabs (if p.mag < 0x7fe0000000000000 then ieee754_fmod x (fadd p p) else x))
                (fabs (if p.mag < 0x7fe0000000000000 then ieee754_fmod x (fadd p p) else x))) (fabs p) then
              (if fge (fadd (fsub (fabs (if p.mag < 0x7fe0000000000000 then ieee754_fmod x (fadd p p) else x)) (fabs p))
                  (fsub (fabs (if p.mag < 0x7fe0000000000000 then ieee754_fmod x (fadd p p) else x)) (fabs p))) (fabs p)
               then fsub (fsub (fabs (if p.mag < 0x7fe0000000000000 then ieee754_fmod x (fadd p p) else x)) (fabs p)) (fabs p)
               else fsub (fabs (if p.mag < 0x7fe0000000000000 then ieee754_fmod x (fadd p p) else x)) (fabs p))
             else fabs (if p.mag < 0x7fe0000000000000 then ieee754_fmod x (fadd p p) else x))
          else
            (if fgt (fabs (if p.mag < 0x7fe0000000000000 then ieee754_fmod x (fadd p p) else x)) (fmul half (fabs p)) then
              (if fge (fsub (fabs (if p.mag < 0x7fe0000000000000 then ieee754_fmod x (fadd p p) else x)) (fabs p)) (fmul half (fabs p))
               then fsub (fsub (fabs (if p.mag < 0x7fe0000000000000 then ieee754_fmod x (fadd p p) else x)) (fabs p)) (fabs p)
               else fsub (fabs (if p.mag < 0x7fe0000000000000 then ieee754_fmod x (fadd p p) else x)) (fabs p))
             else fabs (if p.mag < 0x7fe0000000000000 then ieee754_fmod x (fadd p p) else x))).mag := by
  have c1 := cond_zero p
  have c2 := cond_notfinite x
  have c3 := cond_nan p
  have c4 : sint (HI p &&& 0x7fffffff) ≤ 0x7fdfffff ↔ p.mag < 0x7fe0000000000000 :=
    cond_hi_le p 0x7fdfffff
  have c5 := cond_same_mag x p
  have c6 : sint (HI p &&& 0x7fffffff) < 0x00200000 ↔ p.mag < 2 ^ 53 :=
    cond_hi_lt p 0x00200000
  unfold ieee754_remainder
  simp only [c1, c2, c3, c4, c5, c6, setHI_xor_sign _ _ (HI_lt x), ← sign_eq_HI]

/-! ## The steps of the remainder kernel, on exact values -/

theorem exact_self {d : Double} (h : d.isFinite) (h0 : d.mag ≠ 0) : Exact d d.toInt := by
  refine ⟨h, rfl, ?_⟩
  have hpos : 0 < natVal d.mag := natVal_pos (Nat.pos_of_ne_zero h0)
  unfold Double.toInt
  by_cases hs : d.sign = 1
  · simp only [hs, if_true, true_iff]; omega
  · simp only [hs, if_false, false_iff]; omega

theorem exact_mag {d : Double} {v : Int} (h : Exact d v) : natVal d.mag = v.natAbs := by
  rw [← h.2.1, toInt_natAbs]

theorem two_pow_succ (n : Nat) : 2 ^ (n + 1) = 2 * 2 ^ n := by
  rw [pow_succ]; ring

theorem roundMag_zero (b : Nat) : roundMag 0 b = 0 := by
  unfold roundMag
  simp only [Nat.zero_div]
  rw [expoShift_of_lt _ (by norm_num)]
  simp [rne]

theorem natVal_half : natVal half.mag = 2 ^ 1073 := by decide!

/-- Halving a double whose exponent field is at least 2 is exact. -/
theorem fmul_half_exact {p : Double} {P : Nat} (hp : Exact p P) (hE : 2 ^ 53 ≤ p.mag) :
    ∃ h : Nat, P = 2 * h ∧ Exact (fmul half p) h := by
  obtain ⟨fp, tp, sp⟩ := hp
  have hsign : p.sign = 0 := by
    have := sign_lt p
    by_contra hc
    have h1 : p.sign = 1 := by omega
    have := sp.mp h1
    omega
  have hP : natVal p.mag = P := by
    have := toInt_natAbs p
    rw [tp] at this
    simpa using this.symm
  have hfin : p.mag < infMag := fp
  obtain ⟨e, he⟩ : ∃ e, p.mag / 2 ^ 52 - 1 = e + 1 := ⟨p.mag / 2 ^ 52 - 2, by omega⟩
  have hval : natVal p.mag = 2 * ((2 ^ 52 + p.mag % 2 ^ 52) * 2 ^ e) := by
    rw [natVal_normal (by omega), he, pow_succ]; ring
  have hrep : Rep ((2 ^ 52 + p.mag % 2 ^ 52) * 2 ^ e) := by
    refine ⟨_, e, by omega, rfl, ?_⟩
    have := natVal_lt hfin
    omega
  refine ⟨(2 ^ 52 + p.mag % 2 ^ 52) * 2 ^ e, by rw [← hP, hval], ?_⟩
  unfold fmul
  have hh : ¬ half.isNaN := by decide
  have hi : ¬ half.isInf := by decide
  have hs : half.sign = 0 := by decide
  rw [if_neg (by simp [hh, not_nan_of_finite fp]),
    if_neg (by simp [hi, not_inf_of_finite fp]), natVal_half, hval, hs, hsign]
  have e1 : 2 ^ 1073 * (2 * ((2 ^ 52 + p.mag % 2 ^ 52) * 2 ^ e))
      = ((2 ^ 52 + p.mag % 2 ^ 52) * 2 ^ e) * 2 ^ 1074 := by
    have e0 := two_pow_succ 1073
    simp only [Nat.reduceAdd] at e0
    rw [e0]; ring
  rw [e1, roundMag_mul_right _ (by positivity)]
  obtain ⟨hf, hv⟩ := roundMag_rep hrep
  apply exact_mkD hf (by norm_num)
  · rw [hv]; exact (Nat.abs_cast _).symm
  · exact ⟨fun h => by omega, fun h => absurd h (not_lt.mpr (Nat.cast_nonneg _))⟩

/-- A finite double times `0.0` is a zero with the sign of the double. -/
theorem fmul_zero_left {d : Double} (h : d.isFinite) : fmul zero d = mkD d.sign 0 := by
  unfold fmul
  have hh : ¬ zero.isNaN := by decide
  have hi : ¬ zero.isInf := by decide
  have hs : zero.sign = 0 := by decide
  have hv : natVal zero.mag = 0 := by decide
  rw [if_neg (by simp [hh, not_nan_of_finite h]),
    if_neg (by simp [hi, not_inf_of_finite h]), hv, hs, zero_mul, roundMag_zero, zero_add]

theorem natVal_ge_of_top {m : Nat} (h1 : 0x7fe0000000000000 ≤ m) (h2 : m < infMag) :
    2 ^ 2097 ≤ natVal m := by
  unfold infMag at h2
  rw [natVal_normal (by omega)]
  have hE : m / 2 ^ 52 - 1 = 2045 := by omega
  rw [hE]
  calc 2 ^ 2097 = 2 ^ 52 * 2 ^ 2045 := by simp only [← pow_add, Nat.reduceAdd]
    _ ≤ (2 ^ 52 + m % 2 ^ 52) * 2 ^ 2045 := Nat.mul_le_mul_right _ (by omega)

theorem natVal_lt_of_below_top {m : Nat} (h1 : m < 0x7fe0000000000000) :
    natVal m < 2 ^ 2097 := by
  by_cases h2 : m < 2 ^ 53
  · rw [natVal_of_lt h2]
    exact lt_of_lt_of_le h2 (two_pow_mono (a := 53) (b := 2097) (by omega))
  · rw [natVal_normal (by omega)]
    have hE : m / 2 ^ 52 - 1 ≤ 2044 := by omega
    calc (2 ^ 52 + m % 2 ^ 52) * 2 ^ (m / 2 ^ 52 - 1)
        < 2 ^ 53 * 2 ^ (m / 2 ^ 52 - 1) :=
          Nat.mul_lt_mul_of_pos_right (by omega) (by positivity)
      _ ≤ 2 ^ 53 * 2 ^ 2044 := Nat.mul_le_mul_left _ (two_pow_mono hE)
      _ = 2 ^ 2097 := by simp only [← pow_add, Nat.reduceAdd]

theorem two_pow_2098_eq : 2 ^ 2098 = 2 * 2 ^ 2097 := by
  have e0 := two_pow_succ 2097
  simp only [Nat.reduceAdd] at e0
  exact e0

/-- The argument reduction `x = __ieee754_fmod(x,p+p)`, taken when the high
word of `|p|` is at most `0x7fdfffff`: afterwards `|x| < 2|p|`. -/
theorem reduce_exact (x p : Double) (hx : x.isFinite) (hp : p.isFinite) (hp0 : p.mag ≠ 0) :
    (if p.mag < 0x7fe0000000000000 then ieee754_fmod x (fadd p p) else x).isFinite ∧
    (if p.mag < 0x7fe0000000000000 then ieee754_fmod x (fadd p p) else x).sign = x.sign ∧
    natVal (if p.mag < 0x7fe0000000000000 then ieee754_fmod x (fadd p p) else x).mag
      = natVal x.mag % (2 * natVal p.mag) := by
  have hX := natVal_lt hx
  by_cases hc : p.mag < 0x7fe0000000000000
  · simp only [if_pos hc]
    have hP := natVal_lt_of_below_top hc
    have hpe := exact_self hp hp0
    have hna : (p.toInt + p.toInt).natAbs = 2 * natVal p.mag := by
      have := toInt_natAbs p; omega
    have h2 : Exact (fadd p p) (p.toInt + p.toInt) := by
      apply fadd_exact hpe hpe
      rw [hna]
      exact rep_double (rep_natVal hp) (by rw [two_pow_2098_eq]; omega)
    have hy : natVal (fadd p p).mag = 2 * natVal p.mag := by rw [exact_mag h2, hna]
    have hypos : 0 < natVal (fadd p p).mag := by
      rw [hy]; have := natVal_pos (Nat.pos_of_ne_zero hp0); omega
    have hy0 : ¬ (fadd p p).isZero := by
      unfold Double.isZero
      intro h; rw [h] at hypos; simp [natVal] at hypos
    unfold ieee754_fmod
    rw [if_neg (by simp [not_nan_of_finite hx, not_nan_of_finite h2.1,
      not_inf_of_finite hx, hy0]), if_neg (not_inf_of_finite h2.1), hy]
    have hrep : Rep (natVal x.mag % (2 * natVal p.mag)) := by
      apply rep_mod (rep_natVal hx) _ (by omega)
      rw [← hy]; exact rep_natVal h2.1
    obtain ⟨hf, hv⟩ := roundMag_rep hrep
    have hm63 := lt_trans hf infMag_lt
    refine ⟨?_, ?_, ?_⟩
    · unfold Double.isFinite; rw [mkD_mag_of_lt hm63]; exact hf
    · rw [mkD_sign]; exact Nat.mod_eq_of_lt (sign_lt x)
    · rw [mkD_mag_of_lt hm63, hv]
  · simp only [if_neg hc]
    refine ⟨hx, trivial, ?_⟩
    have := natVal_ge_of_top (not_lt.mp hc) hp
    rw [Nat.mod_eq_of_lt]
    rw [two_pow_2098_eq] at hX
    omega

theorem rep_of_exact {d : Double} {v : Int} (h : Exact d v) : Rep v.natAbs := by
  rw [← exact_mag h]; exact rep_natVal h.1

/-- The selection between `x`, `x-p` and `x-2p` for `|p| < 2^-1021`, where
the comparisons are made on `x+x`. -/
theorem select_small {xa pa : Double} {X P : Nat} (hx : Exact xa X) (hp : Exact pa P)
    (hP : P < 2 ^ 53) (hXP : X < 2 * P) :
    ∃ (v : Int) (k : Nat),
      Exact (if fgt (fadd xa xa) pa then
          (if fge (fadd (fsub xa pa) (fsub xa pa)) pa then fsub (fsub xa pa) pa
           else fsub xa pa)
        else xa) v ∧
      v = (X : Int) - k * P ∧ k ≤ 2 ∧ 2 * v.natAbs ≤ P ∧ (2 * v.natAbs = P → Even k) := by
  have h2x : Exact (fadd xa xa) ((X : Int) + X) := by
    apply fadd_exact hx hx
    have e : ((X : Int) + X).natAbs = 2 * X := by omega
    rw [e]
    have := rep_of_exact hx
    simp only [Int.natAbs_ofNat] at this
    exact rep_double this (by omega)
  by_cases c1 : fgt (fadd xa xa) pa
  · rw [if_pos c1]
    have c1' := (fgt_exact h2x hp).mp c1
    have hd : Exact (fsub xa pa) ((X : Int) - P) :=
      fsub_exact hx hp (rep_of_lt (by omega))
    have h2d : Exact (fadd (fsub xa pa) (fsub xa pa)) (((X : Int) - P) + ((X : Int) - P)) := by
      apply fadd_exact hd hd
      have e : (((X : Int) - P) + ((X : Int) - P)).natAbs = 2 * ((X : Int) - P).natAbs := by
        omega
      rw [e]
      exact rep_double (rep_of_lt (by omega)) (by omega)
    by_cases c2 : fge (fadd (fsub xa pa) (fsub xa pa)) pa
    · rw [if_pos c2]
      have c2' := (fge_exact h2d hp).mp c2
      refine ⟨(X : Int) - P - P, 2, fsub_exact hd hp (rep_of_lt (by omega)), by push_cast; ring,
        by omega, by omega, fun _ => by decide⟩
    · rw [if_neg c2]
      have c2' := mt (fge_exact h2d hp).mpr c2
      refine ⟨(X : Int) - P, 1, hd, by push_cast; ring, by omega, by omega, fun h => ?_⟩
      exfalso; omega
  · rw [if_neg c1]
    have c1' := mt (fgt_exact h2x hp).mpr c1
    exact ⟨X, 0, hx, by simp, by omega, by omega, fun _ => by decide⟩

/-- The selection between `x`, `x-p` and `x-2p` for `|p| ≥ 2^-1021`, where
the comparisons are made against `p_half = 0.5*p`. -/
theorem select_large {xa pa : Double} {X P : Nat} (hx : Exact xa X) (hp : Exact pa P)
    (hE : 2 ^ 53 ≤ pa.mag) (hXP : X < 2 * P) :
    ∃ (v : Int) (k : Nat),
      Exact (if fgt xa (fmul half pa) then
          (if fge (fsub xa pa) (fmul half pa) then fsub (fsub xa pa) pa
           else fsub xa pa)
        else xa) v ∧
      v = (X : Int) - k * P ∧ k ≤ 2 ∧ 2 * v.natAbs ≤ P ∧ (2 * v.natAbs = P → Even k) := by
  obtain ⟨h, hPh, hh⟩ := fmul_half_exact hp hE
  have rX : Rep X := by simpa using rep_of_exact hx
  have rP : Rep P := by simpa using rep_of_exact hp
  by_cases c1 : fgt xa (fmul half pa)
  · rw [if_pos c1]
    have c1' := (fgt_exact hx hh).mp c1
    have hd : Exact (fsub xa pa) ((X : Int) - P) := by
      apply fsub_exact hx hp
      rcases Nat.le_total P X with hle | hle
      · have e : ((X : Int) - P).natAbs = X - P := by omega
        rw [e]; exact rep_sub rX rP hle (by omega)
      · have e : ((X : Int) - P).natAbs = P - X := by omega
        rw [e]; exact rep_sub rP rX hle (by omega)
    by_cases c2 : fge (fsub xa pa) (fmul half pa)
    · rw [if_pos c2]
      have c2' := (fge_exact hd hh).mp c2
      have rd : Rep (X - P) := by
        have := rep_of_exact hd
        have e : ((X : Int) - P).natAbs = X - P := by omega
        rwa [e] at this
      refine ⟨(X : Int) - P - P, 2, ?_, by push_cast; ring, by omega, by omega, fun _ => by decide⟩
      apply fsub_exact hd hp
      have e : ((X : Int) - P - P).natAbs = P - (X - P) := by omega
      rw [e]; exact rep_sub rP rd (by omega) (by omega)
    · rw [if_neg c2]
      have c2' := mt (fge_exact hd hh).mpr c2
      refine ⟨(X : Int) - P, 1, hd, by push_cast; ring, by omega, by omega, fun h => ?_⟩
      exfalso; omega
  · rw [if_neg c1]
    have c1' := mt (fgt_exact hx hh).mpr c1
    exact ⟨X, 0, hx, by simp, by omega, by omega, fun _ => by decide⟩

/-- The result of the remainder kernel on finite `x` and finite nonzero `p`:
with `X`, `P` the magnitudes of `x`, `p`, the result is finite, of magnitude
`|v|` for `v = X mod 2P - k*P` with `k` one of 0, 1, 2 chosen so that
`2|v| ≤ P` (`k` even on a tie), and its sign is that of `x`, flipped when `v`
is negative. -/
theorem remainder_core (x p : Double) (hx : x.isFinite) (hp : p.isFinite)
    (hp0 : p.mag ≠ 0) :
    ∃ (v : Int) (k : Nat),
      v = ((natVal x.mag % (2 * natVal p.mag) : Nat) : Int) - k * natVal p.mag ∧
      k ≤ 2 ∧ 2 * v.natAbs ≤ natVal p.mag ∧ (2 * v.natAbs = natVal p.mag → Even k) ∧
      (ieee754_remainder x p).isFinite ∧
      natVal (ieee754_remainder x p).mag = v.natAbs ∧
      (ieee754_remainder x p).sign = (if v < 0 then (x.sign + 1) % 2 else x.sign) := by
  have hPpos : 0 < natVal p.mag := natVal_pos (Nat.pos_of_ne_zero hp0)
  obtain ⟨r1, r2, r3⟩ := reduce_exact x p hx hp hp0
  rw [remainder_eq, if_neg hp0, if_neg (by simp [hx, not_nan_of_finite hp])]
  by_cases hsame : x.mag = p.mag
  · rw [if_pos hsame, fmul_zero_left r1, r2]
    refine ⟨0, 1, ?_, by omega, by simp, ?_, ?_, ?_, ?_⟩
    · rw [hsame, Nat.mod_eq_of_lt (by omega)]; simp
    · intro h; simp at h; omega
    · unfold Double.isFinite; rw [mkD_mag]; unfold infMag; norm_num
    · rw [mkD_mag]; simp [natVal]
    · rw [mkD_sign]; simp [Nat.mod_eq_of_lt (sign_lt x)]
  · rw [if_neg hsame]
    have hxa := exact_fabs r1
    rw [r3] at hxa
    have hpa := exact_fabs hp
    have hlt : natVal x.mag % (2 * natVal p.mag) < 2 * natVal p.mag :=
      Nat.mod_lt _ (by omega)
    have fin : ∀ (xf : Double) (v : Int), Exact xf v →
        (mkD (xf.sign + x.sign) xf.mag).isFinite ∧
        natVal (mkD (xf.sign + x.sign) xf.mag).mag = v.natAbs ∧
        (mkD (xf.sign + x.sign) xf.mag).sign = (if v < 0 then (x.sign + 1) % 2 else x.sign) := by
      intro xf v hxf
      have hm := mag_lt xf
      refine ⟨?_, ?_, ?_⟩
      · unfold Double.isFinite; rw [mkD_mag_of_lt hm]; exact hxf.1
      · rw [mkD_mag_of_lt hm]; exact exact_mag hxf
      · rw [mkD_sign]
        have := sign_lt x; have := sign_lt xf
        by_cases hv : v < 0
        · rw [if_pos hv, hxf.2.2.mpr hv]; omega
        · rw [if_neg hv]
          have : xf.sign ≠ 1 := fun h => hv (hxf.2.2.mp h)
          omega
    by_cases hsmall : p.mag < 2 ^ 53
    · simp only [if_pos hsmall]
      have hP53 : natVal p.mag < 2 ^ 53 := by rw [natVal_of_lt hsmall]; exact hsmall
      obtain ⟨v, k, hv, e1, e0, e2, e3⟩ := select_small hxa hpa hP53 hlt
      exact ⟨v, k, e1, e0, e2, e3, fin _ v hv⟩
    · simp only [if_neg hsmall]
      have hE : 2 ^ 53 ≤ (fabs p).mag := by rw [fabs_mag]; omega
      obtain ⟨v, k, hv, e1, e0, e2, e3⟩ := select_large hxa hpa hE hlt
      exact ⟨v, k, e1, e0, e2, e3, fin _ v hv⟩

/-! ## The remainder kernel computes the IEEE-754 remainder -/

theorem toInt_of_sign (d : Double) :
    (d.sign = 0 ∧ d.toInt = natVal d.mag) ∨ (d.sign = 1 ∧ d.toInt = -(natVal d.mag : Int)) := by
  have := sign_lt d
  unfold Double.toInt
  by_cases h : d.sign = 1
  · right; simp [h]
  · left; exact ⟨by omega, by simp [h]⟩

theorem toRat_abs (d : Double) : |d.toRat| = (natVal d.mag : ℚ) / 2 ^ 1074 := by
  unfold Double.toRat
  rw [abs_div, abs_of_pos (by positivity : (0:ℚ) < 2 ^ 1074)]
  congr 1
  rcases toInt_of_sign d with ⟨_, h⟩ | ⟨_, h⟩
  · rw [h]; simp
  · rw [h]; simp

/-- On finite `x` and finite nonzero `p` the kernel returns `x - n*p` exactly,
for an integer `n` with `2|x - n*p| ≤ |p|` that is even on a tie (values in
units of `2^-1074`). -/
theorem remainder_int (x p : Double) (hx : x.isFinite) (hp : p.isFinite)
    (hp0 : p.mag ≠ 0) :
    ∃ n : Int, (ieee754_remainder x p).isFinite ∧
      (ieee754_remainder x p).toInt = x.toInt - n * p.toInt ∧
      2 * natVal (ieee754_remainder x p).mag ≤ natVal p.mag ∧
      (2 * natVal (ieee754_remainder x p).mag = natVal p.mag → Even n) := by
  obtain ⟨v, k, hv, _, h2, h3, hfin, hmag, hsign⟩ := remainder_core x p hx hp hp0
  have hdm := Nat.div_add_mod (natVal x.mag) (2 * natVal p.mag)
  have hdm' : (2 * (natVal p.mag : Int)) * ((natVal x.mag / (2 * natVal p.mag) : Nat) : Int)
      + ((natVal x.mag % (2 * natVal p.mag) : Nat) : Int) = (natVal x.mag : Int) := by
    exact_mod_cast hdm
  generalize ieee754_remainder x p = r at hfin hmag hsign ⊢
  generalize natVal x.mag / (2 * natVal p.mag) = q at hdm'
  generalize natVal x.mag % (2 * natVal p.mag) = X1 at hv hdm'
  have hk : Even ((2 : Int) * q + k) ↔ Even (k : Int) := by
    rw [Int.even_add]; simp
  have hk' : Even (-((2 : Int) * q + k)) ↔ Even (k : Int) := by
    rw [even_neg]; exact hk
  have hkn : Even (k : Int) ↔ Even k := Int.even_coe_nat k
  have hrt : r.toInt = if r.sign = 1 then -(v.natAbs : Int) else (v.natAbs : Int) := by
    unfold Double.toInt; rw [hmag]
  rw [hmag]
  have hsx := sign_lt x
  rcases toInt_of_sign x with ⟨sx, tx⟩ | ⟨sx, tx⟩ <;>
    rcases toInt_of_sign p with ⟨sp, tp⟩ | ⟨sp, tp⟩
  · refine ⟨2 * q + k, hfin, ?_, h2, fun h => hk.mpr (hkn.mpr (h3 h))⟩
    rw [hrt, tx, tp, hsign, sx]
    by_cases hneg : v < 0
    · simp only [hneg, if_true]; norm_num
      rw [abs_of_neg hneg]
      linear_combination hv + hdm'
    · simp only [hneg, if_false]; norm_num
      rw [abs_of_nonneg (not_lt.mp hneg)]
      linear_combination hv + hdm'
  · refine ⟨-(2 * q + k), hfin, ?_, h2, fun h => hk'.mpr (hkn.mpr (h3 h))⟩
    rw [hrt, tx, tp, hsign, sx]
    by_cases hneg : v < 0
    · simp only [hneg, if_true]; norm_num
      rw [abs_of_neg hneg]
      linear_combination hv + hdm'
    · simp only [hneg, if_false]; norm_num
      rw [abs_of_nonneg (not_lt.mp hneg)]
      linear_combination hv + hdm'
  · refine ⟨-(2 * q + k), hfin, ?_, h2, fun h => hk'.mpr (hkn.mpr (h3 h))⟩
    rw [hrt, tx, tp, hsign, sx]
    by_cases hneg : v < 0
    · simp only [hneg, if_true]; norm_num
      rw [abs_of_neg hneg]
      linear_combination -hv - hdm'
    · simp only [hneg, if_false]; norm_num
      rw [abs_of_nonneg (not_lt.mp hneg)]
      linear_combination -hv - hdm'
  · refine ⟨2 * q + k, hfin, ?_, h2, fun h => hk.mpr (hkn.mpr (h3 h))⟩
    rw [hrt, tx, tp, hsign, sx]
    by_cases hneg : v < 0
    · simp only [hneg, if_true]; norm_num
      rw [abs_of_neg hneg]
      linear_combination -hv - hdm'
    · simp only [hneg, if_false]; norm_num
      rw [abs_of_nonneg (not_lt.mp hneg)]
      linear_combination -hv - hdm'

theorem natVal_infMag : natVal infMag = 2 ^ 2098 := by
  unfold natVal infMag
  norm_num

theorem qNaN_isNaN : qNaN.isNaN := by decide

theorem mkD_inf_isInf (s : Nat) : (mkD s infMag).isInf := by
  unfold Double.isInf; rw [mkD_mag_of_lt infMag_lt]

theorem mkD_zero_isZero (s : Nat) : (mkD s 0).isZero := by
  unfold Double.isZero; rw [mkD_mag]; rfl

theorem fdiv_self_nan (y : Double) (h : y.isNaN ∨ y.isInf ∨ y.isZero) :
    fdiv y y = qNaN := by
  unfold fdiv
  by_cases h1 : y.isNaN
  · rw [if_pos (Or.inl h1)]
  · rw [if_neg (by simp [h1])]
    by_cases h2 : y.isInf
    · rw [if_pos h2, if_pos h2]
    · rw [if_neg h2, if_neg h2]
      have h3 : y.isZero := by tauto
      rw [if_pos h3, if_pos h3]

/-- The value `x*p` of the exceptional branch is a NaN, an infinity or a
zero whenever `p` is zero, `x` is not finite or `p` is a NaN. -/
theorem fmul_purge (x p : Double) (h : p.isZero ∨ x.isInf ∨ x.isNaN ∨ p.isNaN) :
    (fmul x p).isNaN ∨ (fmul x p).isInf ∨ (fmul x p).isZero := by
  unfold fmul
  by_cases h1 : x.isNaN ∨ p.isNaN
  · rw [if_pos h1]; exact Or.inl qNaN_isNaN
  · rw [if_neg h1]
    by_cases h2 : x.isInf ∨ p.isInf
    · rw [if_pos h2]
      by_cases h3 : x.isZero ∨ p.isZero
      · rw [if_pos h3]; exact Or.inl qNaN_isNaN
      · rw [if_neg h3]; exact Or.inr (Or.inl (mkD_inf_isInf _))
    · rw [if_neg h2]
      have hz : p.isZero := by tauto
      unfold Double.isZero at hz
      rw [hz]
      have : natVal 0 = 0 := rfl
      rw [this, mul_zero, roundMag_zero]
      exact Or.inr (Or.inr (mkD_zero_isZero _))

theorem not_finite_iff (x : Double) : ¬ x.isFinite ↔ x.isInf ∨ x.isNaN := by
  unfold Double.isFinite Double.isInf Double.isNaN; omega

/-- With a finite `x` and an infinite `p` the kernel returns `x`. -/
theorem remainder_inf (x p : Double) (hx : x.isFinite) (hp : p.isInf) :
    ieee754_remainder x p = x := by
  have hpm : p.mag = infMag := hp
  have hxm : x.mag < infMag := hx
  have h0 : ¬ p.mag = 0 := by rw [hpm]; unfold infMag; norm_num
  have h1 : ¬ (¬ x.isFinite ∨ p.isNaN) := by
    unfold Double.isNaN; rw [hpm]; simp [hx]
  have h2 : ¬ p.mag < 0x7fe0000000000000 := by rw [hpm]; unfold infMag; norm_num
  have h3 : ¬ x.mag = p.mag := by rw [hpm]; omega
  have h4 : ¬ p.mag < 2 ^ 53 := by rw [hpm]; unfold infMag; norm_num
  have hfp : fabs p = mkD 0 infMag := by unfold fabs; rw [hpm]
  have hhalf : fmul half (fabs p) = mkD 0 infMag := by
    unfold fmul
    have a1 : ¬ half.isNaN := by decide
    have a2 : ¬ (fabs p).isNaN := by
      unfold Double.isNaN; rw [fabs_mag, hpm]; exact lt_irrefl _
    have a3 : (fabs p).isInf := by unfold Double.isInf; rw [fabs_mag, hpm]
    have a4 : ¬ half.isZero := by decide
    have a5 : ¬ (fabs p).isZero := by
      unfold Double.isZero; rw [fabs_mag]; exact h0
    have a6 : half.sign = 0 := by decide
    rw [if_neg (by simp [a1, a2]), if_pos (Or.inr a3), if_neg (by simp [a4, a5]),
      a6, fabs_sign]
  have hgt : ¬ fgt (fabs x) (fmul half (fabs p)) := by
    rw [hhalf]
    unfold fgt flt
    intro h
    have h5 := h.2.2
    have e1 : (mkD 0 infMag).toInt = (natVal infMag : Int) := by
      unfold Double.toInt
      rw [mkD_sign, mkD_mag_of_lt infMag_lt]; simp
    have e2 := (exact_fabs hx).2.1
    rw [e1, e2] at h5
    have h6 : natVal infMag < natVal x.mag := by exact_mod_cast h5
    rw [natVal_infMag] at h6
    have := natVal_lt hx
    omega
  rw [remainder_eq, if_neg h0, if_neg h1, if_neg h3]
  simp only [if_neg h2, if_neg h4, if_neg hgt, fabs_sign, fabs_mag, zero_add]
  exact mkD_self x

/-! ## Claims on `__ieee754_remainder` -/

/-- C1: for every finite `x` and every finite `p ≠ 0`, the value
`r = __ieee754_remainder(x, p)` is finite and satisfies `|r| ≤ |p|/2`. -/
theorem remainder_abs_le_half (x p : Double) (hx : x.isFinite) (hp : p.isFinite)
    (hp0 : ¬ p.isZero) :
    (ieee754_remainder x p).isFinite ∧
      |(ieee754_remainder x p).toRat| ≤ |p.toRat| / 2 := by
  obtain ⟨n, hfin, _, h2, _⟩ := remainder_int x p hx hp hp0
  refine ⟨hfin, ?_⟩
  rw [toRat_abs, toRat_abs]
  have h2' : (2 : ℚ) * (natVal (ieee754_remainder x p).mag : ℚ) ≤ (natVal p.mag : ℚ) := by
    exact_mod_cast h2
  have hc : (0 : ℚ) < 2 ^ 1074 := by positivity
  rw [div_div, div_le_div_iff₀ hc (by positivity)]
  nlinarith

/-- C1, at `x = 5.0`, `p = 3.0`. -/
theorem remainder_abs_le_half_witness :
    (ieee754_remainder (Double.ofBits 0x4014000000000000)
        (Double.ofBits 0x4008000000000000)).isFinite ∧
      |(ieee754_remainder (Double.ofBits 0x4014000000000000)
        (Double.ofBits 0x4008000000000000)).toRat|
        ≤ |(Double.ofBits 0x4008000000000000).toRat| / 2 :=
  remainder_abs_le_half _ _ (by decide) (by decide) (by decide)

/-- C2, as stated, fails: `__ieee754_remainder(3.0, 4.0)` is `-1.0`, a nonzero
result whose sign is not the sign of `x = 3.0`. -/
theorem remainder_sign_counterexample :
    (Double.ofBits 0x4008000000000000).isFinite ∧
    (Double.ofBits 0x4010000000000000).isFinite ∧
    ¬ (Double.ofBits 0x4010000000000000).isZero ∧
    ieee754_remainder (Double.ofBits 0x4008000000000000)
      (Double.ofBits 0x4010000000000000) = negOne ∧
    ¬ (ieee754_remainder (Double.ofBits 0x4008000000000000)
      (Double.ofBits 0x4010000000000000)).isZero ∧
    (ieee754_remainder (Double.ofBits 0x4008000000000000)
      (Double.ofBits 0x4010000000000000)).sign
      ≠ (Double.ofBits 0x4008000000000000).sign := by
  decide!

/-- C2, amended: for every finite `x` and every finite `p ≠ 0`, a zero result
of `__ieee754_remainder(x, p)` carries the sign of `x`; a nonzero result has
the sign of `x` exactly when `|x| mod 2|p|` is at most `|p|/2` or lies
strictly between `|p|` and `3|p|/2`, and the opposite sign otherwise (the
final step xors the sign of `x` into the sign of the reduced difference). -/
theorem remainder_sign (x p : Double) (hx : x.isFinite) (hp : p.isFinite)
    (hp0 : ¬ p.isZero) :
    ((ieee754_remainder x p).isZero → (ieee754_remainder x p).sign = x.sign) ∧
    (¬ (ieee754_remainder x p).isZero →
      ((ieee754_remainder x p).sign = x.sign ↔
        (2 * (natVal x.mag % (2 * natVal p.mag)) ≤ natVal p.mag ∨
         (natVal p.mag < natVal x.mag % (2 * natVal p.mag) ∧
          2 * (natVal x.mag % (2 * natVal p.mag)) < 3 * natVal p.mag)))) := by
  obtain ⟨v, k, hv, hk, h2, h3, hfin, hmag, hsign⟩ := remainder_core x p hx hp hp0
  have hPpos : 0 < natVal p.mag := natVal_pos (Nat.pos_of_ne_zero hp0)
  have hlt : natVal x.mag % (2 * natVal p.mag) < 2 * natVal p.mag :=
    Nat.mod_lt _ (by omega)
  have hz : (ieee754_remainder x p).isZero ↔ v = 0 := by
    unfold Double.isZero
    rw [← natVal_eq_zero, hmag]; omega
  have hsx := sign_lt x
  generalize ieee754_remainder x p = r at hfin hmag hsign hz ⊢
  generalize natVal x.mag % (2 * natVal p.mag) = X1 at hv hlt ⊢
  generalize natVal p.mag = P at hv h2 h3 hPpos hlt ⊢
  have hodd : ¬ Even 1 := by decide
  constructor
  · intro h
    rw [hsign, if_neg (by rw [hz.mp h]; exact lt_irrefl 0)]
  · intro h
    have hv0 : v ≠ 0 := fun e => h (hz.mpr e)
    have hs : r.sign = x.sign ↔ 0 < v := by
      rw [hsign]
      by_cases hneg : v < 0
      · rw [if_pos hneg]; constructor <;> intro _ <;> omega
      · rw [if_neg hneg]; constructor <;> intro _ <;> omega
    rw [hs]
    interval_cases k
    · simp only [Nat.cast_zero, zero_mul, sub_zero] at hv
      omega
    · simp only [Nat.cast_one, one_mul] at hv
      have : 2 * v.natAbs ≠ P := fun e => hodd (h3 e)
      omega
    · have hv' : v = (X1 : Int) - 2 * P := by rw [hv]; push_cast; ring
      omega

/-- C2 amended, at `x = 3.0`, `p = 4.0`. -/
theorem remainder_sign_witness :
    ((ieee754_remainder (Double.ofBits 0x4008000000000000)
        (Double.ofBits 0x4010000000000000)).isZero →
      (ieee754_remainder (Double.ofBits 0x4008000000000000)
        (Double.ofBits 0x4010000000000000)).sign
        = (Double.ofBits 0x4008000000000000).sign) ∧
    (¬ (ieee754_remainder (Double.ofBits 0x4008000000000000)
        (Double.ofBits 0x4010000000000000)).isZero →
      ((ieee754_remainder (Double.ofBits 0x4008000000000000)
        (Double.ofBits 0x4010000000000000)).sign
        = (Double.ofBits 0x4008000000000000).sign ↔
        (2 * (natVal (Double.ofBits 0x4008000000000000).mag
            % (2 * natVal (Double.ofBits 0x4010000000000000).mag))
            ≤ natVal (Double.ofBits 0x4010000000000000).mag ∨
         (natVal (Double.ofBits 0x4010000000000000).mag
            < natVal (Double.ofBits 0x4008000000000000).mag
              % (2 * natVal (Double.ofBits 0x4010000000000000).mag) ∧
          2 * (natVal (Double.ofBits 0x4008000000000000).mag
            % (2 * natVal (Double.ofBits 0x4010000000000000).mag))
            < 3 * natVal (Double.ofBits 0x4010000000000000).mag)))) :=
  remainder_sign _ _ (by decide) (by decide) (by decide)

/-- C3: for every finite `x` and every finite `p ≠ 0`, the result of
`__ieee754_remainder(x, p)` is the exact value `x - n*p` where `n` is an
integer nearest to the exact quotient `x/p`, and `n` is even when `x/p` is
exactly halfway between two integers. -/
theorem remainder_ieee (x p : Double) (hx : x.isFinite) (hp : p.isFinite)
    (hp0 : ¬ p.isZero) :
    ∃ n : Int, (ieee754_remainder x p).isFinite ∧
      (ieee754_remainder x p).toRat = x.toRat - n * p.toRat ∧
      |x.toRat / p.toRat - n| ≤ 1 / 2 ∧
      (|x.toRat / p.toRat - n| = 1 / 2 → Even n) := by
  obtain ⟨n, hfin, hval, h2, h3⟩ := remainder_int x p hx hp hp0
  have hPpos : 0 < natVal p.mag := natVal_pos (Nat.pos_of_ne_zero hp0)
  have hc : (0 : ℚ) < 2 ^ 1074 := by positivity
  have hr : (ieee754_remainder x p).toRat = x.toRat - n * p.toRat := by
    unfold Double.toRat
    rw [hval]; push_cast; ring
  have hpa : 0 < |p.toRat| := by
    rw [toRat_abs]
    have : (0 : ℚ) < natVal p.mag := by exact_mod_cast hPpos
    positivity
  have hp1 : p.toRat ≠ 0 := abs_pos.mp hpa
  have hq : x.toRat / p.toRat - n = (ieee754_remainder x p).toRat / p.toRat := by
    rw [hr]; field_simp; ring
  have habs : |x.toRat / p.toRat - n|
      = (natVal (ieee754_remainder x p).mag : ℚ) / (natVal p.mag : ℚ) := by
    rw [hq, abs_div, toRat_abs, toRat_abs]
    have : (natVal p.mag : ℚ) ≠ 0 := by exact_mod_cast hPpos.ne'
    field_simp
  have hPq : (0 : ℚ) < natVal p.mag := by exact_mod_cast hPpos
  refine ⟨n, hfin, hr, ?_, ?_⟩
  · rw [habs, div_le_div_iff₀ hPq (by norm_num)]
    have : (2 : ℚ) * natVal (ieee754_remainder x p).mag ≤ natVal p.mag := by
      exact_mod_cast h2
    linarith
  · intro h
    apply h3
    rw [habs, div_eq_div_iff hPq.ne' (by norm_num)] at h
    have : ((2 * natVal (ieee754_remainder x p).mag : Nat) : ℚ) = (natVal p.mag : ℚ) := by
      push_cast; linarith
    exact_mod_cast this

/-- C3, at `x = 5.0`, `p = 3.0`. -/
theorem remainder_ieee_witness :
    ∃ n : Int,
      (ieee754_remainder (Double.ofBits 0x4014000000000000)
        (Double.ofBits 0x4008000000000000)).isFinite ∧
      (ieee754_remainder (Double.ofBits 0x4014000000000000)
        (Double.ofBits 0x4008000000000000)).toRat
        = (Double.ofBits 0x4014000000000000).toRat
          - n * (Double.ofBits 0x4008000000000000).toRat ∧
      |(Double.ofBits 0x4014000000000000).toRat
          / (Double.ofBits 0x4008000000000000).toRat - n| ≤ 1 / 2 ∧
      (|(Double.ofBits 0x4014000000000000).toRat
          / (Double.ofBits 0x4008000000000000).toRat - n| = 1 / 2 → Even n) :=
  remainder_ieee _ _ (by decide) (by decide) (by decide)

/-- C4: `__ieee754_remainder(x, p)` takes the exceptional branch returning
`(x*p)/(x*p)` exactly when `p` is `±0`, or `x` is infinite or a NaN, or `p` is
a NaN; the result is then a NaN, on every other input it is not a NaN, and
`remainder(5.0, 0.0)` is a NaN. -/
theorem remainder_purge (x p : Double) :
    (((HI p &&& 0x7fffffff ||| LO p) = 0 ∨
        (sint (HI x &&& 0x7fffffff) ≥ 0x7ff00000 ∨
          (sint (HI p &&& 0x7fffffff) ≥ 0x7ff00000 ∧
            (sub32 (HI p &&& 0x7fffffff) 0x7ff00000 ||| LO p) ≠ 0)))
      ↔ (p.isZero ∨ x.isInf ∨ x.isNaN ∨ p.isNaN)) ∧
    ((p.isZero ∨ x.isInf ∨ x.isNaN ∨ p.isNaN) →
      ieee754_remainder x p = fdiv (fmul x p) (fmul x p) ∧
        (ieee754_remainder x p).isNaN) ∧
    (¬ (p.isZero ∨ x.isInf ∨ x.isNaN ∨ p.isNaN) → ¬ (ieee754_remainder x p).isNaN) ∧
    (ieee754_remainder (Double.ofBits 0x4014000000000000) zero).isNaN := by
  refine ⟨?_, ?_, ?_, by decide!⟩
  · rw [cond_zero, cond_notfinite, cond_nan, not_finite_iff]
    unfold Double.isZero
    tauto
  · intro h
    have e : ieee754_remainder x p = fdiv (fmul x p) (fmul x p) := by
      rw [remainder_eq]
      by_cases h0 : p.mag = 0
      · rw [if_pos h0]
      · rw [if_neg h0, if_pos]
        rw [not_finite_iff]
        unfold Double.isZero at h
        tauto
    rw [e, fdiv_self_nan _ (fmul_purge x p h)]
    exact ⟨rfl, qNaN_isNaN⟩
  · intro h
    have hx : x.isFinite := by
      by_contra hc
      rw [not_finite_iff] at hc
      tauto
    have hp0 : ¬ p.isZero := by tauto
    have hpn : ¬ p.isNaN := by tauto
    by_cases hp : p.isFinite
    · obtain ⟨_, hfin, _⟩ := remainder_int x p hx hp hp0
      exact not_nan_of_finite hfin
    · have hpi : p.isInf := by
        rw [not_finite_iff] at hp; tauto
      rw [remainder_inf x p hx hpi]
      exact not_nan_of_finite hx

/-! ## `logb` -/

theorem mag_eq_fields (x : Double) : x.mag = x.expo * 2 ^ 52 + x.mant := by
  unfold Double.mag Double.expo Double.mant; omega

theorem mant_lt (x : Double) : x.mant < 2 ^ 52 := by
  unfold Double.mant; omega

theorem expo_lt (x : Double) : x.expo < 2 ^ 11 := by
  unfold Double.expo; omega

theorem hi_shift_eq_expo (x : Double) : (HI x &&& 0x7fffffff) >>> 20 = x.expo := by
  rw [mask31, Nat.shiftRight_eq_div_pow]
  unfold HI Double.expo; omega

/-- The function `logb` with its branch conditions read on the fields of `x`. -/
theorem logb_eq (x : Double) : logb x =
    if x.mag = 0 then fdiv negOne (fabs x)
    else if ¬ x.isFinite then fmul x x
    else if x.expo = 0 then negD1022
    else i2d ((x.expo : Int) - 1023) := by
  have hs : sint x.expo = (x.expo : Int) :=
    sint_of_lt (lt_trans (expo_lt x) (by norm_num))
  unfold logb
  simp only [cond_zero, cond_notfinite, hi_shift_eq_expo, hs]

/-- The conversion of an `int` to `double` is exact. -/
theorem i2d_exact (i : Int) (h : i.natAbs < 2 ^ 53) : Exact (i2d i) (i * 2 ^ 1074) := by
  have hrep : Rep (i.natAbs * 2 ^ 1074) := by
    refine ⟨i.natAbs, 1074, h, rfl, ?_⟩
    calc i.natAbs * 2 ^ 1074 < 2 ^ 53 * 2 ^ 1074 :=
          Nat.mul_lt_mul_of_pos_right h (by positivity)
      _ = 2 ^ 1127 := by simp only [← pow_add, Nat.reduceAdd]
      _ ≤ 2 ^ 2098 := two_pow_mono (by omega)
  obtain ⟨hf, hv⟩ := roundMag_rep hrep
  unfold i2d
  apply exact_mkD hf
  · split <;> omega
  · rw [hv, abs_mul, abs_of_pos (by positivity : (0:Int) < 2 ^ 1074), Nat.cast_mul,
      Nat.cast_pow, Int.abs_eq_natAbs]
    rfl
  · have hpos : (0:Int) < 2 ^ 1074 := by positivity
    by_cases hi : i < 0
    · simp only [hi, if_true, true_iff]; exact mul_neg_of_neg_of_pos hi hpos
    · simp only [hi, if_false]
      constructor
      · intro h; omega
      · intro h; exact absurd h (not_lt.mpr (mul_nonneg (not_lt.mp hi) hpos.le))

theorem toRat_of_exact {d : Double} {i : Int} (h : Exact d (i * 2 ^ 1074)) :
    d.toRat = (i : ℚ) := by
  unfold Double.toRat
  rw [h.2.1, Int.cast_mul, Int.cast_pow, Int.cast_ofNat, mul_div_assoc,
    div_self (by positivity), mul_one]

/-- C5: for every normal finite double `x` (exponent field between 1 and
2046), `logb(x)` is the double whose value is the exponent field of `x` minus
1023, whatever the sign and mantissa of `x`; in particular `logb(1.0) = 0.0`,
`logb(2.0) = 1.0` and `logb(0.5) = -1.0`. -/
theorem logb_normal (x : Double) (h1 : 1 ≤ x.expo) (h2 : x.expo ≤ 2046) :
    logb x = i2d ((x.expo : Int) - 1023) ∧
    (logb x).isFinite ∧ (logb x).toRat = (x.expo : ℚ) - 1023 ∧
    logb one = zero ∧ logb two = one ∧ logb half = negOne := by
  have hm := mag_eq_fields x
  have hmant := mant_lt x
  have e : logb x = i2d ((x.expo : Int) - 1023) := by
    rw [logb_eq, if_neg (by omega), if_neg, if_neg (by omega)]
    unfold Double.isFinite infMag
    rw [not_not]; omega
  have hex := i2d_exact ((x.expo : Int) - 1023) (by omega)
  refine ⟨e, ?_, ?_, by decide!, by decide!, by decide!⟩
  · rw [e]; exact hex.1
  · rw [e, toRat_of_exact hex]; push_cast; ring

/-- C5, at `x = -3.75`, whose exponent field is 1024. -/
theorem logb_normal_witness :
    logb (Double.ofBits 0xc00e000000000000)
      = i2d (((Double.ofBits 0xc00e000000000000).expo : Int) - 1023) ∧
    (logb (Double.ofBits 0xc00e000000000000)).isFinite ∧
    (logb (Double.ofBits 0xc00e000000000000)).toRat
      = ((Double.ofBits 0xc00e000000000000).expo : ℚ) - 1023 ∧
    logb one = zero ∧ logb two = one ∧ logb half = negOne :=
  logb_normal _ (by decide) (by decide)

/-- C6: `logb(+0.0)` and `logb(-0.0)` are both `-∞`, and the zero branch
`(ix|lx)==0` is taken by the two zeros only. -/
theorem logb_zero :
    logb zero = negInf ∧ logb negZero = negInf ∧
    (∀ x : Double, ((HI x &&& 0x7fffffff ||| LO x) = 0 ↔ x.isZero)) ∧
    (∀ x : Double, x.isZero → logb x = negInf) ∧
    (∀ x : Double, ¬ x.isZero → logb x ≠ negInf) := by
  refine ⟨by decide!, by decide!, fun x => cond_zero x, ?_, ?_⟩
  · intro x hx
    have hx' : x.mag = 0 := hx
    rw [logb_eq, if_pos hx']
    unfold fabs
    rw [hx']
    decide!
  · intro x hx
    have hx' : ¬ x.mag = 0 := hx
    rw [logb_eq, if_neg hx']
    by_cases hf : x.isFinite
    · rw [if_neg (not_not.mpr hf)]
      by_cases he : x.expo = 0
      · rw [if_pos he]; decide
      · rw [if_neg he]
        have hex := i2d_exact ((x.expo : Int) - 1023) (by have := expo_lt x; omega)
        intro hc
        have := hex.1
        rw [hc] at this
        exact absurd this (by decide)
    · rw [if_pos hf]
      intro hc
      have hs : (fmul x x).sign = 0 := by
        unfold fmul
        by_cases h1 : x.isNaN ∨ x.isNaN
        · rw [if_pos h1]; decide
        · rw [if_neg h1]
          have h2 : x.isInf := by
            rw [not_finite_iff] at hf; tauto
          have h3 : ¬ x.isZero := hx
          rw [if_pos (Or.inl h2), if_neg (by tauto), mkD_sign]; omega
      rw [hc] at hs
      exact absurd hs (by decide)

/-- C7: for every nonzero subnormal double `x` (exponent field 0, mantissa
nonzero, either sign), `logb(x)` is exactly `-1022.0`. -/
theorem logb_subnormal (x : Double) (h1 : x.expo = 0) (h2 : x.mant ≠ 0) :
    logb x = negD1022 ∧ negD1022.toRat = -1022 := by
  have hm := mag_eq_fields x
  have hmant := mant_lt x
  constructor
  · rw [logb_eq, if_neg (by omega), if_neg, if_pos h1]
    unfold Double.isFinite infMag
    rw [not_not]; omega
  · have hv : negD1022.toInt = (-1022 : Int) * 2 ^ 1074 := by decide!
    unfold Double.toRat
    rw [hv, Int.cast_mul, Int.cast_pow, Int.cast_ofNat, mul_div_assoc,
      div_self (by positivity), mul_one]
    norm_num

/-- C7, at the least positive subnormal `x = 2^-1074`. -/
theorem logb_subnormal_witness :
    logb (Double.ofBits 1) = negD1022 ∧ negD1022.toRat = -1022 :=
  logb_subnormal _ (by decide) (by decide)

/-- C8: for every `x` whose exponent field is all ones, `logb(x)` returns
`x*x`: `+∞` for `x = +∞` and for `x = -∞`, a NaN for a NaN. -/
theorem logb_nonfinite (x : Double) (h : x.expo = 2047) :
    logb x = fmul x x ∧ (x.isInf → logb x = posInf) ∧ (x.isNaN → (logb x).isNaN) ∧
    logb posInf = posInf ∧ logb negInf = posInf := by
  have hm := mag_eq_fields x
  have e : logb x = fmul x x := by
    rw [logb_eq, if_neg (by omega), if_pos]
    unfold Double.isFinite infMag; omega
  refine ⟨e, ?_, ?_, by decide!, by decide!⟩
  · intro hi
    rw [e]
    unfold fmul
    have h1 : ¬ x.isNaN := by
      unfold Double.isInf at hi; unfold Double.isNaN; omega
    have h3 : ¬ x.isZero := by
      unfold Double.isInf infMag at hi; unfold Double.isZero; omega
    rw [if_neg (by tauto), if_pos (Or.inl hi), if_neg (by tauto)]
    apply Double.ext
    rw [mkD_bits]
    have := sign_lt x
    have h4 : (x.sign + x.sign) % 2 = 0 := by omega
    rw [h4]; rfl
  · intro hn
    rw [e]
    unfold fmul
    rw [if_pos (Or.inl hn)]
    exact qNaN_isNaN

/-- C8, at `x = -∞`. -/
theorem logb_nonfinite_witness :
    logb negInf = fmul negInf negInf ∧ (negInf.isInf → logb negInf = posInf) ∧
    (negInf.isNaN → (logb negInf).isNaN) ∧
    logb posInf = posInf ∧ logb negInf = posInf :=
  logb_nonfinite negInf (by decide)

/-! ## Bounds on rounding -/

theorem expoShift_eq : ∀ (k f n : Nat), k ≤ f → 2 ^ (52 + k) ≤ n → n < 2 ^ (53 + k) →
    expoShift f n = k := by
  intro k
  induction k with
  | zero => intro f n _ _ h; exact expoShift_of_lt f h
  | succ k ih =>
    intro f n hf h1 h2
    obtain ⟨g, rfl⟩ : ∃ g, f = g + 1 := ⟨f - 1, by omega⟩
    have e1 : 2 ^ (52 + (k + 1)) = 2 * 2 ^ (52 + k) := by
      rw [← Nat.add_assoc, pow_succ]; ring
    have e2 : 2 ^ (53 + (k + 1)) = 2 * 2 ^ (53 + k) := by
      rw [← Nat.add_assoc, pow_succ]; ring
    have e3 : 2 ^ (52 + k) = 2 ^ 52 * 2 ^ k := pow_add 2 52 k
    have hk : 1 ≤ 2 ^ k := Nat.one_le_two_pow
    have hge : ¬ n < 2 ^ 53 := by
      rw [e1, e3] at h1
      have : 2 ^ 53 ≤ 2 * (2 ^ 52 * 2 ^ k) := by nlinarith
      omega
    simp only [expoShift, hge, if_false]
    rw [ih g (n / 2) (by omega) (by omega) (by omega)]

theorem expoShift_le : ∀ (j f n : Nat), n < 2 ^ (53 + j) → expoShift f n ≤ j := by
  intro j
  induction j with
  | zero => intro f n h; rw [expoShift_of_lt f h]
  | succ j ih =>
    intro f n h
    cases f with
    | zero => simp [expoShift]
    | succ g =>
      have e2 : 2 ^ (53 + (j + 1)) = 2 * 2 ^ (53 + j) := by
        rw [← Nat.add_assoc, pow_succ]; ring
      by_cases hlt : n < 2 ^ 53
      · simp only [expoShift, hlt, if_true]; omega
      · simp only [expoShift, hlt, if_false]
        have := ih g (n / 2) (by omega)
        omega

theorem expoShift_div_lt : ∀ (f n : Nat), n < 2 ^ (53 + f) →
    n / 2 ^ expoShift f n < 2 ^ 53 := by
  intro f
  induction f with
  | zero => intro n h; simpa [expoShift] using h
  | succ g ih =>
    intro n h
    have e2 : 2 ^ (53 + (g + 1)) = 2 * 2 ^ (53 + g) := by
      rw [← Nat.add_assoc, pow_succ]; ring
    by_cases hlt : n < 2 ^ 53
    · simp only [expoShift, hlt, if_true]; simpa using hlt
    · simp only [expoShift, hlt, if_false]
      have := ih (n / 2) (by omega)
      rw [pow_succ, Nat.mul_comm, ← Nat.div_div_eq_div_mul]
      exact this

theorem rne_le (a d : Nat) : rne a d ≤ a / d + 1 := by
  unfold rne
  split
  · omega
  · split
    · omega
    · omega

theorem le_rne (a d : Nat) : a / d ≤ rne a d := by
  unfold rne
  split
  · omega
  · split
    · omega
    · omega

theorem roundMag_le_inf (a b : Nat) : roundMag a b ≤ infMag := by
  unfold roundMag; exact min_le_right _ _

/-- A quotient below `2^1023` does not round to infinity. -/
theorem roundMag_lt_inf {a b : Nat} (h : a / b < 2 ^ 2097) : roundMag a b < infMag := by
  unfold roundMag
  have hk : expoShift 4096 (a / b) ≤ 2044 := expoShift_le 2044 _ _ (by simp only [Nat.reduceAdd]; exact h)
  have hq : a / b / 2 ^ expoShift 4096 (a / b) < 2 ^ 53 :=
    expoShift_div_lt _ _ (lt_of_lt_of_le h (two_pow_mono (by omega)))
  have hr := rne_le a (b * 2 ^ expoShift 4096 (a / b))
  rw [← Nat.div_div_eq_div_mul] at hr
  apply lt_of_le_of_lt (min_le_left _ _)
  generalize expoShift 4096 (a / b) = k at hk hq hr
  generalize rne a (b * 2 ^ k) = r at hr
  unfold infMag
  omega

/-- A nonzero magnitude does not round to zero. -/
theorem roundMag_pos {n : Nat} (h : 0 < n) : 0 < roundMag n 1 := by
  unfold roundMag
  simp only [Nat.div_one, one_mul]
  apply lt_min _ (by unfold infMag; norm_num)
  by_cases hlt : n < 2 ^ 53
  · rw [expoShift_of_lt _ hlt]
    have := le_rne n (2 ^ 0)
    simp only [pow_zero, Nat.div_one, zero_mul, zero_add] at this ⊢
    omega
  · have : expoShift 4096 n = expoShift 4095 (n / 2) + 1 := by
      rw [show (4096 : Nat) = 4095 + 1 from rfl, expoShift, if_neg hlt]
    rw [this]
    positivity

/-- A magnitude within less than half a unit in the last place of the
53-bit significand `c` at exponent `k` rounds to that significand. -/
theorem roundMag_near {c k n : Nat} (hc1 : 2 ^ 52 < c) (hc2 : c < 2 ^ 53) (hk1 : 1 ≤ k)
    (hk2 : k ≤ 2045) (h1 : c * 2 ^ k < n + 2 ^ (k - 1)) (h2 : n < c * 2 ^ k + 2 ^ (k - 1)) :
    roundMag n 1 = k * 2 ^ 52 + c := by
  obtain ⟨j, rfl⟩ : ∃ j, k = j + 1 := ⟨k - 1, by omega⟩
  simp only [Nat.add_sub_cancel] at h1 h2
  have eu : 2 ^ (j + 1) = 2 * 2 ^ j := two_pow_succ j
  have hj : 0 < 2 ^ j := by positivity
  have hshift : expoShift 4096 n = j + 1 := by
    apply expoShift_eq _ _ _ (by omega)
    · rw [pow_add]
      have : (2 ^ 52 + 1) * 2 ^ (j + 1) ≤ c * 2 ^ (j + 1) :=
        Nat.mul_le_mul_right _ (by omega)
      rw [eu] at this h1 ⊢
      nlinarith
    · rw [pow_add]
      have : (c + 1) * 2 ^ (j + 1) ≤ 2 ^ 53 * 2 ^ (j + 1) :=
        Nat.mul_le_mul_right _ (by omega)
      rw [eu] at this h2 ⊢
      nlinarith
  unfold roundMag
  simp only [Nat.div_one, one_mul, hshift]
  have hrne : rne n (2 ^ (j + 1)) = c := by
    unfold rne
    by_cases hge : c * 2 ^ (j + 1) ≤ n
    · obtain ⟨d, rfl⟩ := Nat.exists_eq_add_of_le hge
      have hd : d < 2 ^ j := by omega
      have hdu : d < 2 ^ (j + 1) := by omega
      have e1 : (c * 2 ^ (j + 1) + d) % 2 ^ (j + 1) = d := by
        rw [Nat.add_comm, Nat.add_mul_mod_self_right, Nat.mod_eq_of_lt hdu]
      have e2 : (c * 2 ^ (j + 1) + d) / 2 ^ (j + 1) = c := by
        rw [Nat.add_comm, Nat.add_mul_div_right _ _ (by positivity), Nat.div_eq_of_lt hdu]
        simp
      rw [e1, e2, if_pos (by omega)]
    · obtain ⟨d, hd⟩ : ∃ d, c * 2 ^ (j + 1) = n + d := ⟨c * 2 ^ (j + 1) - n, by omega⟩
      have hd1 : 0 < d := by omega
      have hd2 : d < 2 ^ j := by omega
      have hn : n = (c - 1) * 2 ^ (j + 1) + (2 ^ (j + 1) - d) := by
        have : c * 2 ^ (j + 1) = (c - 1) * 2 ^ (j + 1) + 2 ^ (j + 1) := by
          rw [Nat.sub_mul]; simp
          have : 2 ^ (j + 1) ≤ c * 2 ^ (j + 1) := Nat.le_mul_of_pos_left _ (by omega)
          omega
        omega
      have hru : 2 ^ (j + 1) - d < 2 ^ (j + 1) := by omega
      have e1 : n % 2 ^ (j + 1) = 2 ^ (j + 1) - d := by
        rw [hn, Nat.add_comm, Nat.add_mul_mod_self_right, Nat.mod_eq_of_lt hru]
      have e2 : n / 2 ^ (j + 1) = c - 1 := by
        rw [hn, Nat.add_comm, Nat.add_mul_div_right _ _ (by positivity),
          Nat.div_eq_of_lt hru]
        simp
      rw [e1, e2, if_neg (by omega), if_pos (by omega)]
      omega
  rw [hrne]
  apply min_eq_left
  unfold infMag
  omega

/-! ## When the arithmetic does not produce a NaN -/

theorem mkD_not_nan {s m : Nat} (h : m ≤ infMag) : ¬ (mkD s m).isNaN := by
  unfold Double.isNaN
  rw [mkD_mag_of_lt (lt_of_le_of_lt h infMag_lt)]
  omega

theorem fneg_isNaN (x : Double) : (fneg x).isNaN ↔ x.isNaN := by
  unfold Double.isNaN; rw [fneg_mag]

theorem fneg_isInf (x : Double) : (fneg x).isInf ↔ x.isInf := by
  unfold Double.isInf; rw [fneg_mag]

theorem fneg_isZero (x : Double) : (fneg x).isZero ↔ x.isZero := by
  unfold Double.isZero; rw [fneg_mag]

theorem fneg_mkD (s m : Nat) (h : m < 2 ^ 63) : fneg (mkD s m) = mkD (s + 1) m := by
  unfold fneg
  rw [mkD_sign, mkD_mag_of_lt h]
  exact mkD_congr (by omega)

theorem fmul_not_nan {a b : Double} (ha : ¬ a.isNaN) (hb : ¬ b.isNaN)
    (h1 : ¬ (a.isInf ∧ b.isZero)) (h2 : ¬ (a.isZero ∧ b.isInf)) : ¬ (fmul a b).isNaN := by
  unfold fmul
  rw [if_neg (by tauto)]
  by_cases hi : a.isInf ∨ b.isInf
  · rw [if_pos hi]
    have hz : ¬ (a.isZero ∨ b.isZero) := by
      rintro (hz | hz)
      · rcases hi with hi | hi
        · unfold Double.isInf at hi; unfold Double.isZero at hz
          rw [hz] at hi; exact absurd hi (by decide)
        · exact h2 ⟨hz, hi⟩
      · rcases hi with hi | hi
        · exact h1 ⟨hi, hz⟩
        · unfold Double.isInf at hi; unfold Double.isZero at hz
          rw [hz] at hi; exact absurd hi (by decide)
    rw [if_neg hz]
    exact mkD_not_nan (le_refl _)
  · rw [if_neg hi]
    exact mkD_not_nan (roundMag_le_inf _ _)

theorem fdiv_not_nan {a b : Double} (ha : ¬ a.isNaN) (hb : ¬ b.isNaN)
    (h1 : ¬ (a.isInf ∧ b.isInf)) (h2 : ¬ (a.isZero ∧ b.isZero)) : ¬ (fdiv a b).isNaN := by
  unfold fdiv
  rw [if_neg (by tauto)]
  by_cases hi : a.isInf
  · rw [if_pos hi, if_neg (by tauto)]
    exact mkD_not_nan (le_refl _)
  · rw [if_neg hi]
    by_cases hj : b.isInf
    · rw [if_pos hj]
      exact mkD_not_nan (by unfold infMag; norm_num)
    · rw [if_neg hj]
      by_cases hz : b.isZero
      · rw [if_pos hz, if_neg (by tauto)]
        exact mkD_not_nan (le_refl _)
      · rw [if_neg hz]
        exact mkD_not_nan (roundMag_le_inf _ _)

theorem fadd_not_nan {a b : Double} (ha : a.isFinite) (hb : ¬ b.isNaN) :
    ¬ (fadd a b).isNaN := by
  unfold fadd
  rw [if_neg (by simp [not_nan_of_finite ha, hb]), if_neg (not_inf_of_finite ha)]
  by_cases hj : b.isInf
  · rw [if_pos hj]; exact hb
  · rw [if_neg hj]
    split
    · exact mkD_not_nan (by unfold infMag; norm_num)
    · exact mkD_not_nan (roundMag_le_inf _ _)

theorem fsub_not_nan {a b : Double} (ha : a.isFinite) (hb : ¬ b.isNaN) :
    ¬ (fsub a b).isNaN := by
  unfold fsub
  exact fadd_not_nan ha (by rw [fneg_isNaN]; exact hb)

/-- Multiplication commutes with a sign flip of the left factor, unless the
product is a NaN. -/
theorem fmul_fneg_left {a b : Double} (h : ¬ (fmul a b).isNaN) :
    fmul (fneg a) b = fneg (fmul a b) := by
  unfold fmul at h ⊢
  simp only [fneg_isNaN, fneg_isInf, fneg_isZero, fneg_sign]
  by_cases h1 : a.isNaN ∨ b.isNaN
  · rw [if_pos h1] at h; exact absurd qNaN_isNaN h
  · simp only [if_neg h1] at h ⊢
    by_cases h2 : a.isInf ∨ b.isInf
    · simp only [if_pos h2] at h ⊢
      by_cases h3 : a.isZero ∨ b.isZero
      · rw [if_pos h3] at h; exact absurd qNaN_isNaN h
      · simp only [if_neg h3]
        rw [fneg_mkD _ _ infMag_lt]
        exact mkD_congr (by omega)
    · simp only [if_neg h2, fneg_mag]
      rw [fneg_mkD _ _ (lt_of_le_of_lt (roundMag_le_inf _ _) infMag_lt)]
      exact mkD_congr (by omega)

theorem fmul_isInf_right {a b : Double} (ha : ¬ a.isNaN) (hz : ¬ a.isZero) (hb : b.isInf) :
    (fmul a b).isInf := by
  have hbn : ¬ b.isNaN := by
    unfold Double.isInf at hb; unfold Double.isNaN; omega
  have hbz : ¬ b.isZero := by
    unfold Double.isInf at hb; unfold Double.isZero
    rw [hb]; decide
  unfold fmul
  rw [if_neg (by tauto), if_pos (Or.inr hb), if_neg (by tauto)]
  exact mkD_inf_isInf _

theorem fmul_isZero_right {a b : Double} (ha : a.isFinite) (hb : b.isZero) :
    (fmul a b).isZero := by
  have hb' : b.mag = 0 := hb
  have hbn : ¬ b.isNaN := by unfold Double.isNaN; rw [hb']; decide
  have hbi : ¬ b.isInf := by unfold Double.isInf; rw [hb']; decide
  unfold fmul
  rw [if_neg (by simp [not_nan_of_finite ha, hbn]),
    if_neg (by simp [not_inf_of_finite ha, hbi]), hb']
  have : natVal 0 = 0 := rfl
  rw [this, mul_zero, roundMag_zero]
  exact mkD_zero_isZero _

theorem isZero_not_isInf {a : Double} (h : a.isZero) : ¬ a.isInf := by
  unfold Double.isZero at h; unfold Double.isInf; rw [h]; decide

theorem isInf_not_isZero {a : Double} (h : a.isInf) : ¬ a.isZero :=
  fun hz => isZero_not_isInf hz h

/-- A product of finite doubles below `2^1023` is finite. -/
theorem fmul_finite {a b : Double} (ha : a.isFinite) (hb : b.isFinite)
    (h : natVal a.mag * natVal b.mag / 2 ^ 1074 < 2 ^ 2097) : (fmul a b).isFinite := by
  unfold fmul
  rw [if_neg (by simp [not_nan_of_finite ha, not_nan_of_finite hb]),
    if_neg (by simp [not_inf_of_finite ha, not_inf_of_finite hb])]
  have := roundMag_lt_inf h
  unfold Double.isFinite
  rw [mkD_mag_of_lt (lt_trans this infMag_lt)]
  exact this

theorem natVal_lt_pow {m e : Nat} (he : 1 ≤ e) (h : m < (e + 1) * 2 ^ 52) :
    natVal m < 2 ^ (52 + e) := by
  by_cases h2 : m < 2 ^ 53
  · rw [natVal_of_lt h2]
    exact lt_of_lt_of_le h2 (two_pow_mono (by omega))
  · rw [natVal_normal (by omega)]
    have hE : m / 2 ^ 52 ≤ e := by
      have := (Nat.div_lt_iff_lt_mul (by positivity : 0 < 2 ^ 52)).mpr h
      omega
    have hE1 : 1 ≤ m / 2 ^ 52 := by omega
    calc (2 ^ 52 + m % 2 ^ 52) * 2 ^ (m / 2 ^ 52 - 1)
        < 2 ^ 53 * 2 ^ (m / 2 ^ 52 - 1) :=
          Nat.mul_lt_mul_of_pos_right (by omega) (by positivity)
      _ ≤ 2 ^ 53 * 2 ^ (e - 1) := Nat.mul_le_mul_left _ (two_pow_mono (by omega))
      _ = 2 ^ (52 + e) := by
          rw [← pow_add]; congr 1; omega

/-! ## `__ieee754_sinh` and `__ieee754_cosh` -/

theorem hi_mask_fneg (x : Double) : HI (fneg x) &&& 0x7fffffff = HI x &&& 0x7fffffff := by
  rw [mask31, mask31, HI_fneg]

/-- The low word read through the pointer expression is the low word of `x`
on either byte order. -/
theorem lowWordRead_eq (bigEndian : Bool) (x : Double) : lowWordRead bigEndian x = LO x := by
  unfold lowWordRead wordAt
  cases bigEndian
  · have : LO one >>> 29 = 0 := by decide
    simp [this]
  · have : HI one >>> 29 = 1 := by decide
    simp [this]

theorem sint_neg_iff (x : Double) : sint (HI x) < 0 ↔ x.sign = 1 := by
  have := HI_lt x
  rw [sign_eq_HI]
  unfold sint
  split <;> omega

theorem natVal_shuge : natVal shuge.mag = 0x1c7b1f3cac7433 * 2 ^ 2041 := by decide!

/-- Adding a double below `2^-28` in magnitude to `shuge` gives `shuge`. -/
theorem fadd_shuge_tiny (x : Double) (h : x.mag < 0x3e30000000000000) :
    fadd shuge x = shuge := by
  have hx : x.isFinite := by unfold Double.isFinite infMag; omega
  have hX : natVal x.mag < 2 ^ (52 + 994) := natVal_lt_pow (by norm_num) (by omega)
  simp only [Nat.reduceAdd] at hX
  have hs : shuge.isFinite := by decide
  have hS : shuge.toInt = ((0x1c7b1f3cac7433 * 2 ^ 2041 : Nat) : Int) := by
    unfold Double.toInt
    rw [if_neg (show ¬ shuge.sign = 1 by decide)]
    exact congrArg Nat.cast natVal_shuge
  have hle : (2 : Nat) ^ 1046 ≤ 2 ^ 2040 := two_pow_mono (by omega)
  have e41 := two_pow_succ 2040
  simp only [Nat.reduceAdd] at e41
  generalize hA : (2 : Nat) ^ 2040 = A at hle e41
  generalize hB : (2 : Nat) ^ 1046 = B at hle hX
  have hApos : 0 < A := by rw [← hA]; positivity
  unfold fadd
  rw [if_neg (by simp [not_nan_of_finite hs, not_nan_of_finite hx]),
    if_neg (not_inf_of_finite hs), if_neg (not_inf_of_finite hx), hS, e41]
  have hv : ∃ n : Nat, ((0x1c7b1f3cac7433 * (2 * A) : Nat) : Int) + x.toInt = (n : Int) ∧
      0x1c7b1f3cac7433 * (2 * A) < n + A ∧ n < 0x1c7b1f3cac7433 * (2 * A) + A := by
    rcases toInt_of_sign x with ⟨_, t⟩ | ⟨_, t⟩
    · exact ⟨0x1c7b1f3cac7433 * (2 * A) + natVal x.mag, by rw [t]; push_cast; ring,
        by omega, by omega⟩
    · refine ⟨0x1c7b1f3cac7433 * (2 * A) - natVal x.mag, ?_, by omega, by omega⟩
      rw [t, Nat.cast_sub (by omega)]; ring
  obtain ⟨n, hn, h1, h2⟩ := hv
  rw [hn]
  have hn0 : ¬ ((n : Int) = 0) := by omega
  have hnn : ¬ ((n : Int) < 0) := by omega
  rw [if_neg hn0, if_neg hnn, Int.natAbs_ofNat]
  have hr : roundMag n 1 = 2041 * 2 ^ 52 + 0x1c7b1f3cac7433 := by
    apply roundMag_near (by norm_num) (by norm_num) (by norm_num) (by norm_num)
    · simp only [Nat.add_one_sub_one, Nat.reduceSub]
      rw [e41, hA]; exact h1
    · simp only [Nat.add_one_sub_one, Nat.reduceSub]
      rw [e41, hA]; exact h2
  rw [hr]
  decide

theorem fgt_shuge_one : fgt shuge one := by decide!

/-- The factor `h = ±0.5` of the sinh kernel, which carries the sign of `x`. -/
theorem sinh_h_fneg (x : Double) :
    (if sint (HI (fneg x)) < 0 then fneg half else half)
      = fneg (if sint (HI x) < 0 then fneg half else half) := by
  simp only [sint_neg_iff, fneg_sign]
  have := sign_lt x
  by_cases h : x.sign = 1
  · rw [if_pos h, if_neg (by omega), fneg_fneg]
  · rw [if_neg h, if_pos (by omega)]

theorem sinh_h_props (x : Double) :
    (if sint (HI x) < 0 then fneg half else half).isFinite ∧
    ¬ (if sint (HI x) < 0 then fneg half else half).isZero := by
  split
  · exact ⟨by decide, by decide⟩
  · exact ⟨by decide, by decide⟩

/-- Scaling by `h = ±0.5` commutes with the sign flip of `h`. -/
theorem fmul_h_fneg {h e : Double} (hf : h.isFinite) (hz : ¬ h.isZero) (he : ¬ e.isNaN) :
    fmul (fneg h) e = fneg (fmul h e) := by
  apply fmul_fneg_left
  apply fmul_not_nan (not_nan_of_finite hf) he
  · exact fun c => not_inf_of_finite hf c.1
  · exact fun c => hz c.1

theorem natVal_one : natVal one.mag = 2 ^ 1074 := by decide!

theorem natVal_two : natVal two.mag = 2 ^ 1075 := by decide!

theorem fadd_isZero {a b : Double} (ha : a.isFinite) (hb : b.isFinite)
    (h : (fadd a b).isZero) : a.toInt + b.toInt = 0 := by
  unfold fadd at h
  rw [if_neg (by simp [not_nan_of_finite ha, not_nan_of_finite hb]),
    if_neg (not_inf_of_finite ha), if_neg (not_inf_of_finite hb)] at h
  by_contra hne
  rw [if_neg hne] at h
  unfold Double.isZero at h
  rw [mkD_mag_of_lt (lt_of_le_of_lt (roundMag_le_inf _ _) infMag_lt)] at h
  have := roundMag_pos (n := (a.toInt + b.toInt).natAbs) (by omega)
  omega

/-- The quotient `t*t/(t+one)` of the sinh kernel is never `0/0`. -/
theorem sq_zero_succ_zero {t : Double} (ht : t.isFinite) :
    ¬ ((fmul t t).isZero ∧ (fadd t one).isZero) := by
  rintro ⟨hB, hy⟩
  have h0 := fadd_isZero ht (by decide) hy
  have h1 : natVal t.mag = natVal one.mag := by
    rw [← toInt_natAbs, ← toInt_natAbs]; omega
  unfold fmul at hB
  rw [if_neg (by simp [not_nan_of_finite ht]), if_neg (by simp [not_inf_of_finite ht]),
    h1] at hB
  have e : roundMag (natVal one.mag * natVal one.mag) (2 ^ 1074) = one.mag := by
    have h2 : natVal one.mag * natVal one.mag = natVal one.mag * 2 ^ 1074 := by
      rw [natVal_one]
    rw [h2, roundMag_mul_right _ (by positivity)]
    exact roundMag_natVal (by decide)
  rw [e] at hB
  unfold Double.isZero at hB
  rw [mkD_mag_of_lt (mag_lt one)] at hB
  exact absurd hB (by decide)

theorem div_pow_lt {a e f : Nat} (h : a < 2 ^ (1074 + e)) (hf : e ≤ f) :
    a / 2 ^ 1074 < 2 ^ f := by
  rw [Nat.div_lt_iff_lt_mul (by positivity)]
  calc a < 2 ^ (1074 + e) := h
    _ ≤ 2 ^ (f + 1074) := two_pow_mono (by omega)
    _ = 2 ^ f * 2 ^ 1074 := pow_add 2 f 1074

theorem fmul_half_fabs (x : Double) (hx : x.isFinite) :
    (fmul half (fabs x)).isFinite ∧ (fmul half (fabs x)).sign = 0 := by
  have hfa : (fabs x).isFinite := by unfold Double.isFinite; rw [fabs_mag]; exact hx
  have hh : half.isFinite := by decide
  constructor
  · apply fmul_finite hh hfa
    rw [fabs_mag, natVal_half]
    apply div_pow_lt (e := 2097) _ (le_refl _)
    have := natVal_lt hx
    calc 2 ^ 1073 * natVal x.mag < 2 ^ 1073 * 2 ^ 2098 :=
          Nat.mul_lt_mul_of_pos_left this (by positivity)
      _ = 2 ^ (1074 + 2097) := by simp only [← pow_add, Nat.reduceAdd]
  · unfold fmul
    rw [if_neg (by simp [not_nan_of_finite hh, not_nan_of_finite hfa]),
      if_neg (by simp [not_inf_of_finite hh, not_inf_of_finite hfa]), mkD_sign, fabs_sign]
    decide

/-- The expression `2.0*t - t*t/(t+one)` is not a NaN when `|t| ≤ 2`. -/
theorem sinh_small_not_nan {t : Double} (ht : t.mag ≤ two.mag) :
    ¬ (fsub (fmul two t) (fdiv (fmul t t) (fadd t one))).isNaN := by
  have htm : t.mag < (1024 + 1) * 2 ^ 52 := by
    have : two.mag = 0x4000000000000000 := by decide
    omega
  have hfin : t.isFinite := by unfold Double.isFinite infMag; omega
  have hT : natVal t.mag < 2 ^ (52 + 1024) := natVal_lt_pow (by norm_num) htm
  simp only [Nat.reduceAdd] at hT
  have hA : (fmul two t).isFinite := by
    apply fmul_finite (by decide) hfin
    rw [natVal_two]
    apply div_pow_lt (e := 1077) _ (by omega)
    calc 2 ^ 1075 * natVal t.mag < 2 ^ 1075 * 2 ^ 1076 :=
          Nat.mul_lt_mul_of_pos_left hT (by positivity)
      _ = 2 ^ (1074 + 1077) := by simp only [← pow_add, Nat.reduceAdd]
  have hB : (fmul t t).isFinite := by
    apply fmul_finite hfin hfin
    apply div_pow_lt (e := 1078) _ (by omega)
    calc natVal t.mag * natVal t.mag < 2 ^ 1076 * 2 ^ 1076 :=
          Nat.mul_lt_mul'' hT hT
      _ = 2 ^ (1074 + 1078) := by simp only [← pow_add, Nat.reduceAdd]
  have hy : ¬ (fadd t one).isNaN := fadd_not_nan hfin (by decide)
  apply fsub_not_nan hA
  apply fdiv_not_nan (not_nan_of_finite hB) hy
  · exact fun c => not_inf_of_finite hB c.1
  · exact sq_zero_succ_zero hfin

/-- The expression `t + t/(t+one)` is not a NaN when `t` is finite. -/
theorem sinh_mid_not_nan {t : Double} (hfin : t.isFinite) :
    ¬ (fadd t (fdiv t (fadd t one))).isNaN := by
  have hy : ¬ (fadd t one).isNaN := fadd_not_nan hfin (by decide)
  apply fadd_not_nan hfin
  apply fdiv_not_nan (not_nan_of_finite hfin) hy
  · exact fun c => not_inf_of_finite hfin c.1
  · rintro ⟨hz, hy0⟩
    have h0 := fadd_isZero hfin (by decide) hy0
    have h1 : t.toInt = 0 := by
      have := toInt_natAbs t
      have hz' : t.mag = 0 := hz
      rw [hz'] at this
      have h2 : natVal 0 = 0 := rfl
      omega
    have h3 : one.toInt ≠ 0 := by decide!
    omega

/-- C10: `__ieee754_cosh` is even: for every finite double `x`, `cosh(-x)` and
`cosh(x)` are the same bit pattern, whatever `expm1` and `exp` compute and on
either byte order. -/
theorem cosh_even (expm1 ieee754_exp : Double → Double) (bigEndian : Bool) (x : Double)
    (hx : x.isFinite) :
    ieee754_cosh expm1 ieee754_exp bigEndian (fneg x)
      = ieee754_cosh expm1 ieee754_exp bigEndian x := by
  have c0 : ¬ sint (HI x &&& 0x7fffffff) ≥ 0x7ff00000 := by
    rw [cond_notfinite]; exact not_not.mpr hx
  unfold ieee754_cosh
  simp only [hi_mask_fneg, fabs_fneg, lowWordRead_eq, LO_fneg, if_neg c0]

/-- C10, at `x = 1.0` with stand-ins for `expm1` and `exp`. -/
theorem cosh_even_witness :
    ieee754_cosh (fun d => d) (fun _ => one) false (fneg one)
      = ieee754_cosh (fun d => d) (fun _ => one) false one :=
  cosh_even _ _ _ one (by decide)

/-- C9: `__ieee754_sinh` is odd bit for bit: for every finite double `x`, the
pattern of `sinh(-x)` is the pattern of `sinh(x)` with the sign bit flipped,
on either byte order, for every `expm1` that is finite on `[0, 22)` and at
most 2 in magnitude on `[0, 1)` and every `exp` that is not a NaN on finite
non-negative arguments. -/
theorem sinh_odd (expm1 ieee754_exp : Double → Double) (bigEndian : Bool)
    (h1 : ∀ y : Double, y.sign = 0 → y.mag < 0x4036000000000000 → (expm1 y).isFinite)
    (h2 : ∀ y : Double, y.sign = 0 → y.mag < 0x3ff0000000000000 →
      (expm1 y).mag ≤ two.mag)
    (h3 : ∀ y : Double, y.sign = 0 → y.isFinite → ¬ (ieee754_exp y).isNaN)
    (x : Double) (hx : x.isFinite) :
    ieee754_sinh expm1 ieee754_exp bigEndian (fneg x)
      = fneg (ieee754_sinh expm1 ieee754_exp bigEndian x) := by
  have c0 : ¬ sint (HI x &&& 0x7fffffff) ≥ 0x7ff00000 := by
    rw [cond_notfinite]; exact not_not.mpr hx
  have m1 : sint (HI x &&& 0x7fffffff) < 0x40360000 ↔ x.mag < 0x4036000000000000 :=
    cond_hi_lt x 0x40360000
  have m2 : sint (HI x &&& 0x7fffffff) < 0x3e300000 ↔ x.mag < 0x3e30000000000000 :=
    cond_hi_lt x 0x3e300000
  have m3 : sint (HI x &&& 0x7fffffff) < 0x3ff00000 ↔ x.mag < 0x3ff0000000000000 :=
    cond_hi_lt x 0x3ff00000
  have hfa : (fabs x).isFinite := by unfold Double.isFinite; rw [fabs_mag]; exact hx
  obtain ⟨hhf, hhz⟩ := sinh_h_props x
  unfold ieee754_sinh
  simp only [hi_mask_fneg, fabs_fneg, lowWordRead_eq, LO_fneg, if_neg c0, sinh_h_fneg,
    m1, m2, m3]
  generalize (if sint (HI x) < 0 then fneg half else half) = h at hhf hhz ⊢
  by_cases c1 : x.mag < 0x4036000000000000
  · simp only [if_pos c1]
    by_cases c2 : x.mag < 0x3e30000000000000
    · have e1 := fadd_shuge_tiny x c2
      have e2 := fadd_shuge_tiny (fneg x) (by rw [fneg_mag]; exact c2)
      simp only [c2, e1, e2, fgt_shuge_one, and_self, if_true]
    · simp only [c2, false_and, if_false]
      by_cases c3 : x.mag < 0x3ff0000000000000
      · simp only [if_pos c3]
        exact fmul_h_fneg hhf hhz
          (sinh_small_not_nan (h2 _ (fabs_sign x) (by rw [fabs_mag]; exact c3)))
      · simp only [if_neg c3]
        exact fmul_h_fneg hhf hhz
          (sinh_mid_not_nan (h1 _ (fabs_sign x) (by rw [fabs_mag]; exact c1)))
  · simp only [if_neg c1]
    by_cases c4 : sint (HI x &&& 0x7fffffff) < 0x40862E42
    · simp only [if_pos c4]
      exact fmul_h_fneg hhf hhz (h3 _ (fabs_sign x) hfa)
    · simp only [if_neg c4]
      by_cases c5 : sint (HI x &&& 0x7fffffff) < 0x408633CE ∨
          (sint (HI x &&& 0x7fffffff) = 0x408633ce ∧ LO x ≤ 0x8fb9f87d)
      · simp only [if_pos c5]
        obtain ⟨hwf, hws⟩ := fmul_half_fabs x hx
        have hw := h3 _ hws hwf
        generalize ieee754_exp (fmul half (fabs x)) = w at hw ⊢
        rw [fmul_h_fneg hhf hhz hw]
        apply fmul_fneg_left
        apply fmul_not_nan
          (fmul_not_nan (not_nan_of_finite hhf) hw (fun c => not_inf_of_finite hhf c.1)
            (fun c => hhz c.1)) hw
        · exact fun c => isZero_not_isInf (fmul_isZero_right hhf c.2) c.1
        · exact fun c => isInf_not_isZero
            (fmul_isInf_right (not_nan_of_finite hhf) hhz c.2) c.1
      · simp only [if_neg c5]
        apply fmul_fneg_left
        apply fmul_not_nan (not_nan_of_finite hx) (by decide)
        · exact fun c => not_inf_of_finite hx c.1
        · exact fun c => absurd c.2 (by decide)

/-- C9, at `x = 1.0` with stand-ins for `expm1` and `exp` that meet the
hypotheses. -/
theorem sinh_odd_witness :
    ieee754_sinh (fun d => d) (fun _ => one) false (fneg one)
      = fneg (ieee754_sinh (fun d => d) (fun _ => one) false one) :=
  sinh_odd (fun d => d) (fun _ => one) false
    (fun y _ h => by
      show y.mag < infMag
      unfold infMag; omega)
    (fun y _ h => by
      show y.mag ≤ two.mag
      have : two.mag = 0x4000000000000000 := by decide
      omega)
    (fun _ _ _ => by
      show ¬ one.isNaN
      decide) one (by decide)

/-! ## The identity and overflow regions of `__ieee754_sinh` and `__ieee754_cosh` -/

theorem natVal_ge_pow {m e : Nat} (h : (e + 1) * 2 ^ 52 ≤ m) : 2 ^ (52 + e) ≤ natVal m := by
  have h52 : 2 ^ 52 ≤ m := le_trans (Nat.le_mul_of_pos_left _ (by omega)) h
  rw [natVal_normal h52]
  have hE : e + 1 ≤ m / 2 ^ 52 := (Nat.le_div_iff_mul_le (by positivity)).mpr h
  calc 2 ^ (52 + e) = 2 ^ 52 * 2 ^ e := pow_add 2 52 e
    _ ≤ (2 ^ 52 + m % 2 ^ 52) * 2 ^ (m / 2 ^ 52 - 1) :=
        Nat.mul_le_mul (by omega) (two_pow_mono (by omega))

/-- The magnitude grows with the magnitude pattern. -/
theorem natVal_mono {m n : Nat} (h : m ≤ n) : natVal m ≤ natVal n := by
  by_cases hn : n < 2 ^ 53
  · rw [natVal_of_lt hn, natVal_of_lt (by omega)]; exact h
  · rw [natVal_normal (m := n) (by omega)]
    have hEn : 2 ≤ n / 2 ^ 52 := by omega
    by_cases hm : m < 2 ^ 53
    · rw [natVal_of_lt hm]
      calc m ≤ 2 ^ 52 * 2 ^ 1 := by omega
        _ ≤ (2 ^ 52 + n % 2 ^ 52) * 2 ^ (n / 2 ^ 52 - 1) :=
            Nat.mul_le_mul (by omega) (two_pow_mono (by omega))
    · rw [natVal_normal (m := m) (by omega)]
      have hE : m / 2 ^ 52 ≤ n / 2 ^ 52 := Nat.div_le_div_right h
      rcases Nat.lt_or_ge (m / 2 ^ 52) (n / 2 ^ 52) with hlt | hge
      · calc (2 ^ 52 + m % 2 ^ 52) * 2 ^ (m / 2 ^ 52 - 1)
            ≤ 2 ^ 53 * 2 ^ (m / 2 ^ 52 - 1) := Nat.mul_le_mul_right _ (by omega)
          _ = 2 ^ 52 * 2 ^ (m / 2 ^ 52 - 1 + 1) := by rw [pow_succ]; ring
          _ ≤ (2 ^ 52 + n % 2 ^ 52) * 2 ^ (n / 2 ^ 52 - 1) :=
              Nat.mul_le_mul (by omega) (two_pow_mono (by omega))
      · have hEq : m / 2 ^ 52 = n / 2 ^ 52 := by omega
        rw [hEq]
        exact Nat.mul_le_mul_right _ (by omega)

theorem expoShift_ge : ∀ (j f q : Nat), j ≤ f → 2 ^ (52 + j) ≤ q → j ≤ expoShift f q := by
  intro j
  induction j with
  | zero => intro f q _ _; exact Nat.zero_le _
  | succ j ih =>
    intro f q hf hq
    obtain ⟨g, rfl⟩ : ∃ g, f = g + 1 := ⟨f - 1, by omega⟩
    have e1 : 2 ^ (52 + (j + 1)) = 2 * 2 ^ (52 + j) := by
      rw [← Nat.add_assoc, pow_succ]; ring
    have e3 : 2 ^ (52 + j) = 2 ^ 52 * 2 ^ j := pow_add 2 52 j
    have hk : 1 ≤ 2 ^ j := Nat.one_le_two_pow
    have hge : ¬ q < 2 ^ 53 := by
      rw [e1, e3] at hq
      have : 2 ^ 53 ≤ 2 * (2 ^ 52 * 2 ^ j) := by nlinarith
      omega
    simp only [expoShift, hge, if_false]
    have := ih g (q / 2) (by omega) (by omega)
    omega

/-- A quotient of `2^1024` or more rounds to the infinity. -/
theorem roundMag_overflow {a b : Nat} (hb : 0 < b) (h : 2 ^ 2098 * b ≤ a) :
    roundMag a b = infMag := by
  have hq : 2 ^ 2098 ≤ a / b := (Nat.le_div_iff_mul_le hb).mpr h
  have hk : 2046 ≤ expoShift 4096 (a / b) :=
    expoShift_ge 2046 4096 _ (by omega) (by simp only [Nat.reduceAdd]; exact hq)
  unfold roundMag
  apply min_eq_right
  have hr := le_rne a (b * 2 ^ expoShift 4096 (a / b))
  rw [← Nat.div_div_eq_div_mul] at hr
  generalize expoShift 4096 (a / b) = k at hk hr
  generalize rne a (b * 2 ^ k) = r at hr
  rcases Nat.lt_or_ge 2046 k with hgt | hle
  · calc infMag = 2047 * 2 ^ 52 := by unfold infMag; norm_num
      _ ≤ k * 2 ^ 52 := Nat.mul_le_mul_right _ hgt
      _ ≤ k * 2 ^ 52 + r := Nat.le_add_right _ _
  · have hk' : k = 2046 := by omega
    subst hk'
    have h52 : 2 ^ 52 ≤ a / b / 2 ^ 2046 := by
      rw [Nat.le_div_iff_mul_le (by positivity)]
      calc 2 ^ 52 * 2 ^ 2046 = 2 ^ 2098 := by simp only [← pow_add, Nat.reduceAdd]
        _ ≤ a / b := hq
    unfold infMag
    omega

theorem cast_two_pow (n : Nat) : ((2 ^ n : Nat) : ℚ) = 2 ^ n := by
  rw [Nat.cast_pow, Nat.cast_ofNat]

theorem cast_mul_two_pow (a n : Nat) : ((a * 2 ^ n : Nat) : ℚ) = (a : ℚ) * 2 ^ n := by
  rw [Nat.cast_mul, cast_two_pow]

theorem tiny_of_abs_lt {x : Double} (h : |x.toRat| < 1 / 2 ^ 28) :
    x.mag < 0x3e30000000000000 := by
  by_contra hc
  have h1 : (994 + 1) * 2 ^ 52 ≤ x.mag := by omega
  have h2 := natVal_ge_pow h1
  simp only [Nat.reduceAdd] at h2
  have h3 : 2 ^ 1074 ≤ natVal x.mag * 2 ^ 28 := by
    calc 2 ^ 1074 = 2 ^ 1046 * 2 ^ 28 := by simp only [← pow_add, Nat.reduceAdd]
      _ ≤ natVal x.mag * 2 ^ 28 := Nat.mul_le_mul_right _ h2
  have h4 : ((2 ^ 1074 : Nat) : ℚ) ≤ ((natVal x.mag * 2 ^ 28 : Nat) : ℚ) := Nat.cast_le.mpr h3
  rw [cast_two_pow, cast_mul_two_pow] at h4
  rw [toRat_abs, div_lt_div_iff₀ (by positivity) (by positivity), one_mul] at h
  exact absurd h (not_lt.mpr h4)

/-- C11: for every double `x` with `|x| < 2^-28`, the zeros included,
`__ieee754_sinh(x)` returns `x` itself, bit for bit, whatever `expm1` and
`exp` compute; in particular `sinh(0.0) = 0.0`. -/
theorem sinh_tiny (expm1 ieee754_exp : Double → Double) (bigEndian : Bool) (x : Double)
    (h : |x.toRat| < 1 / 2 ^ 28) :
    ieee754_sinh expm1 ieee754_exp bigEndian x = x ∧
    ieee754_sinh expm1 ieee754_exp bigEndian zero = zero ∧
    ieee754_sinh expm1 ieee754_exp bigEndian negZero = negZero := by
  have key : ∀ y : Double, y.mag < 0x3e30000000000000 →
      ieee754_sinh expm1 ieee754_exp bigEndian y = y := by
    intro y hy
    have hfin : y.isFinite := by unfold Double.isFinite infMag; omega
    have c0 : ¬ sint (HI y &&& 0x7fffffff) ≥ 0x7ff00000 := by
      rw [cond_notfinite]; exact not_not.mpr hfin
    have m1 : sint (HI y &&& 0x7fffffff) < 0x40360000 :=
      (cond_hi_lt y 0x40360000).mpr (by omega)
    have m2 : sint (HI y &&& 0x7fffffff) < 0x3e300000 :=
      (cond_hi_lt y 0x3e300000).mpr (by omega)
    unfold ieee754_sinh
    simp only [if_neg c0, if_pos m1, m2, fadd_shuge_tiny y hy, fgt_shuge_one, and_self,
      if_true]
  exact ⟨key x (tiny_of_abs_lt h), key zero (by decide), key negZero (by decide)⟩

/-- C11, at `x = -2^-29`. -/
theorem sinh_tiny_witness :
    ieee754_sinh (fun d => d) (fun d => d) false (Double.ofBits 0xbe20000000000000)
      = Double.ofBits 0xbe20000000000000 ∧
    ieee754_sinh (fun d => d) (fun d => d) false zero = zero ∧
    ieee754_sinh (fun d => d) (fun d => d) false negZero = negZero :=
  sinh_tiny _ _ _ _ (by
    rw [toRat_abs]
    have e : natVal (Double.ofBits 0xbe20000000000000).mag = 2 ^ 1045 := by decide!
    rw [e, div_lt_div_iff₀ (by positivity) (by positivity), one_mul, cast_two_pow,
      ← pow_add]
    exact pow_lt_pow_right₀ (by norm_num) (by norm_num))

theorem natVal_threshold :
    natVal 0x408633ce8fb9f87d * 100 < 71048 * 2 ^ 1074 := by decide!

theorem big_of_abs_gt {x : Double} (h : 71048 / 100 < |x.toRat|) :
    0x408633ce8fb9f87d < x.mag := by
  by_contra hc
  have h1 : natVal x.mag ≤ natVal 0x408633ce8fb9f87d := natVal_mono (by omega)
  have h2 : natVal x.mag * 100 < 71048 * 2 ^ 1074 :=
    lt_of_le_of_lt (Nat.mul_le_mul_right _ h1) natVal_threshold
  have h3 : ((natVal x.mag * 100 : Nat) : ℚ) < ((71048 * 2 ^ 1074 : Nat) : ℚ) :=
    Nat.cast_lt.mpr h2
  rw [cast_mul_two_pow, Nat.cast_mul, Nat.cast_ofNat, Nat.cast_ofNat] at h3
  rw [toRat_abs, div_lt_div_iff₀ (by positivity) (by positivity)] at h
  exact absurd h (not_lt.mpr h3.le)

/-- Above the overflow threshold (high word `0x408633ce`, low word
`0x8fb9f87d`) none of the guards of the two kernels holds. -/
theorem overflow_guards {x : Double} (hx : x.isFinite) (h : 0x408633ce8fb9f87d < x.mag) :
    ¬ sint (HI x &&& 0x7fffffff) ≥ 0x7ff00000 ∧
    ¬ sint (HI x &&& 0x7fffffff) < 0x3fd62e43 ∧
    ¬ sint (HI x &&& 0x7fffffff) < 0x40360000 ∧
    ¬ sint (HI x &&& 0x7fffffff) < 0x40862E42 ∧
    ¬ (sint (HI x &&& 0x7fffffff) < 0x408633CE ∨
      (sint (HI x &&& 0x7fffffff) = 0x408633ce ∧ LO x ≤ 0x8fb9f87d)) := by
  have hw := mag_eq_words x
  have hl := LO_lt x
  refine ⟨?_, ?_, ?_, ?_, ?_⟩
  · rw [cond_notfinite]; exact not_not.mpr hx
  · rw [sint_mask]; omega
  · rw [sint_mask]; omega
  · rw [sint_mask]; omega
  · rw [sint_mask]; omega

theorem fmul_huge_huge : fmul huge huge = posInf := by decide!

/-- Beyond the overflow threshold `x*shuge` is the infinity with the sign of `x`. -/
theorem fmul_shuge_overflow {x : Double} (hx : x.isFinite)
    (h : 0x408633ce8fb9f87d < x.mag) : fmul x shuge = mkD x.sign infMag := by
  have hs : shuge.isFinite := by decide
  have h1 : (1031 + 1) * 2 ^ 52 ≤ x.mag := by omega
  have h2 := natVal_ge_pow h1
  simp only [Nat.reduceAdd] at h2
  have h3 : 2 ^ 2093 ≤ natVal shuge.mag := by
    rw [natVal_shuge]
    calc 2 ^ 2093 = 2 ^ 52 * 2 ^ 2041 := by simp only [← pow_add, Nat.reduceAdd]
      _ ≤ 0x1c7b1f3cac7433 * 2 ^ 2041 := Nat.mul_le_mul_right _ (by norm_num)
  unfold fmul
  rw [if_neg (by simp [not_nan_of_finite hx, not_nan_of_finite hs]),
    if_neg (by simp [not_inf_of_finite hx, not_inf_of_finite hs]),
    roundMag_overflow (by positivity)]
  · exact mkD_congr (by
      have : shuge.sign = 0 := by decide
      rw [this]; rfl)
  · calc 2 ^ 2098 * 2 ^ 1074 ≤ 2 ^ 1083 * 2 ^ 2093 := by
          simp only [← pow_add, Nat.reduceAdd]
          exact two_pow_mono (by omega)
      _ ≤ natVal x.mag * natVal shuge.mag := Nat.mul_le_mul h2 h3

theorem toRat_pos_sign {x : Double} (h : 0 < x.toRat) : x.sign = 0 := by
  rcases toInt_of_sign x with ⟨s, _⟩ | ⟨_, t⟩
  · exact s
  · exfalso
    unfold Double.toRat at h
    rw [t] at h
    have h1 : (0 : ℚ) ≤ (natVal x.mag : ℚ) := Nat.cast_nonneg _
    have h2 : (0 : ℚ) < 2 ^ 1074 := by positivity
    have h3 : ((-(natVal x.mag : Int) : Int) : ℚ) / 2 ^ 1074 ≤ 0 := by
      apply div_nonpos_of_nonpos_of_nonneg _ h2.le
      rw [Int.cast_neg, Int.cast_natCast]
      linarith
    linarith

theorem toRat_neg_sign {x : Double} (h : x.toRat < 0) : x.sign = 1 := by
  rcases toInt_of_sign x with ⟨_, t⟩ | ⟨s, _⟩
  · exfalso
    unfold Double.toRat at h
    rw [t] at h
    have h1 : (0 : ℚ) ≤ (natVal x.mag : ℚ) := Nat.cast_nonneg _
    have h2 : (0 : ℚ) < 2 ^ 1074 := by positivity
    have h3 : (0 : ℚ) ≤ ((natVal x.mag : Int) : ℚ) / 2 ^ 1074 := by
      apply div_nonneg _ h2.le
      rw [Int.cast_natCast]
      exact h1
    linarith
  · exact s

/-- C12: for every finite `x` with `|x| > 710.48`, `__ieee754_cosh(x)` is
`+∞`; for every finite `x > 710.48`, `__ieee754_sinh(x)` is `+∞`, and for
every finite `x < -710.48` it is `-∞`; the double at the overflow threshold
(high word `0x408633CE`, low word `0x8fb9f87d`) is below 710.48. -/
theorem sinh_cosh_overflow (expm1 ieee754_exp : Double → Double) (bigEndian : Bool)
    (x : Double) (hx : x.isFinite) :
    (71048 / 100 < |x.toRat| → ieee754_cosh expm1 ieee754_exp bigEndian x = posInf) ∧
    (71048 / 100 < x.toRat → ieee754_sinh expm1 ieee754_exp bigEndian x = posInf) ∧
    (x.toRat < -(71048 / 100) → ieee754_sinh expm1 ieee754_exp bigEndian x = negInf) ∧
    |(Double.ofBits 0x408633ce8fb9f87d).toRat| < 71048 / 100 := by
  have hs : ∀ y : Double, y.isFinite → 0x408633ce8fb9f87d < y.mag →
      ieee754_sinh expm1 ieee754_exp bigEndian y = mkD y.sign infMag := by
    intro y hy h
    obtain ⟨g0, _, g2, g3, g4⟩ := overflow_guards hy h
    unfold ieee754_sinh
    simp only [if_neg g0, if_neg g2, if_neg g3, lowWordRead_eq, if_neg g4]
    exact fmul_shuge_overflow hy h
  refine ⟨?_, ?_, ?_, ?_⟩
  · intro h
    obtain ⟨g0, g1, g2, g3, g4⟩ := overflow_guards hx (big_of_abs_gt h)
    unfold ieee754_cosh
    simp only [if_neg g0, if_neg g1, if_neg g2, if_neg g3, lowWordRead_eq, if_neg g4]
    exact fmul_huge_huge
  · intro h
    have hpos : 0 < x.toRat := lt_trans (by norm_num) h
    have habs : 71048 / 100 < |x.toRat| := by rw [abs_of_pos hpos]; exact h
    rw [hs x hx (big_of_abs_gt habs), toRat_pos_sign hpos]
    rfl
  · intro h
    have hneg : x.toRat < 0 := lt_trans h (by norm_num)
    have habs : 71048 / 100 < |x.toRat| := by rw [abs_of_neg hneg]; linarith
    rw [hs x hx (big_of_abs_gt habs), toRat_neg_sign hneg]
    rfl
  · rw [toRat_abs, div_lt_div_iff₀ (by positivity) (by norm_num)]
    have h3 : ((natVal 0x408633ce8fb9f87d * 100 : Nat) : ℚ) < ((71048 * 2 ^ 1074 : Nat) : ℚ) :=
      Nat.cast_lt.mpr natVal_threshold
    rw [cast_mul_two_pow, Nat.cast_mul, Nat.cast_ofNat, Nat.cast_ofNat] at h3
    have e : (Double.ofBits 0x408633ce8fb9f87d).mag = 0x408633ce8fb9f87d := by decide
    rw [e]
    exact h3

/-- C12, at `x = -1000.0`. -/
theorem sinh_cosh_overflow_witness :
    (71048 / 100 < |(Double.ofBits 0xc08f400000000000).toRat| →
      ieee754_cosh (fun d => d) (fun d => d) false (Double.ofBits 0xc08f400000000000)
        = posInf) ∧
    (71048 / 100 < (Double.ofBits 0xc08f400000000000).toRat →
      ieee754_sinh (fun d => d) (fun d => d) false (Double.ofBits 0xc08f400000000000)
        = posInf) ∧
    ((Double.ofBits 0xc08f400000000000).toRat < -(71048 / 100) →
      ieee754_sinh (fun d => d) (fun d => d) false (Double.ofBits 0xc08f400000000000)
        = negInf) ∧
    |(Double.ofBits 0x408633ce8fb9f87d).toRat| < 71048 / 100 :=
  sinh_cosh_overflow _ _ _ _ (by decide)

/-- C13: `__ieee754_cosh(0.0)` and `__ieee754_cosh(-0.0)` are both `1.0`,
given `expm1(0.0) = 0.0`. -/
theorem cosh_zero (expm1 ieee754_exp : Double → Double) (bigEndian : Bool)
    (h : expm1 zero = zero) :
    ieee754_cosh expm1 ieee754_exp bigEndian zero = one ∧
    ieee754_cosh expm1 ieee754_exp bigEndian negZero = one := by
  have key : ∀ y : Double, y.mag = 0 →
      ieee754_cosh expm1 ieee754_exp bigEndian y = one := by
    intro y hy
    have hfin : y.isFinite := by unfold Double.isFinite infMag; omega
    have c0 : ¬ sint (HI y &&& 0x7fffffff) ≥ 0x7ff00000 := by
      rw [cond_notfinite]; exact not_not.mpr hfin
    have m1 : sint (HI y &&& 0x7fffffff) < 0x3fd62e43 :=
      (cond_hi_lt y 0x3fd62e43).mpr (by omega)
    have m2 : sint (HI y &&& 0x7fffffff) < 0x3c800000 :=
      (cond_hi_lt y 0x3c800000).mpr (by omega)
    have hf : fabs y = zero := by unfold fabs; rw [hy]; decide
    unfold ieee754_cosh
    simp only [if_neg c0, if_pos m1, if_pos m2, hf, h]
    decide!
  exact ⟨key zero (by decide), key negZero (by decide)⟩

/-- C13, with the identity standing in for `expm1`. -/
theorem cosh_zero_witness :
    ieee754_cosh (fun d => d) (fun d => d) false zero = one ∧
    ieee754_cosh (fun d => d) (fun d => d) false negZero = one :=
  cosh_zero _ _ _ rfl

/-! ## `__ieee754_scalb` -/

theorem toInt_d65000 : d65000.toInt = 65000 * 2 ^ 1074 := by decide!

theorem toInt_zero : zero.toInt = 0 := by decide

theorem two_pow_1074_pos : (0 : Int) < 2 ^ 1074 := by positivity

/-- A double has the integer value `n` exactly when its value in units of
`2^-1074` is `n * 2^1074`. -/
theorem toRat_eq_int_iff (d : Double) (n : Int) :
    d.toRat = (n : ℚ) ↔ d.toInt = n * 2 ^ 1074 := by
  unfold Double.toRat
  rw [div_eq_iff (by positivity)]
  constructor
  · intro h
    have h' : (d.toInt : ℚ) = ((n * 2 ^ 1074 : Int) : ℚ) := by
      rw [h, Int.cast_mul, Int.cast_pow, Int.cast_ofNat]
    exact Int.cast_injective h'
  · intro h
    rw [h, Int.cast_mul, Int.cast_pow, Int.cast_ofNat]

theorem natAbs_mul_two_pow (n : Int) (k : Nat) : (n * 2 ^ k).natAbs = n.natAbs * 2 ^ k := by
  rw [Int.natAbs_mul, Int.natAbs_pow]
  rfl

theorem natVal_of_toInt {d : Double} {n : Int} (h : d.toInt = n * 2 ^ 1074) :
    natVal d.mag = n.natAbs * 2 ^ 1074 := by
  rw [← toInt_natAbs, h]
  exact natAbs_mul_two_pow n 1074

/-- On a finite double whose value is a whole number `rint` is the identity. -/
theorem rint_of_dvd {fn : Double} (hfn : fn.isFinite) (h : 2 ^ 1074 ∣ natVal fn.mag) :
    rint fn = fn := by
  obtain ⟨c, hc⟩ := h
  unfold rint
  rw [if_pos hfn]
  have e1 : rne (natVal fn.mag) (2 ^ 1074) = c := by
    rw [hc, Nat.mul_comm]; exact rne_exact c (by positivity)
  rw [e1, Nat.mul_comm c, ← hc, roundMag_natVal (le_of_lt hfn)]
  exact mkD_self fn

theorem dvd_of_expo_ge {m : Nat} (h : 1075 * 2 ^ 52 ≤ m) : 2 ^ 1074 ∣ natVal m := by
  rw [natVal_normal (by omega)]
  have hE : 1075 ≤ m / 2 ^ 52 := (Nat.le_div_iff_mul_le (by positivity)).mpr h
  obtain ⟨j, hj⟩ : ∃ j, m / 2 ^ 52 - 1 = 1074 + j := ⟨m / 2 ^ 52 - 1075, by omega⟩
  rw [hj, pow_add]
  exact Dvd.dvd.mul_left (dvd_mul_right _ _) _

/-- On a finite double `rint(fn) == fn` holds exactly when the value of `fn`
is a whole number. -/
theorem rint_feq_iff {fn : Double} (hfn : fn.isFinite) :
    feq (rint fn) fn ↔ 2 ^ 1074 ∣ natVal fn.mag := by
  constructor
  · intro h
    by_contra hnd
    have hm : fn.mag < (1074 + 1) * 2 ^ 52 := by
      by_contra hc
      exact hnd (dvd_of_expo_ge (by omega))
    have hN := natVal_lt_pow (by norm_num) hm
    simp only [Nat.reduceAdd] at hN
    have hq : natVal fn.mag / 2 ^ 1074 < 2 ^ 52 := by
      rw [Nat.div_lt_iff_lt_mul (by positivity)]
      calc natVal fn.mag < 2 ^ 1126 := hN
        _ = 2 ^ 52 * 2 ^ 1074 := by simp only [← pow_add, Nat.reduceAdd]
    have hr := rne_le (natVal fn.mag) (2 ^ 1074)
    have hrep : Rep (rne (natVal fn.mag) (2 ^ 1074) * 2 ^ 1074) := by
      refine ⟨_, 1074, by omega, rfl, ?_⟩
      calc rne (natVal fn.mag) (2 ^ 1074) * 2 ^ 1074 < 2 ^ 53 * 2 ^ 1074 :=
            Nat.mul_lt_mul_of_pos_right (by omega) (by positivity)
        _ = 2 ^ 1127 := by simp only [← pow_add, Nat.reduceAdd]
        _ ≤ 2 ^ 2098 := two_pow_mono (by omega)
    obtain ⟨hf, hv⟩ := roundMag_rep hrep
    have e := h.2.2
    have e' : natVal (rint fn).mag = natVal fn.mag := by
      rw [← toInt_natAbs, ← toInt_natAbs, e]
    unfold rint at e'
    rw [if_pos hfn, mkD_mag_of_lt (lt_trans hf infMag_lt), hv] at e'
    exact hnd (Dvd.intro_left _ e')
  · intro h
    rw [rint_of_dvd hfn h]
    exact ⟨not_nan_of_finite hfn, not_nan_of_finite hfn, rfl⟩

theorem d2i_of_toInt {d : Double} {n : Int} (h : d.toInt = n * 2 ^ 1074) : d2i d = n := by
  unfold d2i
  rw [h]
  exact Int.mul_tdiv_cancel n (ne_of_gt two_pow_1074_pos)

/-- With a non-NaN `x` and a finite `fn` whose value is the whole number `n`,
`|n| ≤ 65000`, the kernel reaches its last branch and returns `scalbn(x,n)`. -/
theorem scalb_of_int {x fn : Double} {n : Int} (hx : ¬ x.isNaN) (hfn : fn.isFinite)
    (hn : fn.toInt = n * 2 ^ 1074) (h1 : -65000 ≤ n) (h2 : n ≤ 65000) :
    ieee754_scalb x fn = scalbn x n := by
  have hK := two_pow_1074_pos
  have hdvd : 2 ^ 1074 ∣ natVal fn.mag := Dvd.intro_left _ (natVal_of_toInt hn).symm
  have g1 : ¬ (isnan x ∨ isnan fn) := by
    unfold isnan; simp [hx, not_nan_of_finite hfn]
  have g2 : ¬ ¬ finite fn := not_not.mpr hfn
  have g3 : ¬ fne (rint fn) fn := not_not.mpr ((rint_feq_iff hfn).mpr hdvd)
  have g4 : ¬ fgt fn d65000 := by
    unfold fgt flt
    rw [toInt_d65000, hn]
    intro h
    have := h.2.2
    nlinarith
  have g5 : ¬ fgt (fneg fn) d65000 := by
    unfold fgt flt
    rw [toInt_d65000, toInt_fneg, hn]
    intro h
    have := h.2.2
    nlinarith
  unfold ieee754_scalb
  rw [if_neg g1, if_neg g2, if_neg g3, if_neg g4, if_neg g5, d2i_of_toInt hn]

/-- With a non-NaN `x` and a finite `fn` whose value is a whole number above
65000 or below -65000 the scale is clamped. -/
theorem scalb_of_big {x fn : Double} {n : Int} (hx : ¬ x.isNaN) (hfn : fn.isFinite)
    (hn : fn.toInt = n * 2 ^ 1074) :
    (65000 < n → ieee754_scalb x fn = scalbn x 65000) ∧
    (n < -65000 → ieee754_scalb x fn = scalbn x (-65000)) := by
  have hK := two_pow_1074_pos
  have hdvd : 2 ^ 1074 ∣ natVal fn.mag := Dvd.intro_left _ (natVal_of_toInt hn).symm
  have g1 : ¬ (isnan x ∨ isnan fn) := by
    unfold isnan; simp [hx, not_nan_of_finite hfn]
  have g2 : ¬ ¬ finite fn := not_not.mpr hfn
  have g3 : ¬ fne (rint fn) fn := not_not.mpr ((rint_feq_iff hfn).mpr hdvd)
  have hd : ¬ d65000.isNaN := by decide
  constructor
  · intro h
    have g4 : fgt fn d65000 := by
      unfold fgt flt
      rw [toInt_d65000, hn]
      exact ⟨hd, not_nan_of_finite hfn, by nlinarith⟩
    unfold ieee754_scalb
    rw [if_neg g1, if_neg g2, if_neg g3, if_pos g4]
  · intro h
    have g4 : ¬ fgt fn d65000 := by
      unfold fgt flt
      rw [toInt_d65000, hn]
      intro h
      have := h.2.2
      nlinarith
    have g5 : fgt (fneg fn) d65000 := by
      unfold fgt flt
      rw [toInt_d65000, toInt_fneg, hn]
      exact ⟨hd, by rw [fneg_isNaN]; exact not_nan_of_finite hfn, by nlinarith⟩
    unfold ieee754_scalb
    rw [if_neg g1, if_neg g2, if_neg g3, if_neg g4, if_pos g5]

theorem scalbn_zero {x : Double} (hx : x.isFinite) : scalbn x 0 = x := by
  unfold scalbn
  rw [if_neg (not_nan_of_finite hx), if_neg (not_inf_of_finite hx), if_pos (le_refl 0)]
  simp only [Int.toNat_zero, pow_zero, mul_one]
  rw [roundMag_natVal (le_of_lt hx)]
  exact mkD_self x

theorem natVal_fields {E M : Nat} (hE : 1 ≤ E) (hM : M < 2 ^ 52) :
    natVal (E * 2 ^ 52 + M) = (2 ^ 52 + M) * 2 ^ (E - 1) := by
  rw [natVal_normal (by nlinarith)]
  have e1 : (E * 2 ^ 52 + M) % 2 ^ 52 = M := by omega
  have e2 : (E * 2 ^ 52 + M) / 2 ^ 52 = E := by omega
  rw [e1, e2]

theorem mkD_fields {s E M : Nat} (hs : s < 2) (hE : E < 2 ^ 11) (hM : M < 2 ^ 52) :
    (mkD s (E * 2 ^ 52 + M)).sign = s ∧ (mkD s (E * 2 ^ 52 + M)).expo = E ∧
    (mkD s (E * 2 ^ 52 + M)).mant = M := by
  unfold Double.sign Double.expo Double.mant
  rw [mkD_bits]
  refine ⟨by omega, by omega, by omega⟩

theorem finite_of_expo {x : Double} (h : x.expo ≤ 2046) : x.isFinite := by
  have := mag_eq_fields x
  have := mant_lt x
  unfold Double.isFinite infMag
  omega

/-- On a normal double whose scaled value is normal too, `scalbn` adds `n` to
the exponent field and keeps sign and mantissa. -/
theorem scalbn_normal (x : Double) (n : Int) (h1 : 1 ≤ x.expo) (h2 : x.expo ≤ 2046)
    (h3 : 1 ≤ (x.expo : Int) + n) (h4 : (x.expo : Int) + n ≤ 2046) :
    scalbn x n = mkD x.sign (((x.expo : Int) + n).toNat * 2 ^ 52 + x.mant) := by
  have hfin := finite_of_expo h2
  have hM := mant_lt x
  have hX : natVal x.mag = (2 ^ 52 + x.mant) * 2 ^ (x.expo - 1) := by
    rw [mag_eq_fields]; exact natVal_fields h1 hM
  unfold scalbn
  rw [if_neg (not_nan_of_finite hfin), if_neg (not_inf_of_finite hfin)]
  by_cases hn : 0 ≤ n
  · obtain ⟨j, rfl⟩ := Int.eq_ofNat_of_zero_le hn
    rw [if_pos hn]
    have e1 : ((x.expo : Int) + (j : Int)).toNat = x.expo + j := by omega
    have e2 : (j : Int).toNat = j := by omega
    rw [e1, e2, hX]
    have e3 : (2 ^ 52 + x.mant) * 2 ^ (x.expo - 1) * 2 ^ j
        = natVal ((x.expo + j) * 2 ^ 52 + x.mant) := by
      rw [natVal_fields (by omega) hM, mul_assoc, ← pow_add]
      congr 2; omega
    rw [e3, roundMag_natVal (by unfold infMag; omega)]
  · obtain ⟨j, hj⟩ : ∃ j : Nat, n = -(j : Int) := ⟨(-n).toNat, by omega⟩
    subst hj
    rw [if_neg hn]
    have e1 : ((x.expo : Int) + -(j : Int)).toNat = x.expo - j := by omega
    have e2 : (-(-(j : Int))).toNat = j := by omega
    rw [e1, e2, hX]
    have e3 : (2 ^ 52 + x.mant) * 2 ^ (x.expo - 1)
        = natVal ((x.expo - j) * 2 ^ 52 + x.mant) * 2 ^ j := by
      rw [natVal_fields (by omega) hM, mul_assoc, ← pow_add]
      congr 2; omega
    rw [e3, roundMag_mul_right _ (by positivity), roundMag_natVal (by unfold infMag; omega)]

theorem fsub_self_isZero {fn : Double} (hfn : fn.isFinite) : (fsub fn fn).isZero := by
  unfold fsub fadd
  rw [if_neg (by simp [not_nan_of_finite hfn, fneg_isNaN]),
    if_neg (not_inf_of_finite hfn),
    if_neg (by rw [fneg_isInf]; exact not_inf_of_finite hfn),
    if_pos (by rw [toInt_fneg]; omega)]
  exact mkD_zero_isZero _

/-- C14: for every finite double `x`, `__ieee754_scalb(x, 0.0)` is `x`, and so
is `__ieee754_scalb(x, -0.0)`; the primitive satisfies `scalbn(x, 0) = x`. -/
theorem scalb_zero (x : Double) (hx : x.isFinite) :
    ieee754_scalb x zero = x ∧ ieee754_scalb x negZero = x ∧ scalbn x 0 = x := by
  have hn := not_nan_of_finite hx
  refine ⟨?_, ?_, scalbn_zero hx⟩
  · have e : zero.toInt = 0 * 2 ^ 1074 := by rw [zero_mul]; decide
    rw [scalb_of_int hn (by decide) e (by norm_num) (by norm_num)]
    exact scalbn_zero hx
  · have e : negZero.toInt = 0 * 2 ^ 1074 := by rw [zero_mul]; decide
    rw [scalb_of_int hn (by decide) e (by norm_num) (by norm_num)]
    exact scalbn_zero hx

/-- C14, at `x = -3.75`. -/
theorem scalb_zero_witness :
    ieee754_scalb (Double.ofBits 0xc00e000000000000) zero
      = Double.ofBits 0xc00e000000000000 ∧
    ieee754_scalb (Double.ofBits 0xc00e000000000000) negZero
      = Double.ofBits 0xc00e000000000000 ∧
    scalbn (Double.ofBits 0xc00e000000000000) 0 = Double.ofBits 0xc00e000000000000 :=
  scalb_zero _ (by decide)

/-- C15: for every normal double `x` and every whole number `n` such that
`x * 2^n` is normal too (exponent field of `x` plus `n` between 1 and 2046),
`__ieee754_scalb(x, n)` is `x` with `n` added to its exponent field, and
`__ieee754_scalb(__ieee754_scalb(x, n), -n)` is `x`. -/
theorem scalb_roundtrip (x : Double) (n : Int) (h1 : 1 ≤ x.expo) (h2 : x.expo ≤ 2046)
    (h3 : 1 ≤ (x.expo : Int) + n) (h4 : (x.expo : Int) + n ≤ 2046) :
    ieee754_scalb (ieee754_scalb x (i2d n)) (fneg (i2d n)) = x ∧
    ieee754_scalb (ieee754_scalb x (i2d n)) (i2d (-n)) = x ∧
    (ieee754_scalb x (i2d n)).sign = x.sign ∧
    ((ieee754_scalb x (i2d n)).expo : Int) = x.expo + n ∧
    (ieee754_scalb x (i2d n)).mant = x.mant := by
  have hfin := finite_of_expo h2
  have hM := mant_lt x
  have hs := sign_lt x
  have hex := i2d_exact n (by omega)
  have hex' := i2d_exact (-n) (by omega)
  have ey : ieee754_scalb x (i2d n)
      = mkD x.sign (((x.expo : Int) + n).toNat * 2 ^ 52 + x.mant) := by
    rw [scalb_of_int (not_nan_of_finite hfin) hex.1 hex.2.1 (by omega) (by omega)]
    exact scalbn_normal x n h1 h2 h3 h4
  obtain ⟨f1, f2, f3⟩ := mkD_fields (s := x.sign) (E := ((x.expo : Int) + n).toNat)
    (M := x.mant) hs (by omega) hM
  rw [← ey] at f1 f2 f3
  have hyfin : (ieee754_scalb x (i2d n)).isFinite := finite_of_expo (by omega)
  have back : scalbn (ieee754_scalb x (i2d n)) (-n) = x := by
    rw [scalbn_normal _ (-n) (by omega) (by omega) (by omega) (by omega), f1, f2, f3]
    have e : ((((x.expo : Int) + n).toNat : Int) + -n).toNat = x.expo := by omega
    rw [e, ← mag_eq_fields]
    exact mkD_self x
  refine ⟨?_, ?_, f1, by omega, f3⟩
  · rw [scalb_of_int (n := -n) (not_nan_of_finite hyfin) (fneg_finite hex.1)
      (by rw [toInt_fneg, hex.2.1]; ring) (by omega) (by omega)]
    exact back
  · rw [scalb_of_int (n := -n) (not_nan_of_finite hyfin) hex'.1 hex'.2.1 (by omega)
      (by omega)]
    exact back

/-- C15, at `x = 1.5` and `n = -7`. -/
theorem scalb_roundtrip_witness :
    ieee754_scalb (ieee754_scalb (Double.ofBits 0x3ff8000000000000) (i2d (-7)))
      (fneg (i2d (-7))) = Double.ofBits 0x3ff8000000000000 ∧
    ieee754_scalb (ieee754_scalb (Double.ofBits 0x3ff8000000000000) (i2d (-7)))
      (i2d (-(-7))) = Double.ofBits 0x3ff8000000000000 ∧
    (ieee754_scalb (Double.ofBits 0x3ff8000000000000) (i2d (-7))).sign
      = (Double.ofBits 0x3ff8000000000000).sign ∧
    ((ieee754_scalb (Double.ofBits 0x3ff8000000000000) (i2d (-7))).expo : Int)
      = (Double.ofBits 0x3ff8000000000000).expo + (-7) ∧
    (ieee754_scalb (Double.ofBits 0x3ff8000000000000) (i2d (-7))).mant
      = (Double.ofBits 0x3ff8000000000000).mant :=
  scalb_roundtrip _ (-7) (by decide) (by decide) (by decide) (by decide)

theorem int_of_dvd {d : Double} (h : 2 ^ 1074 ∣ natVal d.mag) :
    ∃ n : Int, d.toInt = n * 2 ^ 1074 := by
  obtain ⟨c, hc⟩ := h
  rcases toInt_of_sign d with ⟨_, t⟩ | ⟨_, t⟩
  · refine ⟨c, ?_⟩
    rw [t, hc, Nat.cast_mul, Nat.cast_pow, Nat.cast_ofNat]; ring
  · refine ⟨-c, ?_⟩
    rw [t, hc, Nat.cast_mul, Nat.cast_pow, Nat.cast_ofNat]; ring

theorem dvd_of_int {d : Double} {n : Int} (h : d.toInt = n * 2 ^ 1074) :
    2 ^ 1074 ∣ natVal d.mag :=
  Dvd.intro_left _ (natVal_of_toInt h).symm

/-- C16: for every non-NaN `x` and every finite `fn` whose value is a whole
number `n`, `__ieee754_scalb(x, fn)` is `scalbn(x, 65000)` when `n > 65000`
and `scalbn(x, -65000)` when `n < -65000`; and whenever the three guards
before the last branch fail, `fn` is a whole number `n` with `|n| ≤ 65000`,
the conversion `(int)fn` gives `n`, and the result is `scalbn(x, n)`. -/
theorem scalb_clamp (x fn : Double) (hx : ¬ x.isNaN) (hfn : fn.isFinite) :
    (∀ n : Int, fn.toRat = (n : ℚ) → 65000 < n →
      ieee754_scalb x fn = scalbn x 65000) ∧
    (∀ n : Int, fn.toRat = (n : ℚ) → n < -65000 →
      ieee754_scalb x fn = scalbn x (-65000)) ∧
    (¬ fne (rint fn) fn → ¬ fgt fn d65000 → ¬ fgt (fneg fn) d65000 →
      ∃ n : Int, fn.toRat = (n : ℚ) ∧ -65000 ≤ n ∧ n ≤ 65000 ∧ d2i fn = n ∧
        ieee754_scalb x fn = scalbn x n) := by
  have hK := two_pow_1074_pos
  have hd : ¬ d65000.isNaN := by decide
  refine ⟨?_, ?_, ?_⟩
  · intro n hn h
    exact (scalb_of_big hx hfn ((toRat_eq_int_iff fn n).mp hn)).1 h
  · intro n hn h
    exact (scalb_of_big hx hfn ((toRat_eq_int_iff fn n).mp hn)).2 h
  · intro g3 g4 g5
    obtain ⟨n, hn⟩ := int_of_dvd ((rint_feq_iff hfn).mp (not_not.mp g3))
    have b1 : n ≤ 65000 := by
      by_contra hc
      apply g4
      unfold fgt flt
      rw [toInt_d65000, hn]
      exact ⟨hd, not_nan_of_finite hfn, by nlinarith⟩
    have b2 : -65000 ≤ n := by
      by_contra hc
      apply g5
      unfold fgt flt
      rw [toInt_d65000, toInt_fneg, hn]
      exact ⟨hd, by rw [fneg_isNaN]; exact not_nan_of_finite hfn, by nlinarith⟩
    exact ⟨n, (toRat_eq_int_iff fn n).mpr hn, b2, b1, d2i_of_toInt hn,
      scalb_of_int hx hfn hn b2 b1⟩

/-- C16, at `x = 1.0` and `fn = 1.0e10`. -/
theorem scalb_clamp_witness :
    (∀ n : Int, (Double.ofBits 0x4202a05f20000000).toRat = (n : ℚ) → 65000 < n →
      ieee754_scalb one (Double.ofBits 0x4202a05f20000000) = scalbn one 65000) ∧
    (∀ n : Int, (Double.ofBits 0x4202a05f20000000).toRat = (n : ℚ) → n < -65000 →
      ieee754_scalb one (Double.ofBits 0x4202a05f20000000) = scalbn one (-65000)) ∧
    (¬ fne (rint (Double.ofBits 0x4202a05f20000000)) (Double.ofBits 0x4202a05f20000000) →
      ¬ fgt (Double.ofBits 0x4202a05f20000000) d65000 →
      ¬ fgt (fneg (Double.ofBits 0x4202a05f20000000)) d65000 →
      ∃ n : Int, (Double.ofBits 0x4202a05f20000000).toRat = (n : ℚ) ∧ -65000 ≤ n ∧
        n ≤ 65000 ∧ d2i (Double.ofBits 0x4202a05f20000000) = n ∧
        ieee754_scalb one (Double.ofBits 0x4202a05f20000000) = scalbn one n) :=
  scalb_clamp one _ (by decide) (by decide)

/-- C17: for every non-NaN `x` and every finite `fn` whose value is not a
whole number, `rint(fn) != fn` holds and `__ieee754_scalb(x, fn)` returns
`(fn-fn)/(fn-fn)`, a NaN, whatever `x` is. -/
theorem scalb_nonintegral (x fn : Double) (hx : ¬ x.isNaN) (hfn : fn.isFinite)
    (hni : ∀ n : Int, fn.toRat ≠ (n : ℚ)) :
    fne (rint fn) fn ∧
    ieee754_scalb x fn = fdiv (fsub fn fn) (fsub fn fn) ∧
    (ieee754_scalb x fn).isNaN := by
  have g3 : fne (rint fn) fn := by
    intro h
    obtain ⟨n, hn⟩ := int_of_dvd ((rint_feq_iff hfn).mp h)
    exact hni n ((toRat_eq_int_iff fn n).mpr hn)
  have g1 : ¬ (isnan x ∨ isnan fn) := by
    unfold isnan; simp [hx, not_nan_of_finite hfn]
  have g2 : ¬ ¬ finite fn := not_not.mpr hfn
  have e : ieee754_scalb x fn = fdiv (fsub fn fn) (fsub fn fn) := by
    unfold ieee754_scalb
    rw [if_neg g1, if_neg g2, if_pos g3]
  refine ⟨g3, e, ?_⟩
  rw [e, fdiv_self_nan _ (Or.inr (Or.inr (fsub_self_isZero hfn)))]
  exact qNaN_isNaN

/-- C17, at `x = 1.0` and `fn = 0.5`. -/
theorem scalb_nonintegral_witness :
    fne (rint half) half ∧
    ieee754_scalb one half = fdiv (fsub half half) (fsub half half) ∧
    (ieee754_scalb one half).isNaN :=
  scalb_nonintegral one half (by decide) (by decide) (by
    intro n h
    have h1 := (toRat_eq_int_iff half n).mp h
    have h2 := dvd_of_int h1
    rw [natVal_half] at h2
    have h3 : 2 ^ 1074 ≤ 2 ^ 1073 := Nat.le_of_dvd (by positivity) h2
    have e0 := two_pow_succ 1073
    simp only [Nat.reduceAdd] at e0
    have h4 : 0 < 2 ^ 1073 := by positivity
    omega)

/-- C18, as stated, fails: with `x = 0.0` and `fn = +∞` the kernel returns
`x*fn`, which is a NaN, neither an infinity nor a zero. -/
theorem scalb_inf_counterexample :
    ¬ zero.isNaN ∧ posInf.isInf ∧
    ieee754_scalb zero posInf = fmul zero posInf ∧
    (ieee754_scalb zero posInf).isNaN ∧
    ¬ (ieee754_scalb zero posInf).isInf ∧ ¬ (ieee754_scalb zero posInf).isZero := by
  decide!

/-- C18, amended: for every non-NaN `x` and infinite `fn`,
`__ieee754_scalb(x, fn)` returns `x*fn` when `fn = +∞` and `x/(-fn)` when
`fn = -∞`; this is the infinity with the sign of `x` when `fn = +∞` and `x`
is not a zero, the zero with the sign of `x` when `fn = -∞` and `x` is
finite, and a NaN in the two remaining cases (`x = ±0` with `fn = +∞`,
`x = ±∞` with `fn = -∞`). -/
theorem scalb_inf (x fn : Double) (hx : ¬ x.isNaN) (hfn : fn.isInf) :
    (fn.sign = 0 →
      ieee754_scalb x fn = fmul x fn ∧
      (¬ x.isZero → ieee754_scalb x fn = mkD x.sign infMag) ∧
      (x.isZero → (ieee754_scalb x fn).isNaN)) ∧
    (fn.sign = 1 →
      ieee754_scalb x fn = fdiv x (fneg fn) ∧
      (x.isFinite → ieee754_scalb x fn = mkD x.sign 0) ∧
      (x.isInf → (ieee754_scalb x fn).isNaN)) := by
  have hfm : fn.mag = infMag := hfn
  have hfnan : ¬ fn.isNaN := by unfold Double.isNaN; rw [hfm]; exact lt_irrefl _
  have hfz : ¬ fn.isZero := isInf_not_isZero hfn
  have g1 : ¬ (isnan x ∨ isnan fn) := by
    unfold isnan; simp [hx, hfnan]
  have g2 : ¬ finite fn := by
    unfold finite Double.isFinite; rw [hfm]; exact lt_irrefl _
  have hz : ¬ zero.isNaN := by decide
  have hpos : (0 : Int) < natVal infMag := by
    have := natVal_pos (m := infMag) (by unfold infMag; norm_num)
    exact_mod_cast this
  constructor
  · intro hs
    have g3 : fgt fn zero := by
      unfold fgt flt
      refine ⟨hz, hfnan, ?_⟩
      rw [toInt_zero]
      unfold Double.toInt
      rw [hs, if_neg (by norm_num), hfm]
      exact hpos
    have e : ieee754_scalb x fn = fmul x fn := by
      unfold ieee754_scalb
      rw [if_neg g1, if_pos g2, if_pos g3]
    refine ⟨e, ?_, ?_⟩
    · intro hxz
      rw [e]
      unfold fmul
      rw [if_neg (fun h => h.elim hx hfnan), if_pos (Or.inr hfn),
        if_neg (fun h => h.elim hxz hfz)]
      exact mkD_congr (by omega)
    · intro hxz
      rw [e]
      unfold fmul
      rw [if_neg (fun h => h.elim hx hfnan), if_pos (Or.inr hfn), if_pos (Or.inl hxz)]
      exact qNaN_isNaN
  · intro hs
    have g3 : ¬ fgt fn zero := by
      unfold fgt flt
      rw [toInt_zero]
      unfold Double.toInt
      rw [hs, if_pos rfl, hfm]
      intro h
      have := h.2.2
      omega
    have e : ieee754_scalb x fn = fdiv x (fneg fn) := by
      unfold ieee754_scalb
      rw [if_neg g1, if_pos g2, if_neg g3]
    have hni : (fneg fn).isInf := (fneg_isInf fn).mpr hfn
    have hnn : ¬ (fneg fn).isNaN := by rw [fneg_isNaN]; exact hfnan
    refine ⟨e, ?_, ?_⟩
    · intro hxf
      rw [e]
      unfold fdiv
      rw [if_neg (fun h => h.elim hx hnn), if_neg (not_inf_of_finite hxf), if_pos hni]
      exact mkD_congr (by rw [fneg_sign]; omega)
    · intro hxi
      rw [e]
      unfold fdiv
      rw [if_neg (fun h => h.elim hx hnn), if_pos hxi, if_pos hni]
      exact qNaN_isNaN

/-- C18 amended, at `x = -2.0` and `fn = -∞`. -/
theorem scalb_inf_witness :
    (negInf.sign = 0 →
      ieee754_scalb (fneg two) negInf = fmul (fneg two) negInf ∧
      (¬ (fneg two).isZero → ieee754_scalb (fneg two) negInf = mkD (fneg two).sign infMag) ∧
      ((fneg two).isZero → (ieee754_scalb (fneg two) negInf).isNaN)) ∧
    (negInf.sign = 1 →
      ieee754_scalb (fneg two) negInf = fdiv (fneg two) (fneg negInf) ∧
      ((fneg two).isFinite → ieee754_scalb (fneg two) negInf = mkD (fneg two).sign 0) ∧
      ((fneg two).isInf → (ieee754_scalb (fneg two) negInf).isNaN)) :=
  scalb_inf (fneg two) negInf (by decide) (by decide)

/-! ## The wrappers -/

theorem toRat_lt_iff (a b : Double) : a.toRat < b.toRat ↔ a.toInt < b.toInt := by
  unfold Double.toRat
  rw [div_lt_div_iff_of_pos_right (by positivity), Int.cast_lt]

theorem toRat_le_iff (a b : Double) : a.toRat ≤ b.toRat ↔ a.toInt ≤ b.toInt := by
  unfold Double.toRat
  rw [div_le_div_iff_of_pos_right (by positivity), Int.cast_le]

theorem toRat_zero : zero.toRat = 0 := by
  unfold Double.toRat
  rw [toInt_zero, Int.cast_zero, zero_div]

theorem toInt_one : one.toInt = 1 * 2 ^ 1074 := by decide!

theorem toRat_one : one.toRat = 1 := by
  have h := (toRat_eq_int_iff one 1).mpr toInt_one
  rw [h, Int.cast_one]

theorem toRat_fabs (x : Double) : (fabs x).toRat = |x.toRat| := by
  rw [toRat_abs]
  unfold Double.toRat Double.toInt
  rw [fabs_sign, fabs_mag, if_neg (by norm_num), Int.cast_natCast]

theorem fabs_isNaN (x : Double) : (fabs x).isNaN ↔ x.isNaN := by
  unfold Double.isNaN; rw [fabs_mag]

theorem fgt_iff {a b : Double} (ha : ¬ a.isNaN) (hb : ¬ b.isNaN) :
    fgt a b ↔ b.toRat < a.toRat := by
  rw [toRat_lt_iff]
  unfold fgt flt
  simp [ha, hb]

theorem fge_iff {a b : Double} (ha : ¬ a.isNaN) (hb : ¬ b.isNaN) :
    fge a b ↔ b.toRat ≤ a.toRat := by
  rw [toRat_le_iff]
  unfold fge fle
  simp [ha, hb]

theorem flt_iff {a b : Double} (ha : ¬ a.isNaN) (hb : ¬ b.isNaN) :
    flt a b ↔ a.toRat < b.toRat := by
  rw [toRat_lt_iff]
  unfold flt
  simp [ha, hb]

theorem feq_iff {a b : Double} (ha : ¬ a.isNaN) (hb : ¬ b.isNaN) :
    feq a b ↔ a.toRat = b.toRat := by
  unfold feq
  constructor
  · intro h
    unfold Double.toRat
    rw [h.2.2]
  · intro h
    refine ⟨ha, hb, ?_⟩
    have h1 := (toRat_le_iff a b).mp (le_of_eq h)
    have h2 := (toRat_le_iff b a).mp (le_of_eq h.symm)
    omega

/-- C19: in strict IEEE mode (the `_IEEE_LIBM` build, or `_LIB_VERSION` equal
to `_IEEE_`) each of the wrappers `asin`, `atanh`, `log`, `sqrt` and
`remainder` returns exactly the result of its kernel for every input and does
not call `__kernel_standard`; `jfdlibm.h` selects the `_IEEE_LIBM` build. -/
theorem wrappers_strict (ieeeLibm : Bool) (libVersion : LibVersion)
    (h : ieeeLibm = true ∨ libVersion = LibVersion.ieee)
    (ieee754_asin ieee754_atanh ieee754_log ieee754_sqrt : Double → Double)
    (x y : Double) :
    asin ieeeLibm libVersion ieee754_asin x = Outcome.value (ieee754_asin x) ∧
    atanh ieeeLibm libVersion ieee754_atanh x = Outcome.value (ieee754_atanh x) ∧
    log ieeeLibm libVersion ieee754_log x = Outcome.value (ieee754_log x) ∧
    sqrt ieeeLibm libVersion ieee754_sqrt x = Outcome.value (ieee754_sqrt x) ∧
    remainder ieeeLibm libVersion x y = Outcome.value (ieee754_remainder x y) ∧
    IEEE_LIBM = true := by
  unfold asin atanh log sqrt remainder
  rcases h with h | h
  · simp only [h, if_true]
    exact ⟨trivial, trivial, trivial, trivial, trivial, rfl⟩
  · cases ieeeLibm
    · simp only [h, true_or, if_true]
      simp
      rfl
    · simp
      rfl

/-- C19, in the build that `jfdlibm.h` selects, at `x = 2.0`, `y = 0.0`. -/
theorem wrappers_strict_witness :
    asin IEEE_LIBM LibVersion.posix (fun d => d) two = Outcome.value two ∧
    atanh IEEE_LIBM LibVersion.posix (fun d => d) two = Outcome.value two ∧
    log IEEE_LIBM LibVersion.posix (fun d => d) two = Outcome.value two ∧
    sqrt IEEE_LIBM LibVersion.posix (fun d => d) two = Outcome.value two ∧
    remainder IEEE_LIBM LibVersion.posix two zero
      = Outcome.value (ieee754_remainder two zero) ∧
    IEEE_LIBM = true :=
  wrappers_strict IEEE_LIBM LibVersion.posix (Or.inl rfl) (fun d => d) (fun d => d)
    (fun d => d) (fun d => d) two zero

/-- C20: in legacy mode (a build without `_IEEE_LIBM`, `_LIB_VERSION` not
`_IEEE_`), for inputs none of which is a NaN, a wrapper hands over to
`__kernel_standard` exactly when the input violates the domain of the
function: `|x| > 1` for `asin`, `|x| ≥ 1` for `atanh`, `x ≤ 0` for `log`,
`x < 0` for `sqrt` (so `sqrt(-0.0)` is no violation), `p = 0` for
`remainder`; otherwise it returns the kernel result. -/
theorem wrappers_legacy (libVersion : LibVersion) (hlv : libVersion ≠ LibVersion.ieee)
    (ieee754_asin ieee754_atanh ieee754_log ieee754_sqrt : Double → Double)
    (x p : Double) (hx : ¬ x.isNaN) (hp : ¬ p.isNaN) :
    ((∃ c, asin false libVersion ieee754_asin x = Outcome.standard x x c)
      ↔ 1 < |x.toRat|) ∧
    (¬ 1 < |x.toRat| →
      asin false libVersion ieee754_asin x = Outcome.value (ieee754_asin x)) ∧
    ((∃ c, atanh false libVersion ieee754_atanh x = Outcome.standard x x c)
      ↔ 1 ≤ |x.toRat|) ∧
    (¬ 1 ≤ |x.toRat| →
      atanh false libVersion ieee754_atanh x = Outcome.value (ieee754_atanh x)) ∧
    ((∃ c, log false libVersion ieee754_log x = Outcome.standard x x c)
      ↔ x.toRat ≤ 0) ∧
    (¬ x.toRat ≤ 0 →
      log false libVersion ieee754_log x = Outcome.value (ieee754_log x)) ∧
    ((∃ c, sqrt false libVersion ieee754_sqrt x = Outcome.standard x x c)
      ↔ x.toRat < 0) ∧
    (¬ x.toRat < 0 →
      sqrt false libVersion ieee754_sqrt x = Outcome.value (ieee754_sqrt x)) ∧
    sqrt false libVersion ieee754_sqrt negZero = Outcome.value (ieee754_sqrt negZero) ∧
    ((∃ c, remainder false libVersion x p = Outcome.standard x p c)
      ↔ p.toRat = 0) ∧
    (¬ p.toRat = 0 →
      remainder false libVersion x p = Outcome.value (ieee754_remainder x p)) := by
  have h1 : ¬ one.isNaN := by decide
  have h0 : ¬ zero.isNaN := by decide
  have hfa : ¬ (fabs x).isNaN := by rw [fabs_isNaN]; exact hx
  have c1 : fgt (fabs x) one ↔ 1 < |x.toRat| := by
    rw [fgt_iff hfa h1, toRat_one, toRat_fabs]
  have c2 : fge (fabs x) one ↔ 1 ≤ |x.toRat| := by
    rw [fge_iff hfa h1, toRat_one, toRat_fabs]
  have c3 : fgt x zero ↔ 0 < x.toRat := by rw [fgt_iff hx h0, toRat_zero]
  have c4 : flt x zero ↔ x.toRat < 0 := by rw [flt_iff hx h0, toRat_zero]
  have c5 : feq p zero ↔ p.toRat = 0 := by rw [feq_iff hp h0, toRat_zero]
  have c6 : feq x zero ↔ x.toRat = 0 := by rw [feq_iff hx h0, toRat_zero]
  have gx : ¬ (libVersion = LibVersion.ieee ∨ isnan x) := fun h => h.elim hlv hx
  have gp : ¬ (libVersion = LibVersion.ieee ∨ isnan p) := fun h => h.elim hlv hp
  have asin_eq : asin false libVersion ieee754_asin x =
      if 1 < |x.toRat| then Outcome.standard x x 2 else Outcome.value (ieee754_asin x) := by
    unfold asin
    simp only [Bool.false_eq_true, if_false, if_neg gx, c1]
  have atanh_eq : atanh false libVersion ieee754_atanh x =
      if 1 ≤ |x.toRat| then
        (if 1 < |x.toRat| then Outcome.standard x x 30 else Outcome.standard x x 31)
      else Outcome.value (ieee754_atanh x) := by
    unfold atanh
    simp only [Bool.false_eq_true, if_false, if_neg gx, c1, c2]
  have log_eq : log false libVersion ieee754_log x =
      if 0 < x.toRat then Outcome.value (ieee754_log x)
      else if x.toRat = 0 then Outcome.standard x x 16 else Outcome.standard x x 17 := by
    unfold log
    simp only [Bool.false_eq_true, if_false, hlv, show ¬ isnan x from hx, false_or, c3, c6]
  have sqrt_eq : sqrt false libVersion ieee754_sqrt x =
      if x.toRat < 0 then Outcome.standard x x 26 else Outcome.value (ieee754_sqrt x) := by
    unfold sqrt
    simp only [Bool.false_eq_true, if_false, if_neg gx, c4]
  have rem_eq : remainder false libVersion x p =
      if p.toRat = 0 then Outcome.standard x p 28
      else Outcome.value (ieee754_remainder x p) := by
    unfold remainder
    simp only [Bool.false_eq_true, if_false, if_neg gp, c5]
  refine ⟨?_, ?_, ?_, ?_, ?_, ?_, ?_, ?_, ?_, ?_, ?_⟩
  · rw [asin_eq]
    by_cases h : 1 < |x.toRat|
    · simp [h]
    · simp [h]
  · intro h; rw [asin_eq, if_neg h]
  · rw [atanh_eq]
    by_cases h : 1 ≤ |x.toRat|
    · by_cases h' : 1 < |x.toRat|
      · simp [h, h']
      · simp [h, h']
    · simp [h]
  · intro h; rw [atanh_eq, if_neg h]
  · rw [log_eq]
    by_cases h : 0 < x.toRat
    · simp [h]
    · by_cases h' : x.toRat = 0
      · simp [h, h']
      · simp [h, h', not_lt.mp h]
  · intro h; rw [log_eq, if_pos (not_le.mp h)]
  · rw [sqrt_eq]
    by_cases h : x.toRat < 0
    · simp [h]
    · simp [h]
  · intro h; rw [sqrt_eq, if_neg h]
  · have g : ¬ (libVersion = LibVersion.ieee ∨ isnan negZero) :=
      fun h => h.elim hlv (by decide)
    have c : ¬ flt negZero zero := by decide
    unfold sqrt
    simp only [Bool.false_eq_true, if_false, if_neg g, if_neg c]
  · rw [rem_eq]
    by_cases h : p.toRat = 0
    · simp [h]
    · simp [h]
  · intro h; rw [rem_eq, if_neg h]

/-- C20, in POSIX mode at `x = 2.0`, `p = 0.0`. -/
theorem wrappers_legacy_witness :
    ((∃ c, asin false LibVersion.posix (fun d => d) two = Outcome.standard two two c)
      ↔ 1 < |two.toRat|) ∧
    (¬ 1 < |two.toRat| →
      asin false LibVersion.posix (fun d => d) two = Outcome.value two) ∧
    ((∃ c, atanh false LibVersion.posix (fun d => d) two = Outcome.standard two two c)
      ↔ 1 ≤ |two.toRat|) ∧
    (¬ 1 ≤ |two.toRat| →
      atanh false LibVersion.posix (fun d => d) two = Outcome.value two) ∧
    ((∃ c, log false LibVersion.posix (fun d => d) two = Outcome.standard two two c)
      ↔ two.toRat ≤ 0) ∧
    (¬ two.toRat ≤ 0 →
      log false LibVersion.posix (fun d => d) two = Outcome.value two) ∧
    ((∃ c, sqrt false LibVersion.posix (fun d => d) two = Outcome.standard two two c)
      ↔ two.toRat < 0) ∧
    (¬ two.toRat < 0 →
      sqrt false LibVersion.posix (fun d => d) two = Outcome.value two) ∧
    sqrt false LibVersion.posix (fun d => d) negZero = Outcome.value negZero ∧
    ((∃ c, remainder false LibVersion.posix two zero = Outcome.standard two zero c)
      ↔ zero.toRat = 0) ∧
    (¬ zero.toRat = 0 →
      remainder false LibVersion.posix two zero
        = Outcome.value (ieee754_remainder two zero)) :=
  wrappers_legacy LibVersion.posix (by decide) (fun d => d) (fun d => d) (fun d => d)
    (fun d => d) two zero (by decide) (by decide)

/-! ## The wrappers on a NaN input -/

/-- C21, as stated, fails: in the legacy mode `_POSIX_`, `remainder(NaN, 0.0)`
is the call of the exceptional-value handler with code 28, not the kernel
result. -/
theorem remainder_nan_zero_counterexample :
    qNaN.isNaN ∧
      remainder false LibVersion.posix qNaN zero = Outcome.standard qNaN zero 28 ∧
      remainder false LibVersion.posix qNaN zero
        ≠ Outcome.value (ieee754_remainder qNaN zero) := by
  decide

/-- C21 (amended): in a legacy mode the wrappers asin, atanh, log and sqrt
return the kernel result unmodified, without a call of the exceptional-value
handler, when x is a NaN, and so does remainder(x,p) when p is a NaN; when
only x is a NaN, remainder returns the kernel result exactly when p is not a
zero, and calls the handler with code 28 when p is a zero. -/
theorem wrappers_nan (lv : LibVersion) (hlv : lv ≠ LibVersion.ieee)
    (k : Double → Double) (x p : Double) :
    (x.isNaN → asin false lv k x = Outcome.value (k x) ∧
        atanh false lv k x = Outcome.value (k x) ∧
        log false lv k x = Outcome.value (k x) ∧
        sqrt false lv k x = Outcome.value (k x)) ∧
      (p.isNaN → remainder false lv x p = Outcome.value (ieee754_remainder x p)) ∧
      (x.isNaN → ¬ p.isNaN →
        (remainder false lv x p = Outcome.value (ieee754_remainder x p) ↔ ¬ p.isZero) ∧
        (p.isZero → remainder false lv x p = Outcome.standard x p 28)) := by
  refine ⟨fun hx => ?_, fun hp => ?_, fun _ hp => ?_⟩
  · have h : lv = LibVersion.ieee ∨ isnan x := Or.inr hx
    have h3 : lv = LibVersion.ieee ∨ isnan x ∨ fgt x zero := Or.inr (Or.inl hx)
    refine ⟨?_, ?_, ?_, ?_⟩
    · unfold asin; simp only [if_pos h, Bool.false_eq_true, if_false]
    · unfold atanh; simp only [if_pos h, Bool.false_eq_true, if_false]
    · unfold log; simp only [if_pos h3, Bool.false_eq_true, if_false]
    · unfold sqrt; simp only [if_pos h, Bool.false_eq_true, if_false]
  · have h : lv = LibVersion.ieee ∨ isnan p := Or.inr hp
    unfold remainder; simp only [if_pos h, Bool.false_eq_true, if_false]
  · have h : ¬ (lv = LibVersion.ieee ∨ isnan p) := fun h => h.elim hlv hp
    have hz : feq p zero ↔ p.isZero := by
      rw [feq_iff hp (by decide)]
      unfold Double.isZero
      rw [toRat_zero]
      constructor
      · intro e
        have := toRat_abs p
        rw [e, abs_zero] at this
        have h0 : (natVal p.mag : ℚ) = 0 := by
          have h2 : (0 : ℚ) < 2 ^ 1074 := by positivity
          field_simp at this
          exact_mod_cast this.symm
        have h1 : natVal p.mag = 0 := by exact_mod_cast h0
        exact (natVal_eq_zero).mp h1
      · intro e
        have := toRat_abs p
        rw [e] at this
        have h1 : natVal 0 = 0 := by decide
        rw [h1] at this
        simpa using this
    unfold remainder
    simp only [if_neg h, Bool.false_eq_true, if_false]
    constructor
    · constructor
      · intro e hzero
        rw [if_pos (hz.mpr hzero)] at e
        exact Outcome.noConfusion e
      · intro hnz
        rw [if_neg (mt hz.mp hnz)]
    · intro hzero
      rw [if_pos (hz.mpr hzero)]

/-- C21 (amended), at `x = NaN`, `p = 1.0` in the mode `_POSIX_`. -/
theorem wrappers_nan_witness :
    LibVersion.posix ≠ LibVersion.ieee ∧
      ((qNaN.isNaN → asin false LibVersion.posix (fun d => d) qNaN = Outcome.value qNaN ∧
        atanh false LibVersion.posix (fun d => d) qNaN = Outcome.value qNaN ∧
        log false LibVersion.posix (fun d => d) qNaN = Outcome.value qNaN ∧
        sqrt false LibVersion.posix (fun d => d) qNaN = Outcome.value qNaN) ∧
      (one.isNaN → remainder false LibVersion.posix qNaN one
          = Outcome.value (ieee754_remainder qNaN one)) ∧
      (qNaN.isNaN → ¬ one.isNaN →
        (remainder false LibVersion.posix qNaN one
            = Outcome.value (ieee754_remainder qNaN one) ↔ ¬ one.isZero) ∧
        (one.isZero → remainder false LibVersion.posix qNaN one
            = Outcome.standard qNaN one 28))) :=
  ⟨by decide, wrappers_nan LibVersion.posix (by decide) (fun d => d) qNaN one⟩

/-! ## The word accessors -/

theorem HI_ofWords (h l : Nat) : HI (Double.ofWords h l) = h % 2 ^ 32 := by
  unfold HI Double.ofWords Double.ofBits
  show (h % 2 ^ 32 * 2 ^ 32 + l % 2 ^ 32) % 2 ^ 64 / 2 ^ 32 = _
  omega

theorem LO_ofWords (h l : Nat) : LO (Double.ofWords h l) = l % 2 ^ 32 := by
  unfold LO Double.ofWords Double.ofBits
  show (h % 2 ^ 32 * 2 ^ 32 + l % 2 ^ 32) % 2 ^ 64 % 2 ^ 32 = _
  omega

theorem ofWords_HI_LO (d : Double) : Double.ofWords (HI d) (LO d) = d := by
  apply Double.ext
  unfold Double.ofWords Double.ofBits HI LO
  show (d.bits / 2 ^ 32 % 2 ^ 32 * 2 ^ 32 + d.bits % 2 ^ 32 % 2 ^ 32) % 2 ^ 64 = d.bits
  have := d.isLt
  omega

/-- C22: a double rebuilt from its high and its low word is the same
pattern; replacing the high word keeps the low word and replacing the low
word keeps the high word; the final step `__HI(x) ^= sx` of
`__ieee754_remainder`, with `sx` the sign bit of the high word of any double
`y`, keeps the 63 bits below the sign bit of `x`. -/
theorem words_roundtrip (d y : Double) (h l : Nat) :
    Double.ofWords (HI d) (LO d) = d ∧
      LO (setHI d h) = LO d ∧ HI (setHI d h) = h % 2 ^ 32 ∧
      HI (setLO d l) = HI d ∧ LO (setLO d l) = l % 2 ^ 32 ∧
      (setHI d (HI d ^^^ (HI y &&& 0x80000000))).bits % 2 ^ 63 = d.bits % 2 ^ 63 := by
  refine ⟨ofWords_HI_LO d, ?_, ?_, ?_, ?_, ?_⟩
  · unfold setHI; rw [LO_ofWords]; exact Nat.mod_eq_of_lt (LO_lt d)
  · unfold setHI; rw [HI_ofWords]
  · unfold setLO; rw [HI_ofWords]; exact Nat.mod_eq_of_lt (HI_lt d)
  · unfold setLO; rw [LO_ofWords]
  · rw [setHI_xor_sign d (HI y) (HI_lt y)]
    have h1 := mkD_mag_of_lt (s := d.sign + HI y / 2 ^ 31) (mag_lt d)
    unfold Double.mag at h1
    exact h1

/-! ## The low word read through the first word of `one` -/

/-- C26: the word that the kernels of sinh and cosh read through the first
word of `one` is the low 32 bits of the pattern of x on a big-endian and on a
little-endian layout, so the comparison with 0x8fb9f87d and the results of
both kernels do not depend on the layout. -/
theorem lowWordRead_layout (expm1 ieee754_exp : Double → Double) (x : Double) :
    lowWordRead true x = x.bits % 2 ^ 32 ∧ lowWordRead false x = x.bits % 2 ^ 32 ∧
      (lowWordRead true x ≤ 0x8fb9f87d ↔ lowWordRead false x ≤ 0x8fb9f87d) ∧
      ieee754_sinh expm1 ieee754_exp true x = ieee754_sinh expm1 ieee754_exp false x ∧
      ieee754_cosh expm1 ieee754_exp true x = ieee754_cosh expm1 ieee754_exp false x := by
  have e1 := lowWordRead_eq true x
  have e2 := lowWordRead_eq false x
  refine ⟨e1, e2, ?_, ?_, ?_⟩
  · rw [e1, e2]
  · unfold ieee754_sinh; simp only [e1, e2]
  · unfold ieee754_cosh; simp only [e1, e2]

/-! ## The branches of `__ieee754_cosh` below 22 -/

/-- C25, as stated, fails: at `x = 1.0`, whose high word 0x3ff00000 is below
0x40360000, the kernel returns `half*t + half/t` with `t = exp(|x|)`; with 0
standing in for `expm1` and 2 for `exp` that is 1.25, not the value 1.0 of
`one + (t*t)/(w+w)`. -/
theorem cosh_expm1_counterexample :
    one.isFinite ∧ sint (HI one &&& 0x7fffffff) < 0x40360000 ∧
      ieee754_cosh (fun _ => zero) (fun _ => two) false one
        = fadd (fmul half two) (fdiv half two) ∧
      ieee754_cosh (fun _ => zero) (fun _ => two) false one
        ≠ fadd one (fdiv (fmul zero zero) (fadd (fadd one zero) (fadd one zero))) := by
  decide!

/-- C25 (amended): with t = expm1(|x|) and w = one + t, `__ieee754_cosh(x)`
is w when the high word of |x| is below 0x3c800000, and one + (t*t)/(w+w)
when it is in [0x3c800000, 0x3fd62e43); when it is in [0x3fd62e43,
0x40360000) the result is half*t + half/t with t = exp(|x|) and expm1 is not
used. -/
theorem cosh_branches (expm1 ieee754_exp : Double → Double) (bigEndian : Bool)
    (x : Double) :
    (x.mag < 0x3c800000 * 2 ^ 32 →
      ieee754_cosh expm1 ieee754_exp bigEndian x = fadd one (expm1 (fabs x))) ∧
    (0x3c800000 * 2 ^ 32 ≤ x.mag → x.mag < 0x3fd62e43 * 2 ^ 32 →
      ieee754_cosh expm1 ieee754_exp bigEndian x
        = fadd one (fdiv (fmul (expm1 (fabs x)) (expm1 (fabs x)))
            (fadd (fadd one (expm1 (fabs x))) (fadd one (expm1 (fabs x)))))) ∧
    (0x3fd62e43 * 2 ^ 32 ≤ x.mag → x.mag < 0x40360000 * 2 ^ 32 →
      ieee754_cosh expm1 ieee754_exp bigEndian x
        = fadd (fmul half (ieee754_exp (fabs x))) (fdiv half (ieee754_exp (fabs x)))) := by
  have c0 : x.mag < 0x40360000 * 2 ^ 32 → ¬ sint (HI x &&& 0x7fffffff) ≥ 0x7ff00000 := by
    intro h
    exact mt (cond_hi_ge x 0x7ff00000).mp (by omega)
  refine ⟨fun h => ?_, fun h1 h2 => ?_, fun h1 h2 => ?_⟩
  · have m1 : sint (HI x &&& 0x7fffffff) < 0x3fd62e43 :=
      (cond_hi_lt x 0x3fd62e43).mpr (by omega)
    have m2 : sint (HI x &&& 0x7fffffff) < 0x3c800000 := (cond_hi_lt x 0x3c800000).mpr h
    unfold ieee754_cosh
    simp only [if_neg (c0 (by omega)), if_pos m1, if_pos m2]
  · have m1 : sint (HI x &&& 0x7fffffff) < 0x3fd62e43 := (cond_hi_lt x 0x3fd62e43).mpr h2
    have m2 : ¬ sint (HI x &&& 0x7fffffff) < 0x3c800000 :=
      mt (cond_hi_lt x 0x3c800000).mp (by omega)
    unfold ieee754_cosh
    simp only [if_neg (c0 (by omega)), if_pos m1, if_neg m2]
  · have m1 : ¬ sint (HI x &&& 0x7fffffff) < 0x3fd62e43 :=
      mt (cond_hi_lt x 0x3fd62e43).mp (by omega)
    have m3 : sint (HI x &&& 0x7fffffff) < 0x40360000 := (cond_hi_lt x 0x40360000).mpr h2
    unfold ieee754_cosh
    simp only [if_neg (c0 h2), if_neg m1, if_pos m3]

/-- C25 (amended), at `x = 1.0`, with 0 standing in for `expm1` and 2 for
`exp`. -/
theorem cosh_branches_witness :
    (one.mag < 0x3c800000 * 2 ^ 32 →
      ieee754_cosh (fun _ => zero) (fun _ => two) false one
        = fadd one ((fun _ => zero) (fabs one))) ∧
    (0x3c800000 * 2 ^ 32 ≤ one.mag → one.mag < 0x3fd62e43 * 2 ^ 32 →
      ieee754_cosh (fun _ => zero) (fun _ => two) false one
        = fadd one (fdiv (fmul ((fun _ => zero) (fabs one)) ((fun _ => zero) (fabs one)))
            (fadd (fadd one ((fun _ => zero) (fabs one)))
              (fadd one ((fun _ => zero) (fabs one)))))) ∧
    (0x3fd62e43 * 2 ^ 32 ≤ one.mag → one.mag < 0x40360000 * 2 ^ 32 →
      ieee754_cosh (fun _ => zero) (fun _ => two) false one
        = fadd (fmul half ((fun _ => two) (fabs one)))
            (fdiv half ((fun _ => two) (fabs one)))) :=
  cosh_branches (fun _ => zero) (fun _ => two) false one

/-! ## `logb` brackets a normal double -/

theorem two_zpow_sub (a b : Nat) (z : Int) (h : z = (a : Int) - (b : Int)) :
    (2 : ℚ) ^ z = 2 ^ a / 2 ^ b := by
  subst h
  rw [zpow_sub₀ two_ne_zero, zpow_natCast, zpow_natCast]

/-- C30: for every normal finite double x (exponent field between 1 and
2046), logb(x) is an integer e with -1022 ≤ e ≤ 1023 and
2^e ≤ |x| < 2^(e+1). -/
theorem logb_bracket (x : Double) (h1 : 1 ≤ x.expo) (h2 : x.expo ≤ 2046) :
    ∃ e : Int, (logb x).toRat = (e : ℚ) ∧ -1022 ≤ e ∧ e ≤ 1023 ∧
      (2 : ℚ) ^ e ≤ |x.toRat| ∧ |x.toRat| < (2 : ℚ) ^ (e + 1) := by
  have hm := mag_eq_fields x
  have hmant := mant_lt x
  have e0 : logb x = i2d ((x.expo : Int) - 1023) := by
    rw [logb_eq, if_neg (by omega), if_neg, if_neg (by omega)]
    unfold Double.isFinite infMag
    rw [not_not]; omega
  have hex := i2d_exact ((x.expo : Int) - 1023) (by omega)
  have hv : natVal x.mag = (2 ^ 52 + x.mant) * 2 ^ (x.expo - 1) := by
    rw [hm]; exact natVal_fields h1 hmant
  have hlo : 2 ^ (x.expo + 51) ≤ natVal x.mag := by
    rw [hv]
    have e : 2 ^ (x.expo + 51) = 2 ^ 52 * 2 ^ (x.expo - 1) := by
      rw [← pow_add]; congr 1; omega
    rw [e]
    exact Nat.mul_le_mul_right _ (by omega)
  have hhi : natVal x.mag < 2 ^ (x.expo + 52) := by
    rw [hv]
    have e : 2 ^ (x.expo + 52) = 2 ^ 53 * 2 ^ (x.expo - 1) := by
      rw [← pow_add]; congr 1; omega
    rw [e]
    exact Nat.mul_lt_mul_of_pos_right (by omega) (by positivity)
  have p : (0 : ℚ) < 2 ^ 1074 := by positivity
  refine ⟨(x.expo : Int) - 1023, ?_, by omega, by omega, ?_, ?_⟩
  · rw [e0, toRat_of_exact hex]
  · rw [toRat_abs, two_zpow_sub (x.expo + 51) 1074 _ (by push_cast; omega)]
    apply div_le_div_of_nonneg_right _ (le_of_lt p)
    have : ((2 ^ (x.expo + 51) : Nat) : ℚ) ≤ (natVal x.mag : ℚ) := by exact_mod_cast hlo
    rwa [cast_two_pow] at this
  · rw [toRat_abs, two_zpow_sub (x.expo + 52) 1074 _ (by push_cast; omega)]
    apply div_lt_div_of_pos_right _ p
    have : (natVal x.mag : ℚ) < ((2 ^ (x.expo + 52) : Nat) : ℚ) := by exact_mod_cast hhi
    rwa [cast_two_pow] at this

/-- C30, at x = -3.75, whose exponent field is 1024. -/
theorem logb_bracket_witness :
    1 ≤ (Double.ofBits 0xc00e000000000000).expo ∧
    (Double.ofBits 0xc00e000000000000).expo ≤ 2046 ∧
    ∃ e : Int, (logb (Double.ofBits 0xc00e000000000000)).toRat = (e : ℚ) ∧
      -1022 ≤ e ∧ e ≤ 1023 ∧
      (2 : ℚ) ^ e ≤ |(Double.ofBits 0xc00e000000000000).toRat| ∧
      |(Double.ofBits 0xc00e000000000000).toRat| < (2 : ℚ) ^ (e + 1) :=
  ⟨by decide, by decide,
    logb_bracket (Double.ofBits 0xc00e000000000000) (by decide) (by decide)⟩

/-! ## `osSupport::size` -/

theorem toJsize_of_lt (jsizeBits : Nat) (v : Int) (h0 : 0 ≤ v)
    (h1 : v < 2 ^ (jsizeBits - 1)) (hb : 1 ≤ jsizeBits) : toJsize jsizeBits v = v := by
  have hp : (2 : Int) ^ (jsizeBits - 1) ≤ 2 ^ jsizeBits :=
    pow_le_pow_right₀ (by norm_num) (by omega)
  have e : v % 2 ^ jsizeBits = v := Int.emod_eq_of_lt h0 (by omega)
  unfold toJsize
  simp only [e, if_pos h1]

/-- Sizes below `2^31` are returned as they are, with the 32-bit `jsize` and
the value 0100000 of `S_IFREG`. -/
theorem size_small (st_mode : Nat) (st_size : Int)
    (hm : st_mode &&& 0o100000 = 0o100000) (h0 : 0 ≤ st_size) (h1 : st_size < 2 ^ 31) :
    osSupport.size 32 0o100000 0 st_mode st_size = st_size := by
  unfold osSupport.size
  rw [if_neg (by rw [hm]; simp)]
  exact toJsize_of_lt 32 st_size h0 h1 (by norm_num)

/-- C28: with the 32-bit `jsize` and the value 0100000 of `S_IFREG`, a
successful `stat` of a regular file (mode 0100644) of `2^31` bytes makes
`osSupport::size` return `-2^31`, which is not the size. -/
theorem size_truncated :
    osSupport.size 32 0o100000 0 0o100644 (2 ^ 31) = -(2 ^ 31) ∧
      osSupport.size 32 0o100000 0 0o100644 (2 ^ 31) ≠ 2 ^ 31 := by
  decide

/-! ## `collapse` -/

/-- The path "/a/./b/../c" collapses to "/a/c". -/
theorem collapse_example :
    (collapse 16 (Mem.ofPath [47, 97, 47, 46, 47, 98, 47, 46, 46, 47, 99])).map
      (fun m => m.cstr 16 0) = some [47, 97, 47, 99] := by
  decide

/-- C23: on the path "/.", whose only name is ".", `collapse` returns
without a store, so the path left is "/." and its name is still ".". -/
theorem collapse_single_dot :
    (collapse 16 (Mem.ofPath [47, 46])).map (fun m => (m.cstr 16 0, m.stores))
      = some ([47, 46], []) := by
  decide

/-- C24: on the path "/../..", which consists of ".." names only, `collapse`
removes both names and leaves "/"; on "../.." it leaves the empty path. -/
theorem collapse_dotdot_pair :
    (collapse 16 (Mem.ofPath [47, 46, 46, 47, 46, 46])).map (fun m => m.cstr 16 0)
        = some [47] ∧
      (collapse 16 (Mem.ofPath [46, 46, 47, 46, 46])).map (fun m => m.cstr 16 0)
        = some [] := by
  decide

/-- C29: on the path "/../a", of length 5, `collapse` leaves the path as it
is and stores to the offsets 3, 3 and 6, the last of them (the final
`*p = 0` of `joinNames`) past the terminating NUL at offset 5. -/
theorem collapse_store_past_end :
    (collapse 16 (Mem.ofPath [47, 46, 46, 47, 97])).map
      (fun m => (m.cstr 16 0, m.stores.reverse)) = some ([47, 46, 46, 47, 97], [3, 3, 6]) := by
  decide

/-! ## `Java_java_lang_ProcessEnvironment_environ` -/

theorem strchr_none {e : List Nat} {c : Nat} : strchr e c = none ↔ c ∉ e := by
  induction e with
  | nil => simp [strchr]
  | cons b s ih =>
    unfold strchr
    by_cases h : b = c
    · simp [h]
    · rw [if_neg h, Option.map_eq_none', ih]
      simp [Ne.symm h]

theorem strchr_some {e : List Nat} {c k : Nat} (h : strchr e c = some k) :
    e.take k ++ c :: e.drop (k + 1) = e ∧ c ∉ e.take k := by
  induction e generalizing k with
  | nil => simp [strchr] at h
  | cons b s ih =>
    unfold strchr at h
    by_cases hb : b = c
    · rw [if_pos hb] at h
      have hk : k = 0 := by simpa using h.symm
      subst hk
      simp [hb]
    · rw [if_neg hb, Option.map_eq_some'] at h
      obtain ⟨k', hk', rfl⟩ := h
      have := ih hk'
      refine ⟨?_, ?_⟩
      · simp only [List.take_succ_cons, List.drop_succ_cons, List.cons_append]
        rw [this.1]
      · simp only [List.take_succ_cons, List.mem_cons, not_or]
        exact ⟨Ne.symm hb, this.2⟩

theorem strchr_lt {e : List Nat} {c k : Nat} (h : strchr e c = some k) : k < e.length := by
  induction e generalizing k with
  | nil => simp [strchr] at h
  | cons b s ih =>
    unfold strchr at h
    by_cases hb : b = c
    · rw [if_pos hb] at h
      have hk : k = 0 := by simpa using h.symm
      subst hk
      simp
    · rw [if_neg hb, Option.map_eq_some'] at h
      obtain ⟨k', hk', rfl⟩ := h
      have := ih hk'
      simp only [List.length_cons]
      omega

theorem getElem?_set_at {α : Type} (l : List α) (i : Nat) (a : α) (h : i < l.length) :
    (l.set i a)[i]? = some a := by
  rw [List.getElem?_set]
  simp [h]

theorem environAt_append (pre rest : List (List Nat)) :
    environAt (pre ++ rest) (pre.length : Int) = rest.head? := by
  unfold environAt
  rw [if_pos (Int.natCast_nonneg _), Int.toNat_natCast,
    List.getElem?_append_right (le_refl _), Nat.sub_self]
  cases rest <;> simp

theorem toJsize_nat (jsizeBits : Nat) (hb : 1 ≤ jsizeBits) (n : Nat)
    (h : (n : Int) < 2 ^ (jsizeBits - 1)) : toJsize jsizeBits (n : Int) = (n : Int) :=
  toJsize_of_lt jsizeBits n (Int.natCast_nonneg _) h hb

/-- The first loop counts the entries of `environ` that contain the byte
'=', as long as the index and the count fit a `jsize`. -/
theorem environCount_spec (jsizeBits : Nat) (hb : 1 ≤ jsizeBits)
    (rest pre : List (List Nat)) (fuel count : Nat)
    (hf : rest.length < fuel)
    (hl : ((pre ++ rest).length : Int) < 2 ^ (jsizeBits - 1))
    (hc : ((count + (rest.filter (fun e => decide (61 ∈ e))).length : Nat) : Int)
      < 2 ^ (jsizeBits - 1)) :
    environCount jsizeBits (pre ++ rest) fuel (pre.length : Int) (count : Int)
      = some ((count + (rest.filter (fun e => decide (61 ∈ e))).length : Nat) : Int) := by
  induction rest generalizing pre fuel count with
  | nil =>
    cases fuel with
    | zero => simp at hf
    | succ f =>
      unfold environCount
      rw [environAt_append]
      simp
  | cons e es ih =>
    cases fuel with
    | zero => simp at hf
    | succ f =>
      unfold environCount
      rw [environAt_append]
      simp only [List.head?_cons]
      simp only [List.length_append, List.length_cons] at hl hf
      have hi : toJsize jsizeBits ((pre.length : Int) + 1) = ((pre ++ [e]).length : Int) := by
        have := toJsize_nat jsizeBits hb (pre.length + 1) (by push_cast; omega)
        simp only [List.length_append, List.length_cons, List.length_nil]
        push_cast at this ⊢
        simpa using this
      have hsplit : pre ++ e :: es = (pre ++ [e]) ++ es := by simp
      rw [hi, hsplit]
      by_cases h : 61 ∈ e
      · have h1 : (strchr e 61).isSome = true := by
          rw [Option.isSome_iff_ne_none]; exact fun h2 => (strchr_none.mp h2) h
        have hfl : ((e :: es).filter (fun e => decide (61 ∈ e))).length
            = (es.filter (fun e => decide (61 ∈ e))).length + 1 := by
          simp [List.filter_cons, h]
        rw [hfl] at hc ⊢
        have hcnt : toJsize jsizeBits ((count : Int) + 1) = ((count + 1 : Nat) : Int) := by
          have := toJsize_nat jsizeBits hb (count + 1) (by push_cast at hc ⊢; omega)
          push_cast at this ⊢
          exact this
        simp only [if_pos h1, hcnt]
        rw [ih (pre ++ [e]) f (count + 1) (by omega)
          (by simp only [List.length_append, List.length_cons, List.length_nil]
              push_cast; push_cast at hl; omega)
          (by push_cast at hc ⊢; omega)]
        congr 2; omega
      · have h1 : ¬ (strchr e 61).isSome = true := by
          rw [strchr_none.mpr h]; simp
        have hfl : ((e :: es).filter (fun e => decide (61 ∈ e))).length
            = (es.filter (fun e => decide (61 ∈ e))).length := by
          simp [List.filter_cons, h]
        rw [hfl] at hc ⊢
        simp only [if_neg h1]
        exact ih (pre ++ [e]) f count (by omega)
          (by simp only [List.length_append, List.length_cons, List.length_nil]
              push_cast; push_cast at hl; omega)
          hc

theorem setObjectArrayElement_nat (result : List (Option (List Nat))) (i : Nat)
    (value : List Nat) :
    setObjectArrayElement result (i : Int) value = result.set i (some value) := by
  unfold setObjectArrayElement
  rw [if_pos (Int.natCast_nonneg _), Int.toNat_natCast]

/-- The second loop, when every call of `NewByteArray` returns an array and
the index, the lengths and the array positions fit a `jsize`: the array
keeps its length and its elements below `2*j`, and the t-th entry with a
'=' that is left fills the elements `2*(j+t)` and `2*(j+t)+1`. -/
theorem environFill_spec (jni : JNIEnv) (jsizeBits : Nat) (hb : 1 ≤ jsizeBits)
    (hbytes : ∀ n len, 0 ≤ len → jni.newByteArray n len = true)
    (rest pre : List (List Nat)) (fuel j n : Nat) (result : List (Option (List Nat)))
    (hf : rest.length < fuel)
    (hl : ((pre ++ rest).length : Int) < 2 ^ (jsizeBits - 1))
    (he : ∀ e ∈ rest, (e.length : Int) < 2 ^ (jsizeBits - 1))
    (hlen : 2 * (j + (rest.filter (fun e => decide (61 ∈ e))).length) ≤ result.length)
    (hr : (result.length : Int) < 2 ^ (jsizeBits - 1)) :
    ∃ r, environFill jni jsizeBits (pre ++ rest) fuel (pre.length : Int) (j : Int) n result
        = some (some r) ∧
      r.length = result.length ∧
      (∀ i, i < 2 * j → r[i]? = result[i]?) ∧
      (∀ t e, (rest.filter (fun e => decide (61 ∈ e)))[t]? = some e →
        ∃ name value,
          r[2 * (j + t)]? = some (some name) ∧
          r[2 * (j + t) + 1]? = some (some value) ∧
          61 ∉ name ∧ name ++ 61 :: value = e) := by
  induction rest generalizing pre fuel j n result with
  | nil =>
    cases fuel with
    | zero => simp at hf
    | succ f =>
      refine ⟨result, ?_, rfl, fun _ _ => rfl, ?_⟩
      · unfold environFill
        rw [environAt_append]
        simp
      · intro t e h
        simp at h
  | cons e es ih =>
    cases fuel with
    | zero => simp at hf
    | succ f =>
      unfold environFill
      rw [environAt_append]
      simp only [List.head?_cons]
      simp only [List.length_append, List.length_cons] at hl hf
      have hi : toJsize jsizeBits ((pre.length : Int) + 1) = ((pre ++ [e]).length : Int) := by
        have := toJsize_nat jsizeBits hb (pre.length + 1) (by push_cast; omega)
        simp only [List.length_append, List.length_cons, List.length_nil]
        push_cast at this ⊢
        simpa using this
      have hsplit : pre ++ e :: es = (pre ++ [e]) ++ es := by simp
      have hl' : (((pre ++ [e]) ++ es).length : Int) < 2 ^ (jsizeBits - 1) := by
        simp only [List.length_append, List.length_cons, List.length_nil]
        push_cast; push_cast at hl; omega
      have he' : ∀ e ∈ es, (e.length : Int) < 2 ^ (jsizeBits - 1) :=
        fun x hx => he x (List.mem_cons_of_mem _ hx)
      rw [hi, hsplit]
      cases hs : strchr e 61 with
      | none =>
        have hn : 61 ∉ e := strchr_none.mp hs
        have hfl : (e :: es).filter (fun e => decide (61 ∈ e))
            = es.filter (fun e => decide (61 ∈ e)) := by
          simp [List.filter_cons, hn]
        rw [hfl] at hlen ⊢
        exact ih (pre ++ [e]) f j n result (by omega) hl' he' hlen hr
      | some k =>
        have hk := strchr_some hs
        have hklt := strchr_lt hs
        have hin : 61 ∈ e := by
          by_contra hn
          rw [strchr_none.mpr hn] at hs
          exact Option.noConfusion hs
        have hfl : (e :: es).filter (fun e => decide (61 ∈ e))
            = e :: es.filter (fun e => decide (61 ∈ e)) := by
          simp [List.filter_cons, hin]
        rw [hfl] at hlen ⊢
        simp only [List.length_cons] at hlen
        have hel := he e (List.mem_cons_self _ _)
        have hvar : toJsize jsizeBits (k : Int) = (k : Int) :=
          toJsize_nat jsizeBits hb k (by omega)
        have hval : toJsize jsizeBits ((e.drop (k + 1)).length : Int)
            = ((e.drop (k + 1)).length : Int) :=
          toJsize_nat jsizeBits hb _ (by rw [List.length_drop]; omega)
        have h2j : toJsize jsizeBits (2 * (j : Int)) = ((2 * j : Nat) : Int) := by
          have := toJsize_nat jsizeBits hb (2 * j) (by omega)
          push_cast at this ⊢
          exact this
        have h2j1 : toJsize jsizeBits (2 * (j : Int) + 1) = ((2 * j + 1 : Nat) : Int) := by
          have := toJsize_nat jsizeBits hb (2 * j + 1) (by omega)
          push_cast at this ⊢
          exact this
        have hj1 : toJsize jsizeBits ((j : Int) + 1) = ((j + 1 : Nat) : Int) := by
          have := toJsize_nat jsizeBits hb (j + 1) (by omega)
          push_cast at this ⊢
          exact this
        have b1 : jni.newByteArray n (k : Int) = true := hbytes _ _ (Int.natCast_nonneg _)
        have b2 : jni.newByteArray (n + 1) ((e.drop (k + 1)).length : Int) = true :=
          hbytes _ _ (Int.natCast_nonneg _)
        simp only [hvar, hval, h2j, h2j1, hj1, b1, b2, not_true_eq_false, if_false,
          Int.toNat_natCast, List.take_length, setObjectArrayElement_nat]
        have hlr : (((result.set (2 * j) (some (e.take k))).set (2 * j + 1)
            (some (e.drop (k + 1))))).length = result.length := by
          simp only [List.length_set]
        obtain ⟨r, i0, i1, i2, i3⟩ := ih (pre ++ [e]) f (j + 1) (n + 2)
          ((result.set (2 * j) (some (e.take k))).set (2 * j + 1) (some (e.drop (k + 1))))
          (by omega) hl' he' (by rw [hlr]; omega) (by rw [hlr]; exact hr)
        refine ⟨r, i0, by rw [i1, hlr], ?_, ?_⟩
        · intro i hi
          rw [i2 i (by omega), List.getElem?_set_ne (by omega),
            List.getElem?_set_ne (by omega)]
        · intro t e' ht
          cases t with
          | zero =>
            simp only [List.getElem?_cons_zero, Option.some.injEq] at ht
            subst ht
            refine ⟨e.take k, e.drop (k + 1), ?_, ?_, hk.2, hk.1⟩
            · simp only [Nat.add_zero]
              rw [i2 _ (by omega), List.getElem?_set_ne (by omega)]
              exact getElem?_set_at _ _ _ (by omega)
            · simp only [Nat.add_zero]
              rw [i2 _ (by omega)]
              exact getElem?_set_at _ _ _ (by rw [List.length_set]; omega)
          | succ t =>
            simp only [List.getElem?_cons_succ] at ht
            obtain ⟨name, value, a1, a2, a3, a4⟩ := i3 t e' ht
            refine ⟨name, value, ?_, ?_, a3, a4⟩
            · rw [show 2 * (j + (t + 1)) = 2 * (j + 1 + t) by omega]; exact a1
            · rw [show 2 * (j + (t + 1)) = 2 * (j + 1 + t) by omega]; exact a2

/-- C27, as stated, fails: on the environment "A=1", when `NewObjectArray`
returns NULL the function returns NULL, not an array of two elements. -/
theorem environ_null_counterexample :
    Java_java_lang_ProcessEnvironment_environ ⟨true, fun _ => false, fun _ _ => true⟩ 32 8
      [[65, 61, 49]] = some none := by
  decide

/-- C27 (amended): when `FindClass`, `NewObjectArray` and every call of
`NewByteArray` return an object, and the number of entries, the length of
each entry and 2*k fit a `jsize`, k being the number of entries of `environ`
that contain '=', the function returns an array of 2*k elements; for the
j-th such entry e, element 2j is a byte array `name` without '=' and element
2j+1 a byte array `value` with name ++ "=" ++ value = e, so the entry is
split at its first '='. -/
theorem environ_split (jni : JNIEnv) (jsizeBits fuel : Nat) (environ : List (List Nat))
    (hb : 1 ≤ jsizeBits) (hfuel : environ.length < fuel)
    (hn : (environ.length : Int) < 2 ^ (jsizeBits - 1))
    (hk : ((2 * (environ.filter (fun e => decide (61 ∈ e))).length : Nat) : Int)
      < 2 ^ (jsizeBits - 1))
    (he : ∀ e ∈ environ, (e.length : Int) < 2 ^ (jsizeBits - 1))
    (hcls : jni.findClass = true)
    (harr : jni.newObjectArray
      ((2 * (environ.filter (fun e => decide (61 ∈ e))).length : Nat) : Int) = true)
    (hbytes : ∀ n len, 0 ≤ len → jni.newByteArray n len = true) :
    ∃ result, Java_java_lang_ProcessEnvironment_environ jni jsizeBits fuel environ
        = some (some result) ∧
      result.length = 2 * (environ.filter (fun e => decide (61 ∈ e))).length ∧
      ∀ j e, (environ.filter (fun e => decide (61 ∈ e)))[j]? = some e →
        ∃ name value,
          result[2 * j]? = some (some name) ∧ result[2 * j + 1]? = some (some value) ∧
          61 ∉ name ∧ name ++ 61 :: value = e := by
  have hc := environCount_spec jsizeBits hb environ [] fuel 0 hfuel
    (by simpa using hn) (by push_cast at hk ⊢; omega)
  simp only [List.nil_append, List.length_nil, Nat.zero_add, Nat.cast_zero] at hc
  have h2 : toJsize jsizeBits
      (2 * (((environ.filter (fun e => decide (61 ∈ e))).length : Nat) : Int))
      = ((2 * (environ.filter (fun e => decide (61 ∈ e))).length : Nat) : Int) := by
    have := toJsize_nat jsizeBits hb _ hk
    push_cast at this ⊢
    exact this
  obtain ⟨r, h0, h1, _, h3⟩ := environFill_spec jni jsizeBits hb hbytes environ [] fuel 0 0
    (List.replicate (2 * (environ.filter (fun e => decide (61 ∈ e))).length) none)
    hfuel (by simpa using hn) he (by rw [List.length_replicate]; omega)
    (by rw [List.length_replicate]; exact hk)
  simp only [List.nil_append, List.length_nil, Nat.cast_zero] at h0
  refine ⟨r, ?_, by rw [h1, List.length_replicate], ?_⟩
  · unfold Java_java_lang_ProcessEnvironment_environ
    simp only [hcls, not_true_eq_false, if_false, hc, h2, harr, Int.toNat_natCast]
    exact h0
  · intro j e hj
    have := h3 j e hj
    rwa [Nat.zero_add] at this

/-- C27 (amended), on the environment "A=1", "junk", "B=x=y" with the 32-bit
`jsize` and every call into the JNI returning an object. -/
theorem environ_split_witness :
    ∃ result, Java_java_lang_ProcessEnvironment_environ
          ⟨true, fun _ => true, fun _ _ => true⟩ 32 8
          [[65, 61, 49], [106, 117, 110, 107], [66, 61, 120, 61, 121]]
        = some (some result) ∧
      result.length = 2 * ([[65, 61, 49], [106, 117, 110, 107],
        [66, 61, 120, 61, 121]].filter (fun e => decide (61 ∈ e))).length ∧
      ∀ j e, ([[65, 61, 49], [106, 117, 110, 107],
          [66, 61, 120, 61, 121]].filter (fun e => decide (61 ∈ e)))[j]? = some e →
        ∃ name value,
          result[2 * j]? = some (some name) ∧ result[2 * j + 1]? = some (some value) ∧
          61 ∉ name ∧ name ++ 61 :: value = e :=
  environ_split ⟨true, fun _ => true, fun _ _ => true⟩ 32 8
    [[65, 61, 49], [106, 117, 110, 107], [66, 61, 120, 61, 121]]
    (by decide) (by decide) (by decide) (by decide) (by decide) rfl rfl (fun _ _ _ => rfl)

/-- The environment "A=1", "junk", "B=x=y" gives the array "A", "1", "B",
"x=y". -/
theorem environ_example :
    Java_java_lang_ProcessEnvironment_environ ⟨true, fun _ => true, fun _ _ => true⟩ 32 8
        [[65, 61, 49], [106, 117, 110, 107], [66, 61, 120, 61, 121]]
      = some (some [some [65], some [49], some [66], some [120, 61, 121]]) := by
  decide

/-- When `FindClass` or `NewObjectArray` returns NULL, so does the function
(given fuel for the first loop). -/
theorem environ_null (jni : JNIEnv) (jsizeBits fuel : Nat) (environ : List (List Nat)) :
    (jni.findClass = false →
      Java_java_lang_ProcessEnvironment_environ jni jsizeBits fuel environ = some none) ∧
    (∀ count, environCount jsizeBits environ fuel 0 0 = some count →
      jni.findClass = true → jni.newObjectArray (toJsize jsizeBits (2 * count)) = false →
      Java_java_lang_ProcessEnvironment_environ jni jsizeBits fuel environ = some none) := by
  constructor
  · intro h
    unfold Java_java_lang_ProcessEnvironment_environ
    simp [h]
  · intro count hc h1 h2
    unfold Java_java_lang_ProcessEnvironment_environ
    simp [h1, hc, h2]

end Centurion
